import Mathlib

/-!
# monos-c `error.h` / `error.c`: try / catch / finally on top of setjmp / longjmp

Shallow embedding of the exception mechanism.

* Context objects (`struct monos_except_context`) live in an explicit memory:
  the static sentinel `ctxt_0` and the automatic `_monos_except_ctxt` objects
  of the block activations, addressed by `CtxtPtr`.  An automatic object keeps
  its slot after its block has ended, so a stale pointer still reads the last
  content of the object.
* `ctxt_stack_p` and `link_p` are nullable pointers (`Option CtxtPtr`).
* Exception descriptors (`struct monos_except`) are static objects; a pointer
  to one is its address (`Nat`), and `mem` maps an address to the descriptor.
* User code is a function `Machine → Outcome`; `longjmp` is the outcome
  `jump target`, which travels outward until the block owning `target`
  resumes at its `setjmp`.
-/

namespace Monos

/-- The constant `MONOS_MAX_EXCEPT`. -/
def MONOS_MAX_EXCEPT : Nat := 32

/-- The type `struct monos_except`: only a message, `none` for a NULL message. -/
structure monos_except where
  message : Option String
deriving DecidableEq, Repr

/-- A non-null `struct monos_except_context *`: the address of the static
`ctxt_0`, or of the `_monos_except_ctxt` of the `n`-th block activation. -/
inductive CtxtPtr where
  | static0 : CtxtPtr
  | auto (n : Nat) : CtxtPtr
deriving DecidableEq, Repr

/-- The type `struct monos_except_context`.  The `jmp_buf env` is not a field:
the saved continuation is the `setjmp` of the block that owns the object, so
the object's address stands for it.  `array` has `MONOS_MAX_EXCEPT` slots, a
slot holding the address of a descriptor or `none` (NULL / never written). -/
structure monos_except_context where
  except_count : Nat
  array : List (Option Nat)
  except_p : Option Nat
  file : Option String
  func : Option String
  line : Nat
  has_finally : Bool
  link_p : Option CtxtPtr
deriving DecidableEq, Repr

/-- The state of the process that the mechanism reads and writes: the static
`ctxt_0`, the automatic context objects, the static `ctxt_stack_p`, what was
written to `stderr`, and what user code recorded. -/
structure Machine where
  ctxt_0 : monos_except_context
  autos : List monos_except_context
  ctxt_stack_p : Option CtxtPtr
  stderr : String
  out : List String
deriving DecidableEq

/-- Reading `*p`; `none` when `p` points to no object. -/
def Machine.load (m : Machine) : CtxtPtr → Option monos_except_context
  | .static0 => some m.ctxt_0
  | .auto n => m.autos[n]?

/-- Writing `*p = c`. -/
def Machine.store (m : Machine) : CtxtPtr → monos_except_context → Machine
  | .static0, c => { m with ctxt_0 := c }
  | .auto n, c => { m with autos := m.autos.set n c }

/-- The assignment `ctxt_stack_p = p`. -/
def Machine.set_stack_p (m : Machine) (p : Option CtxtPtr) : Machine :=
  { m with ctxt_stack_p := p }

/-- Text written to `stderr`. -/
def Machine.print (m : Machine) (s : String) : Machine :=
  { m with stderr := m.stderr ++ s }

/-- The effect of user code on what has been recorded. -/
def Machine.map_out (m : Machine) (f : List String → List String) : Machine :=
  { m with out := f m.out }

/-- How a piece of code ends: control falls through (`normal`); a `longjmp`
to the `env` of the context `target` is under way (`jump`); the process has
called `abort()` (`aborted`) or `exit(EXIT_FAILURE)` (`exited`); the code has
read or written through a pointer to no object, or outside an array, which
is undefined behaviour in C (`fault`); or a loop has not ended within the
steps allowed (`diverge`). -/
inductive Outcome where
  | normal (m : Machine) : Outcome
  | jump (target : CtxtPtr) (m : Machine) : Outcome
  | aborted (m : Machine) : Outcome
  | exited (m : Machine) : Outcome
  | fault : Outcome
  | diverge : Outcome
deriving DecidableEq

/-- A piece of code, as a function of the machine state. -/
abbrev Code := Machine → Outcome

/-- The statically zero-initialised `ctxt_0`. -/
def ctxt_0_init : monos_except_context :=
  { except_count := 0, array := List.replicate MONOS_MAX_EXCEPT none, except_p := none,
    file := none, func := none, line := 0, has_finally := false, link_p := none }

/-- The process state at start: `ctxt_stack_p = NULL`, no block entered. -/
def Machine.init : Machine :=
  { ctxt_0 := ctxt_0_init, autos := [], ctxt_stack_p := none, stderr := "", out := [] }

/-- The inner loop of `monos_except_throw_loc` (error.c:35-38):
`for (i = 0; i < x->except_count && !context_found; ++i)
   context_found = (x->array[i] == except_p);`
The first argument counts the iterations left (`except_count - i`). -/
def array_scan (c : monos_except_context) (except_p : Nat) : Nat → Nat → Bool → Bool
  | 0, _, context_found => context_found
  | n + 1, i, context_found =>
      if i < c.except_count && !context_found then
        array_scan c except_p n (i + 1) (c.array.getD i none == some except_p)
      else context_found

/-- The result of a pointer-chasing loop: the pointer it stops with, a read
through a pointer to no object, or no end within the steps allowed. -/
inductive Search where
  | stop (p : Option CtxtPtr) : Search
  | fault : Search
  | diverge : Search
deriving DecidableEq

/-- The outer loop of the handler search (error.c:33-40), started at
`x_ctxt_p`; the value is `x_ctxt_p` when the loop is left. -/
def handler_search (m : Machine) (except_p : Nat) : Nat → Option CtxtPtr → Search
  | 0, _ => .diverge
  | _ + 1, none => .stop none
  | n + 1, some p =>
      match m.load p with
      | none => .fault
      | some c =>
          if array_scan c except_p c.except_count 0 false then .stop (some p)
          else handler_search m except_p n c.link_p

/-- The search for the context of the Finally block (error.c:57-59):
`for (ctxt_p = ctxt_stack_p;
      ctxt_p != NULL && ctxt_p != x_ctxt_p && !(ctxt_p->has_finally);
      ctxt_p = ctxt_p->link_p);` -/
def finally_search (m : Machine) (x_ctxt_p : Option CtxtPtr) : Nat → Option CtxtPtr → Search
  | 0, _ => .diverge
  | _ + 1, none => .stop none
  | n + 1, some p =>
      if some p = x_ctxt_p then .stop (some p)
      else
        match m.load p with
        | none => .fault
        | some c =>
            if c.has_finally then .stop (some p)
            else finally_search m x_ctxt_p n c.link_p

/-- The number of loop steps after which a pointer chase over the context
objects must have come back to an object already visited. -/
def Machine.steps (m : Machine) : Nat := m.autos.length + 2

/-- The text written by `fprintf(stderr, "%s:%s:%u: ", file, func, line)`
under its guard `file && func && line > 0` (error.c:45-46). -/
def location_text (file func : Option String) (line : Nat) : String :=
  match file, func with
  | some f, some g => if line > 0 then f ++ ":" ++ g ++ ":" ++ Nat.repr line ++ ": " else ""
  | _, _ => ""

/-- The text written for the descriptor (error.c:48-51).  The output of `%p`
is implementation-defined; the address is printed in decimal here. -/
def except_text (mem : Nat → monos_except) (except_p : Nat) : String :=
  match (mem except_p).message with
  | some s => " `" ++ s ++ "`\n"
  | none => "@" ++ Nat.repr except_p ++ "\n"

/-- The function `monos_except_throw_loc` (error.c:21-67). -/
def monos_except_throw_loc (mem : Nat → monos_except) (except_p : Nat)
    (file func : Option String) (line : Nat) : Code := fun m =>
  match handler_search m except_p m.steps m.ctxt_stack_p with
  | .diverge => .diverge
  | .fault => .fault
  | .stop none =>
      .aborted (((m.print (location_text file func line)).print "Uncaught exception").print
        (except_text mem except_p))
  | .stop (some x) =>
      match finally_search m (some x) m.steps m.ctxt_stack_p with
      | .diverge => .diverge
      | .fault => .fault
      | .stop none => .fault
      | .stop (some g) =>
          match m.load g with
          | none => .fault
          | some c =>
              .jump g ((m.set_stack_p (some g)).store g
                { c with except_p := some except_p, file := file, func := func, line := line })

/-- The function `monos_except_context_push` (error.c:69-77). -/
def monos_except_context_push (ctxt_p : CtxtPtr) : Code := fun m =>
  let m1 := if m.ctxt_stack_p = none then m.set_stack_p (some .static0) else m
  match m1.load ctxt_p with
  | none => .fault
  | some c =>
      .normal ((m1.store ctxt_p { c with link_p := m1.ctxt_stack_p }).set_stack_p (some ctxt_p))

/-- The function `monos_except_context_pop` (error.c:79-83). -/
def monos_except_context_pop (ctxt_p : CtxtPtr) : Code := fun m =>
  match m.load ctxt_p with
  | none => .fault
  | some c => .normal (m.set_stack_p c.link_p)

/-- The type `enum monos_except_state`. -/
inductive monos_except_state where
  | EXCEPT_INIT : monos_except_state
  | EXCEPT_BODY : monos_except_state
  | EXCEPT_THROWN : monos_except_state
  | EXCEPT_HANDLED : monos_except_state
  | EXCEPT_END : monos_except_state
deriving DecidableEq, Repr

open monos_except_state

/-- Where control is after a part of the loop body of `monos_try`: still in
the loop body, with the value of `_monos_except_state`, or out of the block. -/
inductive Step where
  | cont (st : monos_except_state) (m : Machine) : Step
  | leave (o : Outcome) : Step
deriving DecidableEq

/-- Sequencing of two parts of the loop body. -/
def Step.bind (s : Step) (k : monos_except_state → Machine → Step) : Step :=
  match s with
  | .cont st m => k st m
  | .leave o => .leave o

/-- Running a piece of code inside the loop body; `_monos_except_state` is
`st` when the code has run. -/
def Step.run (c : Code) (st : monos_except_state) (m : Machine) : Step :=
  match c m with
  | .normal m1 => .cont st m1
  | o => .leave o

/-- The macro that follows a user block and closes its braces. -/
inductive Closer where
  | by_catch : Closer
  | by_finally : Closer
  | by_end_try : Closer
deriving DecidableEq, Repr

/-- The head of `monos_catch` (error.h:121-124), inside the braces of the
user block before it:
`if (state == EXCEPT_BODY) monos_except_context_pop(&ctxt); state = EXCEPT_END; }` -/
def close_by_catch (a : CtxtPtr) (st : monos_except_state) (m : Machine) : Step :=
  if st = EXCEPT_BODY then Step.run (monos_except_context_pop a) EXCEPT_END m
  else .cont EXCEPT_END m

/-- The head of `monos_end_try` (error.h:154-160), inside the braces of the
user block before it:
`if (ctxt.has_finally && state == EXCEPT_THROWN) monos_except_throw_loc(ctxt.except_p, ...);
 state = EXCEPT_END; }`.  A NULL `ctxt.except_p` would be dereferenced by the call. -/
def close_by_end_try (mem : Nat → monos_except) (a : CtxtPtr) (st : monos_except_state)
    (m : Machine) : Step :=
  match m.load a with
  | none => .leave .fault
  | some c =>
      if c.has_finally && st = EXCEPT_THROWN then
        match c.except_p with
        | none => .leave .fault
        | some x => Step.run (monos_except_throw_loc mem x c.file c.func c.line) EXCEPT_END m
      else .cont EXCEPT_END m

/-- What stands between the end of a user block and its closing brace. -/
def close (cl : Closer) (mem : Nat → monos_except) (a : CtxtPtr) (st : monos_except_state)
    (m : Machine) : Step :=
  match cl with
  | .by_catch => close_by_catch a st m
  | .by_finally => .cont st m
  | .by_end_try => close_by_end_try mem a st m

/-- The end of `monos_try` with the user block (error.h:116-117):
`if (state == EXCEPT_BODY) { body ... }`. -/
def try_part (mem : Nat → monos_except) (body : Code) (cl : Closer) (a : CtxtPtr)
    (st : monos_except_state) (m : Machine) : Step :=
  if st = EXCEPT_BODY then (Step.run body st m).bind (close cl mem a)
  else .cont st m

/-- The macro `monos_catch(e)` from its first `if` on, with the handler block
(error.h:126-136).  The write `array[except_count++] = &(e)` is a fault when
the index is outside the array. -/
def catch_part (mem : Nat → monos_except) (e : Nat) (handler : Code) (cl : Closer)
    (a : CtxtPtr) (st : monos_except_state) (m : Machine) : Step :=
  match m.load a with
  | none => .leave .fault
  | some c =>
      if st = EXCEPT_INIT then
        if c.except_count ≥ MONOS_MAX_EXCEPT then .leave (.exited m)
        else if c.except_count < c.array.length then
          .cont st (m.store a { c with array := c.array.set c.except_count (some e),
                                       except_count := c.except_count + 1 })
        else .leave .fault
      else if c.except_p = some e then
        ((Step.run (monos_except_context_pop a) EXCEPT_HANDLED m).bind
          (Step.run handler)).bind (close cl mem a)
      else .cont st m

/-- The macro `monos_finally` from its `if` on, with the cleanup block, closed
by `monos_end_try` (error.h:141-150). -/
def finally_part (mem : Nat → monos_except) (cleanup : Code) (a : CtxtPtr)
    (st : monos_except_state) (m : Machine) : Step :=
  if st = EXCEPT_INIT then
    match m.load a with
    | none => .leave .fault
    | some c =>
        if c.except_count ≥ MONOS_MAX_EXCEPT then .leave (.exited m)
        else .cont st (m.store a { c with has_finally := true })
  else
    ((Step.run (monos_except_context_pop a) st m).bind (Step.run cleanup)).bind
      (close_by_end_try mem a)

/-- The macro that follows the current user block, in
`try / catch ... catch / optional finally / end_try`. -/
def closer_of (catches : List (Nat × Code)) (fin : Option Code) : Closer :=
  match catches, fin with
  | _ :: _, _ => .by_catch
  | [], some _ => .by_finally
  | [], none => .by_end_try

/-- The catch clauses of a block, in order. -/
def catch_parts (mem : Nat → monos_except) :
    List (Nat × Code) → Option Code → CtxtPtr → monos_except_state → Machine → Step
  | [], _, _, st, m => .cont st m
  | (e, h) :: rest, fin, a, st, m =>
      (catch_part mem e h (closer_of rest fin) a st m).bind (catch_parts mem rest fin a)

/-- The optional finally clause of a block. -/
def finally_opt (mem : Nat → monos_except) (fin : Option Code) (a : CtxtPtr)
    (st : monos_except_state) (m : Machine) : Step :=
  match fin with
  | some f => finally_part mem f a st m
  | none => .cont st m

/-- The last statement of the loop body (error.h:162):
`if (state != EXCEPT_END) state = EXCEPT_BODY;` -/
def loop_end (st : monos_except_state) (m : Machine) : Step :=
  .cont (if st ≠ EXCEPT_END then EXCEPT_BODY else st) m

/-- One pass through the body of `while (state != EXCEPT_END)` for the block
`try body catch(e1) h1 ... catch(en) hn [finally f] end_try`. -/
def loop_body (mem : Nat → monos_except) (body : Code) (catches : List (Nat × Code))
    (fin : Option Code) (a : CtxtPtr) (st : monos_except_state) (m : Machine) : Step :=
  (((try_part mem body (closer_of catches fin) a st m).bind
      (catch_parts mem catches fin a)).bind (finally_opt mem fin a)).bind loop_end

/-- The loop `while (state != EXCEPT_END)` (error.h:113), with at most `fuel`
evaluations of its condition.  A `longjmp` to the `env` of this block's
context resumes at the `setjmp` of error.h:111, which sets the state to
`EXCEPT_THROWN` and enters the loop again; a `longjmp` elsewhere leaves the
block. -/
def block_loop (mem : Nat → monos_except) (body : Code) (catches : List (Nat × Code))
    (fin : Option Code) (a : CtxtPtr) : Nat → monos_except_state → Machine → Outcome
  | 0, _, _ => .diverge
  | n + 1, st, m =>
      if st = EXCEPT_END then .normal m
      else
        match loop_body mem body catches fin a st m with
        | .cont st1 m1 => block_loop mem body catches fin a n st1 m1
        | .leave (.jump t m1) =>
            if t = a then block_loop mem body catches fin a n EXCEPT_THROWN m1
            else .jump t m1
        | .leave o => o

/-- The `_monos_except_ctxt` of a block after the assignments of
error.h:102-107; the array and `link_p` are not yet written. -/
def fresh_ctxt : monos_except_context :=
  { except_count := 0, array := List.replicate MONOS_MAX_EXCEPT none, except_p := none,
    file := none, func := none, line := 0, has_finally := false, link_p := none }

/-- The block `try body catch(e1) h1 ... catch(en) hn [finally f] end_try`:
a new context object, the push, the `setjmp`, and the loop. -/
def monos_block (mem : Nat → monos_except) (fuel : Nat) (body : Code)
    (catches : List (Nat × Code)) (fin : Option Code) : Code := fun m =>
  let a := CtxtPtr.auto m.autos.length
  match monos_except_context_push a { m with autos := m.autos ++ [fresh_ctxt] } with
  | .normal m1 => block_loop mem body catches fin a fuel EXCEPT_INIT m1
  | o => o

/-- The macro `throw(e)` at a source location. -/
def monos_throw (mem : Nat → monos_except) (e : Nat) (file func : String) (line : Nat) : Code :=
  monos_except_throw_loc mem e (some file) (some func) line

/-- Two statements in sequence. -/
def seq (c1 c2 : Code) : Code := fun m =>
  match c1 m with
  | .normal m1 => c2 m1
  | o => o

/-- User code that touches nothing of the mechanism: it maps what has been
recorded so far to what is recorded after it. -/
def user (f : List String → List String) : Code := fun m =>
  .normal (m.map_out f)

/-- The user statement `record(s)`. -/
def record (s : String) : Code := user (fun l => l ++ [s])

/-! ## Vocabulary for stating the properties -/

/-- The context `c` registers `x`: one of the first `except_count` slots of its
array holds `x`. -/
def registers (c : monos_except_context) (x : Nat) : Bool :=
  (List.range c.except_count).any (fun i => c.array.getD i none == some x)

/-- The object `q` points to registers `x`. -/
def regAt (m : Machine) (x : Nat) (q : CtxtPtr) : Bool :=
  match m.load q with
  | some c => registers c x
  | none => false

/-- The object `q` points to has `has_finally` set. -/
def finAt (m : Machine) (q : CtxtPtr) : Bool :=
  match m.load q with
  | some c => c.has_finally
  | none => false

/-- The frame stack seen from the pointer `p`: `l` lists the contexts met when
following `link_p` from `p` down to NULL. -/
def isChain (m : Machine) : Option CtxtPtr → List CtxtPtr → Bool
  | none, [] => true
  | some p, q :: l =>
      p == q && (match m.load p with
                 | some c => isChain m c.link_p l
                 | none => false)
  | _, _ => false

/-- The context of a block when its declaration pass is over: the identities
`es` of its catch clauses in the first slots of the array, `has_finally` as
declared, and `link_p` as set by the push. -/
def declared (es : List Nat) (has_finally : Bool) (link : Option CtxtPtr) :
    monos_except_context :=
  { except_count := es.length,
    array := es.map some ++ List.replicate (MONOS_MAX_EXCEPT - es.length) none,
    except_p := none, file := none, func := none, line := 0,
    has_finally := has_finally, link_p := link }

/-- The value `monos_except_context_push` stores in `link_p`: the stack top
at the call, or the address of `ctxt_0` when the stack top was NULL. -/
def parent_link (m : Machine) : Option CtxtPtr :=
  if m.ctxt_stack_p = none then some .static0 else m.ctxt_stack_p

/-- The address of the context of a block entered in state `m`. -/
def block_ctxt (m : Machine) : CtxtPtr := .auto m.autos.length

/-- The process state in a block entered in state `m`, when its context is
`c`: the context is a new object and the stack top. -/
def inside (m : Machine) (c : monos_except_context) : Machine :=
  { m with autos := m.autos ++ [c], ctxt_stack_p := some (block_ctxt m) }

/-- The process state once a block entered in state `m` has popped its
context, left as `c`: the stack top is the block's parent again. -/
def left (m : Machine) (c : monos_except_context) : Machine :=
  { m with autos := m.autos ++ [c], ctxt_stack_p := parent_link m }

/-- The context of a block into which `x` has been thrown from the given
location. -/
def thrown_into (c : monos_except_context) (x : Nat) (file func : Option String)
    (line : Nat) : monos_except_context :=
  { c with except_p := some x, file := file, func := func, line := line }

/-- The process state when the declaration pass of a block entered in state
`m` is over, for catch clauses of identities `es`. -/
def entered (m : Machine) (es : List Nat) (has_finally : Bool) : Machine :=
  inside m (declared es has_finally (parent_link m))

/-- Code that leaves the stack as it found it: run in a state whose stack top
is not NULL, it completes, and the stack top and the content of every context
object that existed are the same afterwards. -/
def leaves_stack (c : Code) : Prop :=
  ∀ m, m.ctxt_stack_p ≠ none →
    ∃ m2, c m = .normal m2 ∧ m2.ctxt_stack_p = m.ctxt_stack_p
      ∧ ∀ q d, m.load q = some d → m2.load q = some d

/-- The context of the block entered in state `m` on the stack `l` has been
popped in state `m2`: the stack top is the parent link of the context, the
stack is `l` again, and the context is not on it. -/
def popped (m : Machine) (l : List CtxtPtr) (m2 : Machine) : Prop :=
  m2.ctxt_stack_p = parent_link m
    ∧ (∃ c, m2.load (block_ctxt m) = some c ∧ c.link_p = m2.ctxt_stack_p)
    ∧ isChain m2 m2.ctxt_stack_p l = true
    ∧ block_ctxt m ∉ l

/-- A block that stands between a statement and the block that handles what
the statement throws: `try { before; <statement>; rest } catch ... [finally
cleanup] end_try`, with user code `before` and `cleanup`. -/
structure Layer where
  before : List String → List String
  catches : List (Nat × Code)
  cleanup : Option (List String → List String)
  rest : Code
  fuel : Nat

/-- The statement `inner` inside the blocks `Ls`, outermost first. -/
def nest (mem : Nat → monos_except) (inner : Code) : List Layer → Code
  | [] => inner
  | L :: Ls =>
      monos_block mem (L.fuel + 3) (seq (user L.before) (seq (nest mem inner Ls) L.rest))
        L.catches (L.cleanup.map user)

/-- What the user code of the blocks `Ls` records when each `before` runs on
the way in and each `cleanup` on the way out, innermost first. -/
def nest_out : List Layer → List String → List String
  | [], out => out
  | L :: Ls, out => (L.cleanup.getD id) (nest_out Ls (L.before out))

/-- A stack of three blocks over the sentinel, innermost first: one that
catches identity 2, one with only a finally clause, one that catches
identity 1. -/
def sample_stack : Machine :=
  { ctxt_0 := ctxt_0_init,
    autos := [declared [1] false (some .static0), declared [] true (some (.auto 0)),
              declared [2] false (some (.auto 1))],
    ctxt_stack_p := some (.auto 2), stderr := "", out := [] }

/-- Three nested blocks, outermost first: one that catches identity 2 and has
no finally clause, and two with a finally clause. -/
def sample_layers : List Layer :=
  [{ before := fun o => o ++ ["b1"], catches := [(2, record "h2")], cleanup := none,
     rest := record "r1", fuel := 0 },
   { before := fun o => o ++ ["b2"], catches := [], cleanup := some (fun o => o ++ ["c2"]),
     rest := record "r2", fuel := 0 },
   { before := fun o => o ++ ["b3"], catches := [(3, record "h3")],
     cleanup := some (fun o => o ++ ["c3"]), rest := record "r3", fuel := 0 }]

/-- Descriptors for the examples: every identity carries the message "boom". -/
def sample_mem : Nat → monos_except := fun _ => { message := some "boom" }


/-! ## Assertions -/

/-- The object `monos_assert_error` (error.c:15). -/
def monos_assert_error_object : monos_except := { message := some "Assertion failed" }

/-- The address `&monos_assert_error` of that static object. -/
def monos_assert_error : Nat := 0

/-- The macro `monos_assert(expr)` (error.h:166-169) at a source location:
`((expr) ? (void) 0 : throw(monos_assert_error))`, for the value of `expr`. -/
def monos_assert (mem : Nat → monos_except) (expr : Int) (file func : String) (line : Nat) :
    Code :=
  if expr ≠ 0 then fun m => .normal m
  else monos_throw mem monos_assert_error file func line

/-- The value of the C expression `a == b` on integers. -/
def c_eq (a b : Int) : Int := if a = b then 1 else 0

/-- Descriptors for the examples with assertions: `monos_assert_error` at its
address, and the message "boom" for every other identity. -/
def assert_mem : Nat → monos_except := fun a =>
  if a = monos_assert_error then monos_assert_error_object else { message := some "boom" }

/-! ## The propagation of a throw through the blocks on the stack -/

/-- How the propagation of a throw ends: a handler body is entered in the block
that owns the frame `F`, or the process aborts, in the state `m` and after
`steps` cleanups each followed by a re-throw; `stuck` stands for any other way
to end (a fault, or a frame selected whose block has neither a clause for the
identity nor a finally clause), `unfinished` for a propagation that is longer
than the number of steps allowed. -/
inductive Propagation where
  | handler (steps : Nat) (F : CtxtPtr) (m : Machine) : Propagation
  | aborted (steps : Nat) (m : Machine) : Propagation
  | stuck : Propagation
  | unfinished : Propagation
deriving DecidableEq

/-- What the blocks on the stack do once a throw of `X` has transferred control
to the frame `G`, until a handler body is entered.  The block that owns `G`
resumes in state `EXCEPT_THROWN`.  When its context registers `X` it has a
catch clause for `X`, whose handler body is entered.  Otherwise, when it has
a finally clause, its pass is the finally part (error.h:148-159) with its
cleanup code `cleanup G`, which ends in the re-throw; the count of steps goes
up by one and the propagation goes on from the frame the re-throw selects. -/
def unwind (mem : Nat → monos_except) (cleanup : CtxtPtr → Code) (X : Nat) :
    Nat → Nat → CtxtPtr → Machine → Propagation
  | 0, _, _, _ => .unfinished
  | fuel + 1, steps, G, m =>
      if regAt m X G then .handler steps G m
      else if finAt m G then
        match finally_part mem (cleanup G) G EXCEPT_THROWN m with
        | .leave (.jump G2 m2) => unwind mem cleanup X fuel (steps + 1) G2 m2
        | .leave (.aborted m2) => .aborted (steps + 1) m2
        | _ => .stuck
      else .stuck

/-- The propagation started by `monos_except_throw_loc(X, file, func, line)` in
the state `m`, the blocks on the stack having the cleanup code `cleanup`. -/
def propagation (mem : Nat → monos_except) (cleanup : CtxtPtr → Code) (X : Nat)
    (file func : Option String) (line : Nat) (fuel : Nat) (m : Machine) : Propagation :=
  match monos_except_throw_loc mem X file func line m with
  | .jump G m2 => unwind mem cleanup X fuel 0 G m2
  | .aborted m2 => .aborted 0 m2
  | _ => .stuck

/-! ## A search in a single pass, to compare with the two loops of the code -/

/-- The search of the claim, in one pass: follow `link_p` from the pointer
given, keeping as candidate the first frame met that registers `x` or has
`has_finally` set, and stop at the first frame that registers `x`; the result
is then the candidate.  The result is NULL when the end of the chain is
reached: no frame registers `x`. -/
def single_pass_search (m : Machine) (x : Nat) :
    Nat → Option CtxtPtr → Option CtxtPtr → Search
  | 0, _, _ => .diverge
  | _ + 1, none, _ => .stop none
  | n + 1, some p, candidate =>
      match m.load p with
      | none => .fault
      | some c =>
          let candidate2 :=
            match candidate with
            | some g => some g
            | none => if registers c x || c.has_finally then some p else none
          if registers c x then .stop candidate2
          else single_pass_search m x n c.link_p candidate2

/-- The throw of the claim: as `monos_except_throw_loc`, with the search in one
pass in place of the two loops. -/
def throw_single_pass (mem : Nat → monos_except) (except_p : Nat)
    (file func : Option String) (line : Nat) : Code := fun m =>
  match single_pass_search m except_p m.steps m.ctxt_stack_p none with
  | .diverge => .diverge
  | .fault => .fault
  | .stop none =>
      .aborted (((m.print (location_text file func line)).print "Uncaught exception").print
        (except_text mem except_p))
  | .stop (some g) =>
      match m.load g with
      | none => .fault
      | some c =>
          .jump g ((m.set_stack_p (some g)).store g
            { c with except_p := some except_p, file := file, func := func, line := line })

/-! ## Properties -/

section basics

@[simp]
theorem load_static0 (m : Machine) : m.load .static0 = some m.ctxt_0 := rfl

@[simp]
theorem load_auto (m : Machine) (n : Nat) : m.load (.auto n) = m.autos[n]? := rfl

theorem load_store_same (m : Machine) (p : CtxtPtr) (c d : monos_except_context)
    (h : m.load p = some c) : (m.store p d).load p = some d := by
  cases p with
  | static0 => rfl
  | auto n =>
      simp only [Machine.load, Machine.store] at h ⊢
      have hn : n < m.autos.length := by
        by_contra hlt
        rw [List.getElem?_eq_none (by omega)] at h
        cases h
      simp [List.getElem?_set, hn]

theorem load_store_other (m : Machine) (p q : CtxtPtr) (d : monos_except_context)
    (h : q ≠ p) : (m.store p d).load q = m.load q := by
  cases p with
  | static0 =>
      cases q with
      | static0 => exact absurd rfl h
      | auto k => rfl
  | auto n =>
      cases q with
      | static0 => rfl
      | auto k =>
          have hk : n ≠ k := fun e => h (by rw [e])
          simp [Machine.load, Machine.store, List.getElem?_set, hk]

@[simp]
theorem store_ctxt_stack_p (m : Machine) (p : CtxtPtr) (d : monos_except_context) :
    (m.store p d).ctxt_stack_p = m.ctxt_stack_p := by
  cases p <;> rfl

@[simp]
theorem store_out (m : Machine) (p : CtxtPtr) (d : monos_except_context) :
    (m.store p d).out = m.out := by
  cases p <;> rfl

@[simp]
theorem store_stderr (m : Machine) (p : CtxtPtr) (d : monos_except_context) :
    (m.store p d).stderr = m.stderr := by
  cases p <;> rfl

@[simp]
theorem load_set_stack_p (m : Machine) (p : Option CtxtPtr) (q : CtxtPtr) :
    (m.set_stack_p p).load q = m.load q := by
  cases q <;> rfl

@[simp]
theorem load_print (m : Machine) (s : String) (q : CtxtPtr) :
    (m.print s).load q = m.load q := by
  cases q <;> rfl

@[simp]
theorem set_stack_p_top (m : Machine) (p : Option CtxtPtr) :
    (m.set_stack_p p).ctxt_stack_p = p := rfl

@[simp]
theorem set_stack_p_out (m : Machine) (p : Option CtxtPtr) : (m.set_stack_p p).out = m.out := rfl

@[simp]
theorem set_stack_p_stderr (m : Machine) (p : Option CtxtPtr) :
    (m.set_stack_p p).stderr = m.stderr := rfl

@[simp]
theorem set_stack_p_autos (m : Machine) (p : Option CtxtPtr) :
    (m.set_stack_p p).autos = m.autos := rfl

@[simp]
theorem set_stack_p_ctxt_0 (m : Machine) (p : Option CtxtPtr) :
    (m.set_stack_p p).ctxt_0 = m.ctxt_0 := rfl

@[simp]
theorem set_stack_p_set_stack_p (m : Machine) (p q : Option CtxtPtr) :
    (m.set_stack_p p).set_stack_p q = m.set_stack_p q := rfl

theorem store_autos_length (m : Machine) (p : CtxtPtr) (d : monos_except_context) :
    (m.store p d).autos.length = m.autos.length := by
  cases p <;> simp [Machine.store]

end basics

section searching

theorem array_scan_found (c : monos_except_context) (x : Nat) :
    ∀ n i, array_scan c x n i true = true := by
  intro n
  cases n <;> intro i <;> simp [array_scan]

theorem array_scan_range (c : monos_except_context) (x : Nat) :
    ∀ n i, i + n = c.except_count →
      array_scan c x n i false
        = (List.range' i n).any (fun j => c.array.getD j none == some x) := by
  intro n
  induction n with
  | zero => intro i _; simp [array_scan]
  | succ n ih =>
      intro i hi
      have hlt : i < c.except_count := by omega
      rw [array_scan]
      simp only [hlt, decide_True, Bool.not_false, Bool.and_self, if_true]
      rw [List.range'_succ, List.any_cons]
      cases hb : (c.array.getD i none == some x) with
      | true => simp [array_scan_found]
      | false => simpa using ih (i + 1) (by omega)

theorem array_scan_registers (c : monos_except_context) (x : Nat) :
    array_scan c x c.except_count 0 false = registers c x := by
  rw [array_scan_range c x c.except_count 0 (by simp), registers, List.range_eq_range']

theorem isChain_nil (m : Machine) (p : Option CtxtPtr) :
    isChain m p [] = true ↔ p = none := by
  cases p <;> simp [isChain]

theorem isChain_cons (m : Machine) (p : Option CtxtPtr) (q : CtxtPtr) (l : List CtxtPtr) :
    isChain m p (q :: l) = true ↔
      p = some q ∧ ∃ c, m.load q = some c ∧ isChain m c.link_p l = true := by
  cases p with
  | none => simp [isChain]
  | some r =>
      simp only [isChain, Bool.and_eq_true, beq_iff_eq, Option.some.injEq]
      constructor
      · rintro ⟨rfl, h⟩
        refine ⟨rfl, ?_⟩
        cases hl : m.load r with
        | none => rw [hl] at h; cases h
        | some c => rw [hl] at h; exact ⟨c, rfl, h⟩
      · rintro ⟨rfl, c, hc, h⟩
        refine ⟨rfl, ?_⟩
        rw [hc]; exact h

theorem handler_search_chain (m : Machine) (x : Nat) :
    ∀ (l : List CtxtPtr) (p : Option CtxtPtr) (fuel : Nat),
      isChain m p l = true → l.length < fuel →
      handler_search m x fuel p = .stop (l.find? (regAt m x)) := by
  intro l
  induction l with
  | nil =>
      intro p fuel hc hf
      rw [isChain_nil] at hc
      subst hc
      cases fuel with
      | zero => cases hf
      | succ n => simp [handler_search]
  | cons q l ih =>
      intro p fuel hc hf
      rw [isChain_cons] at hc
      obtain ⟨rfl, c, hq, hl⟩ := hc
      cases fuel with
      | zero => cases hf
      | succ n =>
          simp only [handler_search, hq, array_scan_registers]
          have hreg : regAt m x q = registers c x := by simp [regAt, hq]
          cases hb : registers c x with
          | true => simp [List.find?_cons, hreg, hb]
          | false =>
              simp only [Bool.false_eq_true, if_false, List.find?_cons, hreg, hb]
              exact ih c.link_p n hl (by simpa using hf)

theorem finally_search_chain (m : Machine) (F : CtxtPtr) :
    ∀ (l : List CtxtPtr) (p : Option CtxtPtr) (fuel : Nat),
      isChain m p l = true → l.length < fuel →
      finally_search m (some F) fuel p = .stop (l.find? (fun q => q == F || finAt m q)) := by
  intro l
  induction l with
  | nil =>
      intro p fuel hc hf
      rw [isChain_nil] at hc
      subst hc
      cases fuel with
      | zero => cases hf
      | succ n => simp [finally_search]
  | cons q l ih =>
      intro p fuel hc hf
      rw [isChain_cons] at hc
      obtain ⟨rfl, c, hq, hl⟩ := hc
      cases fuel with
      | zero => cases hf
      | succ n =>
          simp only [finally_search, Option.some.injEq]
          by_cases hqF : q = F
          · simp [hqF, List.find?_cons]
          · have hfin : finAt m q = c.has_finally := by simp [finAt, hq]
            simp only [hqF, if_false, hq, List.find?_cons, hfin]
            cases hb : c.has_finally with
            | true => simp [hqF]
            | false =>
                have hne : (q == F) = false := by simpa using hqF
                simp only [Bool.false_eq_true, if_false, Bool.or_false, hne]
                exact ih c.link_p n hl (by simpa using hf)

end searching

section chains

theorem isChain_unique (m : Machine) :
    ∀ (l l2 : List CtxtPtr) (p : Option CtxtPtr),
      isChain m p l = true → isChain m p l2 = true → l = l2 := by
  intro l
  induction l with
  | nil =>
      intro l2 p h1 h2
      rw [isChain_nil] at h1
      subst h1
      cases l2 with
      | nil => rfl
      | cons q t => simp [isChain] at h2
  | cons q l ih =>
      intro l2 p h1 h2
      rw [isChain_cons] at h1
      obtain ⟨rfl, c, hq, hl⟩ := h1
      cases l2 with
      | nil => simp [isChain] at h2
      | cons r t =>
          rw [isChain_cons] at h2
          obtain ⟨hr, c2, hq2, hl2⟩ := h2
          cases hr
          rw [hq] at hq2
          cases hq2
          rw [ih t c.link_p hl hl2]

theorem isChain_from_mem (m : Machine) :
    ∀ (l : List CtxtPtr) (p : Option CtxtPtr) (q : CtxtPtr),
      isChain m p l = true → q ∈ l →
      ∃ t, isChain m (some q) t = true ∧ t.length ≤ l.length := by
  intro l
  induction l with
  | nil => intro p q _ hq; cases hq
  | cons r l ih =>
      intro p q hc hq
      have hc2 := hc
      rw [isChain_cons] at hc2
      obtain ⟨rfl, c, hr, hl⟩ := hc2
      rcases List.mem_cons.mp hq with rfl | hmem
      · exact ⟨q :: l, hc, le_refl _⟩
      · obtain ⟨t, ht, hlen⟩ := ih c.link_p q hl hmem
        exact ⟨t, ht, by simp; omega⟩

theorem isChain_nodup (m : Machine) :
    ∀ (l : List CtxtPtr) (p : Option CtxtPtr), isChain m p l = true → l.Nodup := by
  intro l
  induction l with
  | nil => intro _ _; exact List.nodup_nil
  | cons r l ih =>
      intro p hc
      have hc2 := hc
      rw [isChain_cons] at hc2
      obtain ⟨rfl, c, hr, hl⟩ := hc2
      refine List.nodup_cons.mpr ⟨?_, ih c.link_p hl⟩
      intro hmem
      obtain ⟨t, ht, hlen⟩ := isChain_from_mem m l c.link_p r hl hmem
      have := isChain_unique m t (r :: l) (some r) ht hc
      rw [this] at hlen
      simp at hlen

theorem isChain_loaded (m : Machine) :
    ∀ (l : List CtxtPtr) (p : Option CtxtPtr) (q : CtxtPtr),
      isChain m p l = true → q ∈ l → ∃ c, m.load q = some c := by
  intro l p q hc hq
  obtain ⟨t, ht, _⟩ := isChain_from_mem m l p q hc hq
  cases t with
  | nil => simp [isChain] at ht
  | cons r t =>
      rw [isChain_cons] at ht
      obtain ⟨hr, c, hl, _⟩ := ht
      cases hr
      exact ⟨c, hl⟩

theorem loaded_auto_lt (m : Machine) (n : Nat) (c : monos_except_context)
    (h : m.load (.auto n) = some c) : n < m.autos.length := by
  by_contra hlt
  simp only [load_auto] at h
  rw [List.getElem?_eq_none (by omega)] at h
  cases h

theorem isChain_length (m : Machine) (l : List CtxtPtr) (p : Option CtxtPtr)
    (hc : isChain m p l = true) : l.length < m.steps := by
  let f : CtxtPtr → Nat := fun q => match q with
    | .static0 => 0
    | .auto n => n + 1
  have hinj : Function.Injective f := by
    intro a b hab
    cases a <;> cases b <;> simp [f] at hab ⊢
    exact hab
  have hnd : (l.map f).Nodup := (isChain_nodup m l p hc).map hinj
  have hsub : l.map f ⊆ List.range (m.autos.length + 1) := by
    intro k hk
    obtain ⟨q, hq, rfl⟩ := List.mem_map.mp hk
    obtain ⟨c, hl⟩ := isChain_loaded m l p q hc hq
    cases q with
    | static0 => simp [f]
    | auto n =>
        have := loaded_auto_lt m n c hl
        simp [f]; omega
  have := (hnd.subperm hsub).length_le
  simp only [List.length_map, List.length_range] at this
  simp only [Machine.steps]
  omega

end chains

section throwing

theorem isChain_dropWhile (m : Machine) (G : CtxtPtr) :
    ∀ (l : List CtxtPtr) (p : Option CtxtPtr),
      isChain m p l = true → G ∈ l →
      isChain m (some G) (l.dropWhile (fun q => q != G)) = true := by
  intro l
  induction l with
  | nil => intro p _ h; cases h
  | cons r l ih =>
      intro p hc hG
      have hc2 := hc
      rw [isChain_cons] at hc2
      obtain ⟨rfl, c, hr, hl⟩ := hc2
      by_cases hrG : r = G
      · subst hrG
        simpa [List.dropWhile_cons] using hc
      · have hmem : G ∈ l := by
          rcases List.mem_cons.mp hG with h | h
          · exact absurd h.symm hrG
          · exact h
        have hne : (r != G) = true := by simpa using hrG
        rw [List.dropWhile_cons, hne]
        exact ih c.link_p hl hmem

theorem isChain_congr (m m2 : Machine) :
    ∀ (l : List CtxtPtr) (p : Option CtxtPtr),
      (∀ q ∈ l, (m2.load q).map (fun c => c.link_p) = (m.load q).map (fun c => c.link_p)) →
      isChain m p l = true → isChain m2 p l = true := by
  intro l
  induction l with
  | nil => intro p _ h; rw [isChain_nil] at h ⊢; exact h
  | cons r l ih =>
      intro p hsame hc
      rw [isChain_cons] at hc ⊢
      obtain ⟨rfl, c, hr, hl⟩ := hc
      refine ⟨rfl, ?_⟩
      have h1 := hsame r (List.mem_cons_self _ _)
      rw [hr] at h1
      cases h2 : m2.load r with
      | none => rw [h2] at h1; cases h1
      | some c2 =>
          rw [h2] at h1
          simp only [Option.map_some', Option.some.injEq] at h1
          refine ⟨c2, rfl, ?_⟩
          rw [h1]
          exact ih c.link_p (fun q hq => hsame q (List.mem_cons_of_mem _ hq)) hl

theorem throw_loc_chain (mem : Nat → monos_except) (m : Machine) (l : List CtxtPtr) (X : Nat)
    (file func : Option String) (line : Nat) (F G : CtxtPtr) (c : monos_except_context)
    (hchain : isChain m m.ctxt_stack_p l = true)
    (hF : l.find? (regAt m X) = some F)
    (hG : l.find? (fun q => q == F || finAt m q) = some G)
    (hc : m.load G = some c) :
    monos_except_throw_loc mem X file func line m
      = .jump G ((m.set_stack_p (some G)).store G
          { c with except_p := some X, file := file, func := func, line := line }) := by
  have hlen := isChain_length m l m.ctxt_stack_p hchain
  simp only [monos_except_throw_loc]
  rw [handler_search_chain m X l m.ctxt_stack_p m.steps hchain hlen, hF]
  simp only
  rw [finally_search_chain m F l m.ctxt_stack_p m.steps hchain hlen, hG]
  simp only [hc]

theorem throw_loc_unhandled (mem : Nat → monos_except) (m : Machine) (l : List CtxtPtr) (X : Nat)
    (file func : Option String) (line : Nat)
    (hchain : isChain m m.ctxt_stack_p l = true)
    (hnone : ∀ q ∈ l, regAt m X q = false) :
    monos_except_throw_loc mem X file func line m
      = .aborted (((m.print (location_text file func line)).print "Uncaught exception").print
          (except_text mem X)) := by
  have hlen := isChain_length m l m.ctxt_stack_p hchain
  have hfind : l.find? (regAt m X) = none := by
    rw [List.find?_eq_none]
    intro q hq
    simp [hnone q hq]
  simp only [monos_except_throw_loc]
  rw [handler_search_chain m X l m.ctxt_stack_p m.steps hchain hlen, hfind]

theorem find_target_exists (m : Machine) (l : List CtxtPtr) (X : Nat) (F : CtxtPtr)
    (hF : l.find? (regAt m X) = some F) :
    ∃ G, l.find? (fun q => q == F || finAt m q) = some G ∧ G ∈ l := by
  have hmem : F ∈ l := List.mem_of_find?_eq_some hF
  cases h : l.find? (fun q => q == F || finAt m q) with
  | none =>
      rw [List.find?_eq_none] at h
      have := h F hmem
      simp at this
  | some G => exact ⟨G, rfl, List.mem_of_find?_eq_some h⟩

end throwing
section declaring

theorem list_set_self {α : Type} (l : List α) (n : Nat) (c : α) (h : l[n]? = some c) :
    l.set n c = l := by
  apply List.ext_getElem?
  intro k
  rw [List.getElem?_set]
  by_cases hk : n = k
  · subst hk
    have hn : n < l.length := by
      by_contra hlt
      rw [List.getElem?_eq_none (by omega)] at h
      cases h
    simp [hn, h]
  · simp [hk]

theorem store_load_self (m : Machine) (p : CtxtPtr) (c : monos_except_context)
    (h : m.load p = some c) : m.store p c = m := by
  cases p with
  | static0 =>
      simp only [load_static0, Option.some.injEq] at h
      subst h
      rfl
  | auto n =>
      cases m with
      | mk c0 autos top err out =>
          simp only [load_auto] at h
          simp only [Machine.store]
          congr 1
          exact list_set_self _ _ _ h

theorem store_store (m : Machine) (p : CtxtPtr) (c d : monos_except_context) :
    (m.store p c).store p d = m.store p d := by
  cases p with
  | static0 => rfl
  | auto n => simp [Machine.store]

theorem load_inside (m : Machine) (c : monos_except_context) :
    (inside m c).load (block_ctxt m) = some c := by
  simp [inside, block_ctxt]

theorem store_inside (m : Machine) (c d : monos_except_context) :
    (inside m c).store (block_ctxt m) d = inside m d := by
  simp [inside, block_ctxt, Machine.store]

theorem declared_set (done : List Nat) (e : Nat) (hf : Bool) (link : Option CtxtPtr)
    (h : done.length < MONOS_MAX_EXCEPT) :
    { declared done hf link with
        array := (declared done hf link).array.set (declared done hf link).except_count (some e),
        except_count := (declared done hf link).except_count + 1 }
      = declared (done ++ [e]) hf link := by
  simp only [declared, List.length_append, List.length_singleton, List.map_append, List.map_cons,
    List.map_nil, List.append_assoc, List.singleton_append]
  congr 1
  rw [List.set_append_right _ _ (by simp)]
  simp only [List.length_map, Nat.sub_self]
  obtain ⟨k, hk⟩ : ∃ k, MONOS_MAX_EXCEPT - done.length = k + 1 := ⟨MONOS_MAX_EXCEPT - done.length - 1, by omega⟩
  have hk2 : MONOS_MAX_EXCEPT - (done.length + 1) = k := by omega
  rw [hk, hk2, List.replicate_succ, List.set_cons_zero]

theorem declared_array_length (es : List Nat) (hf : Bool) (link : Option CtxtPtr)
    (h : es.length ≤ MONOS_MAX_EXCEPT) :
    (declared es hf link).array.length = MONOS_MAX_EXCEPT := by
  simp [declared]; omega

theorem catch_part_init (mem : Nat → monos_except) (e : Nat) (h : Code) (cl : Closer)
    (a : CtxtPtr) (m : Machine) (done : List Nat) (hf : Bool) (link : Option CtxtPtr)
    (hload : m.load a = some (declared done hf link))
    (hlen : done.length < MONOS_MAX_EXCEPT) :
    catch_part mem e h cl a EXCEPT_INIT m
      = .cont EXCEPT_INIT (m.store a (declared (done ++ [e]) hf link)) := by
  have hal := declared_array_length done hf link (le_of_lt hlen)
  have hcount : (declared done hf link).except_count = done.length := rfl
  simp only [catch_part, hload, if_true, ge_iff_le]
  rw [if_neg (by rw [hcount]; omega), if_pos (by rw [hcount, hal]; exact hlen)]
  rw [declared_set done e hf link hlen]

theorem catch_part_init_full (mem : Nat → monos_except) (e : Nat) (h : Code) (cl : Closer)
    (a : CtxtPtr) (m : Machine) (done : List Nat) (hf : Bool) (link : Option CtxtPtr)
    (hload : m.load a = some (declared done hf link))
    (hlen : MONOS_MAX_EXCEPT ≤ done.length) :
    catch_part mem e h cl a EXCEPT_INIT m = .leave (.exited m) := by
  have hcount : (declared done hf link).except_count = done.length := rfl
  simp only [catch_part, hload, if_true, ge_iff_le]
  rw [if_pos (by rw [hcount]; exact hlen)]

theorem catch_parts_init (mem : Nat → monos_except) (fin : Option Code) (a : CtxtPtr)
    (hf : Bool) (link : Option CtxtPtr) :
    ∀ (cs : List (Nat × Code)) (done : List Nat) (m : Machine),
      m.load a = some (declared done hf link) →
      done.length + cs.length ≤ MONOS_MAX_EXCEPT →
      catch_parts mem cs fin a EXCEPT_INIT m
        = .cont EXCEPT_INIT (m.store a (declared (done ++ cs.map Prod.fst) hf link)) := by
  intro cs
  induction cs with
  | nil =>
      intro done m hload _
      simp only [catch_parts, List.map_nil, List.append_nil]
      rw [store_load_self m a _ hload]
  | cons eh rest ih =>
      intro done m hload hlen
      obtain ⟨e, h⟩ := eh
      simp only [List.length_cons] at hlen
      simp only [catch_parts]
      rw [catch_part_init mem e h _ a m done hf link hload (by omega)]
      simp only [Step.bind]
      rw [ih (done ++ [e]) _ (load_store_same m a _ _ hload) (by simp; omega)]
      simp [store_store]

theorem catch_parts_init_full (mem : Nat → monos_except) (fin : Option Code) (a : CtxtPtr)
    (hf : Bool) (link : Option CtxtPtr) :
    ∀ (cs : List (Nat × Code)) (done : List Nat) (m : Machine),
      m.load a = some (declared done hf link) →
      done.length ≤ MONOS_MAX_EXCEPT →
      MONOS_MAX_EXCEPT < done.length + cs.length →
      catch_parts mem cs fin a EXCEPT_INIT m
        = .leave (.exited (m.store a
            (declared ((done ++ cs.map Prod.fst).take MONOS_MAX_EXCEPT) hf link))) := by
  intro cs
  induction cs with
  | nil => intro done m _ h1 h2; simp at h2; omega
  | cons eh rest ih =>
      intro done m hload hle hlen
      obtain ⟨e, h⟩ := eh
      simp only [List.length_cons] at hlen
      simp only [catch_parts]
      by_cases hfull : done.length = MONOS_MAX_EXCEPT
      · rw [catch_part_init_full mem e h _ a m done hf link hload (by omega)]
        simp only [Step.bind, List.map_cons]
        rw [List.take_append_of_le_length (by omega), ← hfull, List.take_length,
          store_load_self m a _ hload]
      · rw [catch_part_init mem e h _ a m done hf link hload (by omega)]
        simp only [Step.bind]
        rw [ih (done ++ [e]) _ (load_store_same m a _ _ hload) (by simp; omega) (by simp; omega)]
        simp [store_store]

end declaring
section entering

theorem push_fresh (m : Machine) :
    monos_except_context_push (block_ctxt m) { m with autos := m.autos ++ [fresh_ctxt] }
      = .normal (entered m [] false) := by
  cases m with
  | mk c0 autos top err out =>
      cases top with
      | none =>
          simp [monos_except_context_push, block_ctxt, entered, inside, declared, fresh_ctxt,
            parent_link, Machine.store, Machine.set_stack_p]
      | some p =>
          simp [monos_except_context_push, block_ctxt, entered, inside, declared, fresh_ctxt,
            parent_link, Machine.store, Machine.set_stack_p]

theorem monos_block_eq (mem : Nat → monos_except) (fuel : Nat) (body : Code)
    (cs : List (Nat × Code)) (fin : Option Code) (m : Machine) :
    monos_block mem fuel body cs fin m
      = block_loop mem body cs fin (block_ctxt m) fuel EXCEPT_INIT (entered m [] false) := by
  have h := push_fresh m
  simp only [block_ctxt] at h
  simp only [monos_block, h, block_ctxt]

theorem finally_opt_init (mem : Nat → monos_except) (fin : Option Code) (m : Machine)
    (es : List Nat)
    (hlen : es.length + (if fin.isSome then 1 else 0) ≤ MONOS_MAX_EXCEPT) :
    finally_opt mem fin (block_ctxt m) EXCEPT_INIT (entered m es false)
      = .cont EXCEPT_INIT (entered m es fin.isSome) := by
  cases fin with
  | none => rfl
  | some f =>
      simp only [Option.isSome_some, if_true] at hlen
      have hcount : (declared es false (parent_link m)).except_count = es.length := rfl
      simp only [finally_opt, finally_part, if_true, entered, load_inside, ge_iff_le, hcount]
      rw [if_neg (by omega), store_inside]
      rfl

theorem init_pass (mem : Nat → monos_except) (body : Code) (cs : List (Nat × Code))
    (fin : Option Code) (m : Machine)
    (hlen : cs.length + (if fin.isSome then 1 else 0) ≤ MONOS_MAX_EXCEPT) :
    loop_body mem body cs fin (block_ctxt m) EXCEPT_INIT (entered m [] false)
      = .cont EXCEPT_BODY (entered m (cs.map Prod.fst) fin.isSome) := by
  have h1 : try_part mem body (closer_of cs fin) (block_ctxt m) EXCEPT_INIT (entered m [] false)
      = .cont EXCEPT_INIT (entered m [] false) := by
    simp [try_part]
  have h2 := catch_parts_init mem fin (block_ctxt m) false (parent_link m) cs []
    (entered m [] false) (by rw [entered, load_inside]) (by simp; omega)
  rw [loop_body, h1]
  simp only [Step.bind]
  rw [h2]
  simp only [List.nil_append, entered, store_inside]
  have h3 := finally_opt_init mem fin m (cs.map Prod.fst) (by simpa using hlen)
  simp only [entered] at h3
  rw [h3]
  simp [loop_end]

theorem init_pass_full (mem : Nat → monos_except) (body : Code) (cs : List (Nat × Code))
    (fin : Option Code) (m : Machine)
    (hlen : MONOS_MAX_EXCEPT < cs.length + (if fin.isSome then 1 else 0)) :
    loop_body mem body cs fin (block_ctxt m) EXCEPT_INIT (entered m [] false)
      = .leave (.exited (entered m ((cs.map Prod.fst).take MONOS_MAX_EXCEPT) false)) := by
  have h1 : try_part mem body (closer_of cs fin) (block_ctxt m) EXCEPT_INIT (entered m [] false)
      = .cont EXCEPT_INIT (entered m [] false) := by
    simp [try_part]
  rw [loop_body, h1]
  simp only [Step.bind]
  by_cases hcs : MONOS_MAX_EXCEPT < cs.length
  · have h2 := catch_parts_init_full mem fin (block_ctxt m) false (parent_link m) cs []
      (entered m [] false) (by rw [entered, load_inside]) (by simp) (by simpa using hcs)
    rw [h2]
    simp only [List.nil_append, entered, store_inside]
  · have hfin : fin.isSome = true := by
      cases fin with
      | none => simp at hlen; omega
      | some f => rfl
    have hn : cs.length = MONOS_MAX_EXCEPT := by
      simp only [hfin, if_true] at hlen
      omega
    have h2 := catch_parts_init mem fin (block_ctxt m) false (parent_link m) cs []
      (entered m [] false) (by rw [entered, load_inside]) (by simp; omega)
    rw [h2]
    simp only [List.nil_append, entered, store_inside]
    obtain ⟨f, rfl⟩ := Option.isSome_iff_exists.mp hfin
    have hcount : (declared (cs.map Prod.fst) false (parent_link m)).except_count
        = (cs.map Prod.fst).length := rfl
    simp only [finally_opt, finally_part, if_true, load_inside, ge_iff_le, hcount,
      List.length_map]
    rw [if_pos (by omega)]
    simp only [Step.bind]
    rw [List.take_of_length_le (by simp; omega)]

end entering
section states

@[simp]
theorem load_map_out (m : Machine) (f : List String → List String) (q : CtxtPtr) :
    (m.map_out f).load q = m.load q := by
  cases q <;> rfl

@[simp]
theorem map_out_top (m : Machine) (f : List String → List String) :
    (m.map_out f).ctxt_stack_p = m.ctxt_stack_p := rfl

@[simp]
theorem map_out_autos (m : Machine) (f : List String → List String) :
    (m.map_out f).autos = m.autos := rfl

@[simp]
theorem map_out_out (m : Machine) (f : List String → List String) :
    (m.map_out f).out = f m.out := rfl

@[simp]
theorem map_out_stderr (m : Machine) (f : List String → List String) :
    (m.map_out f).stderr = m.stderr := rfl

theorem map_out_map_out (m : Machine) (f g : List String → List String) :
    (m.map_out f).map_out g = m.map_out (g ∘ f) := rfl

theorem map_out_set_stack_p (m : Machine) (f : List String → List String)
    (p : Option CtxtPtr) : (m.map_out f).set_stack_p p = (m.set_stack_p p).map_out f := rfl

theorem map_out_store (m : Machine) (f : List String → List String) (p : CtxtPtr)
    (c : monos_except_context) : (m.map_out f).store p c = (m.store p c).map_out f := by
  cases p <;> rfl

theorem store_set_stack_p (m : Machine) (q : CtxtPtr) (c : monos_except_context)
    (p : Option CtxtPtr) : (m.store q c).set_stack_p p = (m.set_stack_p p).store q c := by
  cases q <;> rfl

theorem inside_set_stack_p_self (m : Machine) (c : monos_except_context) :
    (inside m c).set_stack_p (some (block_ctxt m)) = inside m c := rfl

theorem inside_set_stack_p_parent (m : Machine) (c : monos_except_context) :
    (inside m c).set_stack_p (parent_link m) = left m c := rfl

theorem left_set_stack_p_parent (m : Machine) (c : monos_except_context) :
    (left m c).set_stack_p (parent_link m) = left m c := rfl

theorem load_left (m : Machine) (c : monos_except_context) :
    (left m c).load (block_ctxt m) = some c := by
  simp [left, block_ctxt]

theorem store_left (m : Machine) (c d : monos_except_context) :
    (left m c).store (block_ctxt m) d = left m d := by
  simp [left, block_ctxt, Machine.store]

theorem inside_top (m : Machine) (c : monos_except_context) :
    (inside m c).ctxt_stack_p = some (block_ctxt m) := rfl

theorem left_top (m : Machine) (c : monos_except_context) :
    (left m c).ctxt_stack_p = parent_link m := rfl

theorem parent_link_map_out (m : Machine) (f : List String → List String) :
    parent_link (m.map_out f) = parent_link m := rfl

theorem block_ctxt_map_out (m : Machine) (f : List String → List String) :
    block_ctxt (m.map_out f) = block_ctxt m := rfl

theorem registers_declared (es : List Nat) (hf : Bool) (link : Option CtxtPtr) (x : Nat) :
    registers (declared es hf link) x = true ↔ x ∈ es := by
  simp only [registers, declared, List.any_eq_true, List.mem_range, beq_iff_eq]
  constructor
  · rintro ⟨i, hi, h⟩
    rw [List.getD_eq_getElem?_getD, List.getElem?_append_left (by simpa using hi)] at h
    simp only [List.getElem?_map, List.getElem?_eq_getElem hi, Option.map_some',
      Option.getD_some, Option.some.injEq] at h
    rw [← h]
    exact List.getElem_mem _
  · intro hx
    obtain ⟨i, hi, h⟩ := List.mem_iff_getElem.mp hx
    refine ⟨i, hi, ?_⟩
    rw [List.getD_eq_getElem?_getD, List.getElem?_append_left (by simpa using hi)]
    simp [List.getElem?_eq_getElem hi, h]

theorem throw_loc_top (mem : Nat → monos_except) (m : Machine) (a : CtxtPtr)
    (c : monos_except_context) (X : Nat) (file func : Option String) (line : Nat)
    (htop : m.ctxt_stack_p = some a) (hload : m.load a = some c)
    (hreg : registers c X = true) :
    monos_except_throw_loc mem X file func line m
      = .jump a ((m.set_stack_p (some a)).store a (thrown_into c X file func line)) := by
  simp only [monos_except_throw_loc, Machine.steps, htop, handler_search, hload,
    array_scan_registers, hreg, if_true, finally_search, thrown_into]

end states
section passes

theorem catch_part_skip (mem : Nat → monos_except) (e : Nat) (h : Code) (cl : Closer)
    (a : CtxtPtr) (st : monos_except_state) (m : Machine) (c : monos_except_context)
    (hst : st ≠ EXCEPT_INIT) (hload : m.load a = some c) (hne : c.except_p ≠ some e) :
    catch_part mem e h cl a st m = .cont st m := by
  simp only [catch_part, hload, if_neg hst, if_neg hne]

theorem catch_parts_skip (mem : Nat → monos_except) (fin : Option Code) (a : CtxtPtr)
    (st : monos_except_state) (m : Machine) (c : monos_except_context)
    (hst : st ≠ EXCEPT_INIT) (hload : m.load a = some c) :
    ∀ (cs : List (Nat × Code)), (∀ e ∈ cs.map Prod.fst, c.except_p ≠ some e) →
      catch_parts mem cs fin a st m = .cont st m := by
  intro cs
  induction cs with
  | nil => intro _; rfl
  | cons eh rest ih =>
      intro hne
      obtain ⟨e, h⟩ := eh
      simp only [catch_parts]
      rw [catch_part_skip mem e h _ a st m c hst hload (hne e (by simp))]
      simp only [Step.bind]
      exact ih (fun e2 he2 => hne e2 (by simp only [List.map_cons, List.mem_cons]; exact Or.inr he2))

/-- The state of the block after a handler block, given what follows it. -/
theorem close_after_handler (mem : Nat → monos_except) (cl : Closer) (a : CtxtPtr)
    (m : Machine) (c : monos_except_context) (hload : m.load a = some c) :
    close cl mem a EXCEPT_HANDLED m
      = .cont (if cl = .by_finally then EXCEPT_HANDLED else EXCEPT_END) m := by
  cases cl with
  | by_catch => simp [close, close_by_catch]
  | by_finally => simp [close]
  | by_end_try => simp [close, close_by_end_try, hload]

theorem catch_part_handle (mem : Nat → monos_except) (X : Nat) (h : List String → List String)
    (cl : Closer) (a : CtxtPtr) (st : monos_except_state) (m : Machine)
    (c : monos_except_context)
    (hst : st ≠ EXCEPT_INIT) (hload : m.load a = some c) (hX : c.except_p = some X) :
    catch_part mem X (user h) cl a st m
      = .cont (if cl = .by_finally then EXCEPT_HANDLED else EXCEPT_END)
          ((m.set_stack_p c.link_p).map_out h) := by
  simp only [catch_part, hload, if_neg hst, hX, if_true, Step.run, monos_except_context_pop,
    Step.bind, user]
  rw [close_after_handler mem cl a _ c (by simpa using hload)]

theorem catch_parts_handle (mem : Nat → monos_except) (fin : Option Code) (a : CtxtPtr)
    (X : Nat) (h : List String → List String) (post : List (Nat × Code))
    (c : monos_except_context) (hX : c.except_p = some X)
    (hpost : X ∉ post.map Prod.fst) :
    ∀ (pre : List (Nat × Code)) (st : monos_except_state) (m : Machine),
      st ≠ EXCEPT_INIT → m.load a = some c → X ∉ pre.map Prod.fst →
      catch_parts mem (pre ++ (X, user h) :: post) fin a st m
        = .cont (if closer_of post fin = .by_finally then EXCEPT_HANDLED else EXCEPT_END)
            ((m.set_stack_p c.link_p).map_out h) := by
  intro pre
  induction pre with
  | nil =>
      intro st m hst hload _
      simp only [List.nil_append, catch_parts]
      rw [catch_part_handle mem X h _ a st m c hst hload hX]
      simp only [Step.bind]
      refine catch_parts_skip mem fin a _ _ c ?_ (by simpa using hload) post ?_
      · split <;> decide
      · intro e he heq
        rw [hX] at heq
        cases heq
        exact hpost he
  | cons eh rest ih =>
      intro st m hst hload hpre
      obtain ⟨e, g⟩ := eh
      simp only [List.map_cons, List.mem_cons, not_or] at hpre
      simp only [List.cons_append, catch_parts]
      rw [catch_part_skip mem e g _ a st m c hst hload
        (by rw [hX]; intro heq; cases heq; exact hpre.1 rfl)]
      simp only [Step.bind]
      exact ih st m hst hload hpre.2

theorem finally_part_user (mem : Nat → monos_except) (g : List String → List String)
    (a : CtxtPtr) (st : monos_except_state) (m : Machine) (c : monos_except_context)
    (hst : st ≠ EXCEPT_INIT) (hst2 : st ≠ EXCEPT_THROWN) (hload : m.load a = some c) :
    finally_part mem (user g) a st m
      = .cont EXCEPT_END ((m.set_stack_p c.link_p).map_out g) := by
  simp only [finally_part, if_neg hst, Step.run, monos_except_context_pop, hload, user,
    Step.bind, close_by_end_try, load_map_out, load_set_stack_p]
  simp [hst2]

theorem finally_part_rethrow (mem : Nat → monos_except) (g : List String → List String)
    (a : CtxtPtr) (m : Machine) (c : monos_except_context) (X : Nat)
    (hload : m.load a = some c) (hfin : c.has_finally = true) (hX : c.except_p = some X) :
    finally_part mem (user g) a EXCEPT_THROWN m
      = Step.run (monos_except_throw_loc mem X c.file c.func c.line) EXCEPT_END
          ((m.set_stack_p c.link_p).map_out g) := by
  simp only [finally_part, Step.run, monos_except_context_pop, hload, user,
    Step.bind, close_by_end_try, load_map_out, load_set_stack_p, hfin, hX]
  simp

end passes
section blocks

theorem block_loop_end (mem : Nat → monos_except) (body : Code) (cs : List (Nat × Code))
    (fin : Option Code) (a : CtxtPtr) (fuel : Nat) (m : Machine) :
    block_loop mem body cs fin a (fuel + 1) EXCEPT_END m = .normal m := by
  simp [block_loop]

theorem block_loop_cont (mem : Nat → monos_except) (body : Code) (cs : List (Nat × Code))
    (fin : Option Code) (a : CtxtPtr) (fuel : Nat) (st st2 : monos_except_state)
    (m m2 : Machine) (hst : st ≠ EXCEPT_END)
    (h : loop_body mem body cs fin a st m = .cont st2 m2) :
    block_loop mem body cs fin a (fuel + 1) st m = block_loop mem body cs fin a fuel st2 m2 := by
  simp only [block_loop, if_neg hst, h]

theorem block_loop_reenter (mem : Nat → monos_except) (body : Code) (cs : List (Nat × Code))
    (fin : Option Code) (a : CtxtPtr) (fuel : Nat) (st : monos_except_state)
    (m m2 : Machine) (hst : st ≠ EXCEPT_END)
    (h : loop_body mem body cs fin a st m = .leave (.jump a m2)) :
    block_loop mem body cs fin a (fuel + 1) st m
      = block_loop mem body cs fin a fuel EXCEPT_THROWN m2 := by
  simp only [block_loop, if_neg hst, h, if_true]

theorem block_loop_leave (mem : Nat → monos_except) (body : Code) (cs : List (Nat × Code))
    (fin : Option Code) (a : CtxtPtr) (fuel : Nat) (st : monos_except_state)
    (m : Machine) (o : Outcome) (hst : st ≠ EXCEPT_END)
    (h : loop_body mem body cs fin a st m = .leave o)
    (hjump : ∀ m2, o ≠ .jump a m2) :
    block_loop mem body cs fin a (fuel + 1) st m = o := by
  cases o with
  | jump t m2 =>
      have hne : t ≠ a := fun e => hjump m2 (by rw [e])
      simp only [block_loop, if_neg hst, h, if_neg hne]
  | normal m2 => simp only [block_loop, if_neg hst, h]
  | aborted m2 => simp only [block_loop, if_neg hst, h]
  | exited m2 => simp only [block_loop, if_neg hst, h]
  | fault => simp only [block_loop, if_neg hst, h]
  | diverge => simp only [block_loop, if_neg hst, h]

theorem body_pass_leave (mem : Nat → monos_except) (body : Code) (cs : List (Nat × Code))
    (fin : Option Code) (a : CtxtPtr) (m : Machine) (o : Outcome)
    (hbody : body m = o) (hnormal : ∀ m2, o ≠ .normal m2) :
    loop_body mem body cs fin a EXCEPT_BODY m = .leave o := by
  have hrun : Step.run body EXCEPT_BODY m = .leave o := by
    cases o with
    | normal m2 => exact absurd rfl (hnormal m2)
    | jump t m2 => simp only [Step.run, hbody]
    | aborted m2 => simp only [Step.run, hbody]
    | exited m2 => simp only [Step.run, hbody]
    | fault => simp only [Step.run, hbody]
    | diverge => simp only [Step.run, hbody]
  simp only [loop_body, try_part, if_true, hrun, Step.bind]

/-- A body that ends otherwise than by falling through or by a transfer to
this block ends the block the same way. -/
theorem block_leave (mem : Nat → monos_except) (fuel : Nat) (body : Code)
    (cs : List (Nat × Code)) (fin : Option Code) (m : Machine) (o : Outcome)
    (hlen : cs.length + (if fin.isSome then 1 else 0) ≤ MONOS_MAX_EXCEPT)
    (hbody : body (entered m (cs.map Prod.fst) fin.isSome) = o)
    (hnormal : ∀ m2, o ≠ .normal m2) (hjump : ∀ m2, o ≠ .jump (block_ctxt m) m2) :
    monos_block mem (fuel + 2) body cs fin m = o := by
  rw [monos_block_eq,
    block_loop_cont mem body cs fin _ (fuel + 1) _ _ _ _ (by decide) (init_pass mem body cs fin m hlen),
    block_loop_leave mem body cs fin _ fuel _ _ o (by decide)
      (body_pass_leave mem body cs fin _ _ o hbody hnormal) hjump]

theorem body_pass_normal (mem : Nat → monos_except) (body : Code) (cs : List (Nat × Code))
    (fin : Option (List String → List String)) (a : CtxtPtr) (m m2 : Machine)
    (c : monos_except_context)
    (hbody : body m = .normal m2) (hload : m2.load a = some c) (hno : c.except_p = none)
    (hsome : cs ≠ [] ∨ fin.isSome = true) :
    loop_body mem body cs (fin.map user) a EXCEPT_BODY m
      = .cont EXCEPT_END ((m2.set_stack_p c.link_p).map_out (fin.getD id)) := by
  have hrun : Step.run body EXCEPT_BODY m = .cont EXCEPT_BODY m2 := by
    simp only [Step.run, hbody]
  have hskip : ∀ (st : monos_except_state) (m3 : Machine), st ≠ EXCEPT_INIT →
      m3.load a = some c →
      catch_parts mem cs (fin.map user) a st m3 = .cont st m3 := by
    intro st m3 hst h3
    exact catch_parts_skip mem _ a st m3 c hst h3 cs (by intro e _; rw [hno]; simp)
  simp only [loop_body, try_part, if_true, hrun, Step.bind]
  cases cs with
  | cons eh rest =>
      simp only [closer_of, close, close_by_catch, if_true, Step.run,
        monos_except_context_pop, hload]
      rw [hskip _ _ (by decide) (by simpa using hload)]
      cases fin with
      | none =>
          simp only [Option.map_none', finally_opt, loop_end, Option.getD_none]
          rfl
      | some g =>
          simp only [Option.map_some', finally_opt]
          rw [finally_part_user mem g a _ _ c (by decide) (by decide) (by simpa using hload)]
          simp only [loop_end, Option.getD_some]
          rfl
  | nil =>
      cases fin with
      | none => simp at hsome
      | some g =>
          simp only [Option.map_some', closer_of, close, catch_parts, finally_opt]
          rw [finally_part_user mem g a _ _ c (by decide) (by decide) hload]
          simp only [loop_end, Option.getD_some]
          rfl

/-- A block with a catch or a finally clause whose body falls through and
leaves the block's context as declared: the context is popped and the
cleanup, if any, runs. -/
theorem block_normal (mem : Nat → monos_except) (fuel : Nat) (body : Code)
    (cs : List (Nat × Code)) (fin : Option (List String → List String)) (m m2 : Machine)
    (hlen : cs.length + (if fin.isSome then 1 else 0) ≤ MONOS_MAX_EXCEPT)
    (hsome : cs ≠ [] ∨ fin.isSome = true)
    (hbody : body (entered m (cs.map Prod.fst) fin.isSome) = .normal m2)
    (hload : m2.load (block_ctxt m)
      = some (declared (cs.map Prod.fst) fin.isSome (parent_link m))) :
    monos_block mem (fuel + 3) body cs (fin.map user) m
      = .normal ((m2.set_stack_p (parent_link m)).map_out (fin.getD id)) := by
  have hlen2 : cs.length + (if (fin.map user).isSome then 1 else 0) ≤ MONOS_MAX_EXCEPT := by
    simpa using hlen
  have hinit := init_pass mem body cs (fin.map user) m hlen2
  simp only [Option.isSome_map'] at hinit
  rw [monos_block_eq,
    block_loop_cont mem body cs _ _ (fuel + 2) _ _ _ _ (by decide) hinit,
    block_loop_cont mem body cs _ _ (fuel + 1) _ _ _ _ (by decide)
      (body_pass_normal mem body cs fin _ _ m2 _ hbody hload rfl hsome),
    block_loop_end]
  rfl

theorem body_pass_bare (mem : Nat → monos_except) (body : Code) (a : CtxtPtr)
    (m m2 : Machine) (c : monos_except_context)
    (hbody : body m = .normal m2) (hload : m2.load a = some c)
    (hfin : c.has_finally = false) :
    loop_body mem body [] none a EXCEPT_BODY m = .cont EXCEPT_END m2 := by
  have hrun : Step.run body EXCEPT_BODY m = .cont EXCEPT_BODY m2 := by
    simp only [Step.run, hbody]
  simp [loop_body, try_part, hrun, Step.bind, closer_of, close, close_by_end_try, hload, hfin,
    catch_parts, finally_opt, loop_end]

/-- A block with neither catch nor finally clause whose body falls through:
control leaves the block in the state the body ended in; nothing pops the
context. -/
theorem block_bare (mem : Nat → monos_except) (fuel : Nat) (body : Code) (m m2 : Machine)
    (hbody : body (entered m [] false) = .normal m2)
    (hload : m2.load (block_ctxt m) = some (declared [] false (parent_link m))) :
    monos_block mem (fuel + 3) body [] none m = .normal m2 := by
  have hinit := init_pass mem body [] none m (by decide)
  simp only [List.map_nil, Option.isSome_none] at hinit
  rw [monos_block_eq,
    block_loop_cont mem body [] none _ (fuel + 2) _ _ _ _ (by decide) hinit,
    block_loop_cont mem body [] none _ (fuel + 1) _ _ _ _ (by decide)
      (body_pass_bare mem body _ _ m2 _ hbody hload rfl),
    block_loop_end]

end blocks
section handling

theorem throw_loc_not_normal (mem : Nat → monos_except) (X : Nat) (file func : Option String)
    (line : Nat) (m m2 : Machine) :
    monos_except_throw_loc mem X file func line m ≠ .normal m2 := by
  simp only [monos_except_throw_loc]
  cases handler_search m X m.steps m.ctxt_stack_p with
  | diverge => simp
  | fault => simp
  | stop p =>
      cases p with
      | none => simp
      | some x =>
          simp only
          cases finally_search m (some x) m.steps m.ctxt_stack_p with
          | diverge => simp
          | fault => simp
          | stop q =>
              cases q with
              | none => simp
              | some g =>
                  simp only
                  cases m.load g <;> simp

theorem closer_of_none_ne (post : List (Nat × Code)) : closer_of post none ≠ .by_finally := by
  cases post <;> simp [closer_of]

theorem thrown_pass_handled (mem : Nat → monos_except) (body : Code)
    (pre post : List (Nat × Code)) (X : Nat) (h : List String → List String)
    (fin : Option (List String → List String)) (a : CtxtPtr) (m : Machine)
    (c : monos_except_context)
    (hnodup : ((pre ++ (X, user h) :: post).map Prod.fst).Nodup)
    (hload : m.load a = some c) (hX : c.except_p = some X) :
    loop_body mem body (pre ++ (X, user h) :: post) (fin.map user) a EXCEPT_THROWN m
      = .cont EXCEPT_END ((m.set_stack_p c.link_p).map_out (fin.getD id ∘ h)) := by
  simp only [List.map_append, List.map_cons, List.nodup_append, List.nodup_cons,
    List.disjoint_cons_right] at hnodup
  have hpre : X ∉ pre.map Prod.fst := hnodup.2.2.1
  have hpost : X ∉ post.map Prod.fst := hnodup.2.1.1
  have htry : try_part mem body (closer_of (pre ++ (X, user h) :: post) (fin.map user)) a
      EXCEPT_THROWN m = .cont EXCEPT_THROWN m := by
    simp [try_part]
  rw [loop_body, htry]
  simp only [Step.bind]
  rw [catch_parts_handle mem (fin.map user) a X h post c hX hpost pre EXCEPT_THROWN m
    (by decide) hload hpre]
  cases fin with
  | none =>
      simp only [Option.map_none', if_neg (closer_of_none_ne post), finally_opt, loop_end,
        Option.getD_none]
      rfl
  | some g =>
      simp only [Option.map_some', finally_opt]
      rw [finally_part_user mem g a _ _ c (by split <;> decide) (by split <;> decide)
        (by simpa using hload)]
      simp only [loop_end, Option.getD_some]
      rfl

/-- A block into which `X` is thrown (its body ends by a transfer to the
block's own context, which holds `X`) and which has a catch clause for `X`
among clauses of distinct identities: the handler runs, then the cleanup if
any, and control leaves the block normally. -/
theorem block_handled (mem : Nat → monos_except) (fuel : Nat) (body : Code)
    (pre post : List (Nat × Code)) (X : Nat) (h : List String → List String)
    (fin : Option (List String → List String)) (m m3 : Machine) (c : monos_except_context)
    (hnodup : ((pre ++ (X, user h) :: post).map Prod.fst).Nodup)
    (hlen : (pre ++ (X, user h) :: post).length + (if fin.isSome then 1 else 0)
      ≤ MONOS_MAX_EXCEPT)
    (hbody : body (entered m ((pre ++ (X, user h) :: post).map Prod.fst) fin.isSome)
      = .jump (block_ctxt m) m3)
    (hload : m3.load (block_ctxt m) = some c) (hX : c.except_p = some X) :
    monos_block mem (fuel + 4) body (pre ++ (X, user h) :: post) (fin.map user) m
      = .normal ((m3.set_stack_p c.link_p).map_out (fin.getD id ∘ h)) := by
  have hlen2 : (pre ++ (X, user h) :: post).length
      + (if (fin.map user).isSome then 1 else 0) ≤ MONOS_MAX_EXCEPT := by
    simpa using hlen
  have hinit := init_pass mem body (pre ++ (X, user h) :: post) (fin.map user) m hlen2
  simp only [Option.isSome_map'] at hinit
  rw [monos_block_eq,
    block_loop_cont mem body _ _ _ (fuel + 3) _ _ _ _ (by decide) hinit,
    block_loop_reenter mem body _ _ _ (fuel + 2) _ _ m3 (by decide)
      (body_pass_leave mem body _ _ _ _ _ hbody (by simp)),
    block_loop_cont mem body _ _ _ (fuel + 1) _ _ _ _ (by decide)
      (thrown_pass_handled mem body pre post X h fin _ m3 c hnodup hload hX),
    block_loop_end]

theorem thrown_pass_rethrow (mem : Nat → monos_except) (body : Code)
    (cs : List (Nat × Code)) (g : List String → List String) (a : CtxtPtr) (m : Machine)
    (c : monos_except_context) (X : Nat)
    (hload : m.load a = some c) (hX : c.except_p = some X) (hfin : c.has_finally = true)
    (hnot : X ∉ cs.map Prod.fst) :
    loop_body mem body cs (some (user g)) a EXCEPT_THROWN m
      = .leave (monos_except_throw_loc mem X c.file c.func c.line
          ((m.set_stack_p c.link_p).map_out g)) := by
  have htry : try_part mem body (closer_of cs (some (user g))) a EXCEPT_THROWN m
      = .cont EXCEPT_THROWN m := by
    simp [try_part]
  rw [loop_body, htry]
  simp only [Step.bind]
  rw [catch_parts_skip mem _ a _ m c (by decide) hload cs
    (by intro e he heq; rw [hX] at heq; cases heq; exact hnot he)]
  simp only [finally_opt]
  rw [finally_part_rethrow mem g a m c X hload hfin hX]
  cases hthrow : monos_except_throw_loc mem X c.file c.func c.line
      ((m.set_stack_p c.link_p).map_out g) with
  | normal m2 => exact absurd hthrow (throw_loc_not_normal mem X _ _ _ _ m2)
  | jump t m2 => simp only [Step.run, hthrow]
  | aborted m2 => simp only [Step.run, hthrow]
  | exited m2 => simp only [Step.run, hthrow]
  | fault => simp only [Step.run, hthrow]
  | diverge => simp only [Step.run, hthrow]

/-- A block with a finally clause into which `X` is thrown and which has no
catch clause for `X`: the context is popped, the cleanup runs, and `X` is
thrown again with the location stored in the context; the block ends as that
throw ends, unless the throw comes back to this very block. -/
theorem block_rethrow (mem : Nat → monos_except) (fuel : Nat) (body : Code)
    (cs : List (Nat × Code)) (g : List String → List String) (m m3 : Machine)
    (c : monos_except_context) (X : Nat)
    (hlen : cs.length + 1 ≤ MONOS_MAX_EXCEPT)
    (hbody : body (entered m (cs.map Prod.fst) true) = .jump (block_ctxt m) m3)
    (hload : m3.load (block_ctxt m) = some c) (hX : c.except_p = some X)
    (hfin : c.has_finally = true) (hnot : X ∉ cs.map Prod.fst)
    (hback : ∀ m4, monos_except_throw_loc mem X c.file c.func c.line
      ((m3.set_stack_p c.link_p).map_out g) ≠ .jump (block_ctxt m) m4) :
    monos_block mem (fuel + 3) body cs (some (user g)) m
      = monos_except_throw_loc mem X c.file c.func c.line
          ((m3.set_stack_p c.link_p).map_out g) := by
  have hinit := init_pass mem body cs (some (user g)) m (by simpa using hlen)
  simp only [Option.isSome_some] at hinit
  rw [monos_block_eq,
    block_loop_cont mem body _ _ _ (fuel + 2) _ _ _ _ (by decide) hinit,
    block_loop_reenter mem body _ _ _ (fuel + 1) _ _ m3 (by decide)
      (body_pass_leave mem body _ _ _ _ _ hbody (by simp)),
    block_loop_leave mem body _ _ _ fuel _ _ _ (by decide)
      (thrown_pass_rethrow mem body cs g _ m3 c X hload hX hfin hnot) hback]

end handling
section frames

theorem find?_agree {α : Type} (p q : α → Bool) :
    ∀ (l : List α), (∀ x ∈ l, p x = q x) → l.find? p = l.find? q := by
  intro l
  induction l with
  | nil => intro _; rfl
  | cons x l ih =>
      intro h
      rw [List.find?_cons, List.find?_cons, h x (List.mem_cons_self _ _),
        ih (fun y hy => h y (List.mem_cons_of_mem _ hy))]

theorem regAt_agree (m m2 : Machine) (X : Nat) (q : CtxtPtr) (h : m2.load q = m.load q) :
    regAt m2 X q = regAt m X q := by
  simp only [regAt, h]

theorem finAt_agree (m m2 : Machine) (q : CtxtPtr) (h : m2.load q = m.load q) :
    finAt m2 q = finAt m q := by
  simp only [finAt, h]

theorem isChain_agree (m m2 : Machine) (l : List CtxtPtr) (p : Option CtxtPtr)
    (h : ∀ q ∈ l, m2.load q = m.load q) (hc : isChain m p l = true) :
    isChain m2 p l = true :=
  isChain_congr m m2 l p (fun q hq => by rw [h q hq]) hc

theorem loaded_ne_block_ctxt (m : Machine) (q : CtxtPtr) (d : monos_except_context)
    (h : m.load q = some d) : q ≠ block_ctxt m := by
  intro e
  rw [e, block_ctxt] at h
  have := loaded_auto_lt m _ d h
  omega

theorem load_inside_old (m : Machine) (c : monos_except_context) (q : CtxtPtr)
    (d : monos_except_context) (h : m.load q = some d) : (inside m c).load q = m.load q := by
  cases q with
  | static0 => rfl
  | auto n =>
      have hn := loaded_auto_lt m n d h
      simp only [inside, load_auto]
      rw [List.getElem?_append_left hn]

theorem chain_ne_block_ctxt (m : Machine) (l : List CtxtPtr) (p : Option CtxtPtr)
    (hc : isChain m p l = true) : ∀ q ∈ l, q ≠ block_ctxt m := by
  intro q hq
  obtain ⟨d, hd⟩ := isChain_loaded m l p q hc hq
  exact loaded_ne_block_ctxt m q d hd

theorem inside_agree (m : Machine) (c : monos_except_context) (l : List CtxtPtr)
    (p : Option CtxtPtr) (hc : isChain m p l = true) :
    ∀ q ∈ l, (inside m c).load q = m.load q := by
  intro q hq
  obtain ⟨d, hd⟩ := isChain_loaded m l p q hc hq
  exact load_inside_old m c q d hd

theorem parent_link_of_chain (m : Machine) (l : List CtxtPtr) (F : CtxtPtr)
    (hc : isChain m m.ctxt_stack_p l = true) (hF : F ∈ l) :
    parent_link m = m.ctxt_stack_p := by
  cases htop : m.ctxt_stack_p with
  | none =>
      rw [htop] at hc
      cases l with
      | nil => cases hF
      | cons q t => simp [isChain] at hc
  | some p => simp [parent_link, htop]

theorem isChain_inside (m : Machine) (c : monos_except_context) (l : List CtxtPtr)
    (hc : isChain m c.link_p l = true) :
    isChain (inside m c) (inside m c).ctxt_stack_p (block_ctxt m :: l) = true := by
  rw [inside_top, isChain_cons]
  exact ⟨rfl, c, load_inside m c,
    isChain_agree m _ l _ (inside_agree m c l _ hc) hc⟩

end frames
section nesting

@[simp]
theorem inside_out (m : Machine) (c : monos_except_context) : (inside m c).out = m.out := rfl

@[simp]
theorem inside_stderr (m : Machine) (c : monos_except_context) :
    (inside m c).stderr = m.stderr := rfl

@[simp]
theorem entered_out (m : Machine) (es : List Nat) (hf : Bool) :
    (entered m es hf).out = m.out := rfl

@[simp]
theorem entered_stderr (m : Machine) (es : List Nat) (hf : Bool) :
    (entered m es hf).stderr = m.stderr := rfl

theorem throw_loc_chain_into (mem : Nat → monos_except) (m : Machine) (l : List CtxtPtr)
    (X : Nat) (file func : Option String) (line : Nat) (F G : CtxtPtr)
    (c : monos_except_context)
    (hchain : isChain m m.ctxt_stack_p l = true)
    (hF : l.find? (regAt m X) = some F)
    (hG : l.find? (fun q => q == F || finAt m q) = some G)
    (hc : m.load G = some c) :
    monos_except_throw_loc mem X file func line m
      = .jump G ((m.set_stack_p (some G)).store G (thrown_into c X file func line)) :=
  throw_loc_chain mem m l X file func line F G c hchain hF hG hc

theorem nest_throw (mem : Nat → monos_except) (X : Nat) (file func : Option String)
    (line : Nat) :
    ∀ (Ls : List Layer) (m : Machine) (l : List CtxtPtr) (F : CtxtPtr),
      isChain m m.ctxt_stack_p l = true →
      l.find? (regAt m X) = some F →
      (∀ L ∈ Ls, X ∉ L.catches.map Prod.fst ∧
        L.catches.length + (if L.cleanup.isSome then 1 else 0) ≤ MONOS_MAX_EXCEPT) →
      ∃ T cT m2, l.find? (fun q => q == F || finAt m q) = some T ∧ m.load T = some cT ∧
        nest mem (monos_except_throw_loc mem X file func line) Ls m = .jump T m2 ∧
        m2.ctxt_stack_p = some T ∧
        m2.load T = some (thrown_into cT X file func line) ∧
        (∀ q ∈ l, q ≠ T → m2.load q = m.load q) ∧
        m2.out = nest_out Ls m.out ∧ m2.stderr = m.stderr := by
  intro Ls
  induction Ls with
  | nil =>
      intro m l F hc hF _
      obtain ⟨T, hT, hTl⟩ := find_target_exists m l X F hF
      obtain ⟨cT, hcT⟩ := isChain_loaded m l m.ctxt_stack_p T hc hTl
      have hcT2 : (m.set_stack_p (some T)).load T = some cT := by simpa using hcT
      refine ⟨T, cT, _, hT, hcT, throw_loc_chain_into mem m l X file func line F T cT hc hF hT hcT,
        by simp, load_store_same _ T cT _ hcT2, ?_, by simp [nest_out], by simp⟩
      intro q _ hq
      rw [load_store_other _ T q _ hq, load_set_stack_p]
  | cons L Ls ih =>
      intro m l F hc hF hLs
      have hL := hLs L (List.mem_cons_self _ _)
      have hFl : F ∈ l := List.mem_of_find?_eq_some hF
      have hpl : parent_link m = m.ctxt_stack_p := parent_link_of_chain m l F hc hFl
      obtain ⟨T, hT, hTl⟩ := find_target_exists m l X F hF
      obtain ⟨cT, hcT⟩ := isChain_loaded m l m.ctxt_stack_p T hc hTl
      have hne : ∀ q ∈ l, q ≠ block_ctxt m := chain_ne_block_ctxt m l _ hc
      -- the state in the body of the block, before the nested statement
      have hagree : ∀ q ∈ l,
          ((entered m (L.catches.map Prod.fst) L.cleanup.isSome).map_out L.before).load q
            = m.load q := by
        intro q hq
        rw [load_map_out, entered]
        exact inside_agree m _ l _ hc q hq
      have hchain2 : isChain ((entered m (L.catches.map Prod.fst) L.cleanup.isSome).map_out
          L.before) ((entered m (L.catches.map Prod.fst) L.cleanup.isSome).map_out
          L.before).ctxt_stack_p (block_ctxt m :: l) = true := by
        have h1 := isChain_inside m (declared (L.catches.map Prod.fst) L.cleanup.isSome
          (parent_link m)) l (by simpa [declared, hpl] using hc)
        exact isChain_agree _ _ _ _ (fun q _ => load_map_out _ _ q) h1
      have hloada : ((entered m (L.catches.map Prod.fst) L.cleanup.isSome).map_out
          L.before).load (block_ctxt m)
          = some (declared (L.catches.map Prod.fst) L.cleanup.isSome (parent_link m)) := by
        rw [load_map_out, entered, load_inside]
      have hrega : regAt ((entered m (L.catches.map Prod.fst) L.cleanup.isSome).map_out
          L.before) X (block_ctxt m) = false := by
        simp only [regAt, hloada]
        rw [Bool.eq_false_iff]
        intro h
        exact hL.1 ((registers_declared _ _ _ X).mp h)
      have hF2 : (block_ctxt m :: l).find? (regAt ((entered m (L.catches.map Prod.fst)
          L.cleanup.isSome).map_out L.before) X) = some F := by
        rw [List.find?_cons, hrega]
        simp only
        rw [find?_agree _ (regAt m X) l (fun q hq => regAt_agree m _ X q (hagree q hq))]
        exact hF
      obtain ⟨T1, cT1, m1, hT1, hcT1, hnest, htop1, hload1, hagree1, hout1, herr1⟩ :=
        ih _ (block_ctxt m :: l) F hchain2 hF2
          (fun L2 hL2 => hLs L2 (List.mem_cons_of_mem _ hL2))
      have hbody : (seq (user L.before)
          (seq (nest mem (monos_except_throw_loc mem X file func line) Ls) L.rest))
          (entered m (L.catches.map Prod.fst) L.cleanup.isSome) = .jump T1 m1 := by
        simp only [seq, user, hnest]
      have haF : (block_ctxt m == F) = false := by
        rw [beq_eq_false_iff_ne]
        exact fun e => hne F hFl e.symm
      have hfind : l.find? (fun q => q == F || finAt ((entered m (L.catches.map Prod.fst)
          L.cleanup.isSome).map_out L.before) q) = some T := by
        rw [find?_agree _ (fun q => q == F || finAt m q) l
          (fun q hq => by simp only [finAt_agree m _ q (hagree q hq)])]
        exact hT
      cases hcl : L.cleanup with
      | none =>
          rw [hcl] at hbody hT1 hcT1 hagree1 hout1 hfind hloada
          simp only [Option.isSome_none] at hbody hT1 hcT1 hagree1 hout1 hfind hloada
          have hfina : finAt ((entered m (L.catches.map Prod.fst) false).map_out L.before)
              (block_ctxt m) = false := by
            simp only [finAt, hloada, declared]
          rw [List.find?_cons, haF, hfina] at hT1
          simp only [Bool.or_false] at hT1
          rw [hfind] at hT1
          cases hT1
          have hblock : monos_block mem (L.fuel + 1 + 2)
              (seq (user L.before)
                (seq (nest mem (monos_except_throw_loc mem X file func line) Ls) L.rest))
              L.catches none m = .jump T m1 :=
            block_leave mem (L.fuel + 1) _ L.catches none m _
              (by simpa [hcl] using hL.2) hbody (by simp)
              (by intro m4 h; cases h; exact hne _ hTl rfl)
          refine ⟨T, cT, m1, hT, hcT, ?_, htop1, ?_, ?_, ?_, herr1⟩
          · simp only [nest, hcl, Option.map_none']
            exact hblock
          · rw [hload1]
            have := hagree T hTl
            rw [hcl] at this
            simp only [Option.isSome_none] at this
            rw [this, hcT] at hcT1
            cases hcT1
            rfl
          · intro q hq hqT
            rw [hagree1 q (List.mem_cons_of_mem _ hq) hqT]
            have := hagree q hq
            rw [hcl] at this
            exact this
          · rw [hout1]
            simp [nest_out, hcl]
      | some g =>
          rw [hcl] at hbody hT1 hcT1 hagree1 hout1 hloada
          simp only [Option.isSome_some] at hbody hT1 hcT1 hagree1 hout1 hloada
          have hfina : finAt ((entered m (L.catches.map Prod.fst) true).map_out L.before)
              (block_ctxt m) = true := by
            simp only [finAt, hloada, declared]
          rw [List.find?_cons, haF, hfina] at hT1
          simp only [Bool.or_true, Option.some.injEq] at hT1
          subst hT1
          rw [hloada] at hcT1
          cases hcT1
          -- the state in which the cleanup has run and the exception is thrown again
          have hagree2 : ∀ q ∈ l,
              ((m1.set_stack_p (parent_link m)).map_out g).load q = m.load q := by
            intro q hq
            rw [load_map_out, load_set_stack_p,
              hagree1 q (List.mem_cons_of_mem _ hq) (hne q hq)]
            have := hagree q hq
            rw [hcl] at this
            exact this
          have hchain3 : isChain ((m1.set_stack_p (parent_link m)).map_out g)
              ((m1.set_stack_p (parent_link m)).map_out g).ctxt_stack_p l = true := by
            have : ((m1.set_stack_p (parent_link m)).map_out g).ctxt_stack_p
                = m.ctxt_stack_p := by simp [hpl]
            rw [this]
            exact isChain_agree m _ l _ hagree2 hc
          have hF3 : l.find? (regAt ((m1.set_stack_p (parent_link m)).map_out g) X)
              = some F := by
            rw [find?_agree _ (regAt m X) l (fun q hq => regAt_agree m _ X q (hagree2 q hq))]
            exact hF
          have hT3 : l.find? (fun q => q == F
              || finAt ((m1.set_stack_p (parent_link m)).map_out g) q) = some T := by
            rw [find?_agree _ (fun q => q == F || finAt m q) l
              (fun q hq => by simp only [finAt_agree m _ q (hagree2 q hq)])]
            exact hT
          have hcT3 : ((m1.set_stack_p (parent_link m)).map_out g).load T = some cT := by
            rw [hagree2 T hTl, hcT]
          have hthrow := throw_loc_chain_into mem _ l X file func line F T cT hchain3 hF3 hT3
            hcT3
          have hblock := block_rethrow mem L.fuel
            (seq (user L.before)
              (seq (nest mem (monos_except_throw_loc mem X file func line) Ls) L.rest))
            L.catches g m m1 _ X (by simpa [hcl] using hL.2) hbody hload1 rfl rfl hL.1
            (by
              intro m4 h
              have h2 : (thrown_into (declared (L.catches.map Prod.fst) true (parent_link m))
                  X file func line).link_p = parent_link m := rfl
              simp only [thrown_into] at h h2
              simp only [declared] at h
              rw [hthrow] at h
              cases h
              exact hne _ hTl rfl)
          have hcT4 : (((m1.set_stack_p (parent_link m)).map_out g).set_stack_p
              (some T)).load T = some cT := by
            rw [load_set_stack_p]; exact hcT3
          refine ⟨T, cT, _, hT, hcT, ?_, ?_, load_store_same _ T cT _ hcT4, ?_, ?_, ?_⟩
          · simp only [nest, hcl, Option.map_some']
            rw [hblock]
            exact hthrow
          · simp
          · intro q hq hqT
            rw [load_store_other _ T q _ hqT, load_set_stack_p]
            exact hagree2 q hq
          · simp [nest_out, hcl, hout1]
          · simp [herr1]

end nesting
section scenarios

theorem throw_in_body (mem : Nat → monos_except) (m : Machine) (es : List Nat) (hf : Bool)
    (f : List String → List String) (X : Nat) (file func : String) (line : Nat) (rest : Code)
    (hX : X ∈ es) :
    (seq (user f) (seq (monos_throw mem X file func line) rest)) (entered m es hf)
      = .jump (block_ctxt m)
          ((inside m (thrown_into (declared es hf (parent_link m)) X (some file) (some func)
            line)).map_out f) := by
  have hload : ((entered m es hf).map_out f).load (block_ctxt m)
      = some (declared es hf (parent_link m)) := by
    rw [load_map_out, entered, load_inside]
  have h := throw_loc_top mem ((entered m es hf).map_out f) (block_ctxt m) _ X (some file)
    (some func) line rfl hload ((registers_declared es hf _ X).mpr hX)
  simp only [seq, user, monos_throw, h]
  congr 1
  rw [map_out_set_stack_p, map_out_store, entered, inside_set_stack_p_self, store_inside]

/-- The block `try { f; throw(X); rest } catch ... catch(X) { h } ... [finally { g }] end_try`
with catch clauses of distinct identities, entered in any state. -/
theorem block_handled_user (mem : Nat → monos_except) (fuel : Nat) (m : Machine)
    (pre post : List (Nat × Code)) (X : Nat) (h f : List String → List String)
    (fin : Option (List String → List String)) (rest : Code) (file func : String) (line : Nat)
    (hdistinct : ((pre ++ (X, user h) :: post).map Prod.fst).Nodup)
    (hlen : (pre ++ (X, user h) :: post).length + (if fin.isSome then 1 else 0)
      ≤ MONOS_MAX_EXCEPT) :
    monos_block mem (fuel + 4) (seq (user f) (seq (monos_throw mem X file func line) rest))
        (pre ++ (X, user h) :: post) (fin.map user) m
      = .normal ((left m (thrown_into (declared ((pre ++ (X, user h) :: post).map Prod.fst)
          fin.isSome (parent_link m)) X (some file) (some func) line)).map_out
          (fin.getD id ∘ h ∘ f)) := by
  rw [block_handled mem fuel _ pre post X h fin m _ _ hdistinct hlen
    (throw_in_body mem m _ fin.isSome f X file func line rest (by simp))
    (by rw [load_map_out, load_inside]) rfl]
  rfl

end scenarios
section scenarios2

/-- The block `try { f } catch ... [finally { g }] end_try` with at least one
clause. -/
theorem block_normal_user (mem : Nat → monos_except) (fuel : Nat) (m : Machine)
    (cs : List (Nat × Code)) (fin : Option (List String → List String))
    (f : List String → List String)
    (hlen : cs.length + (if fin.isSome then 1 else 0) ≤ MONOS_MAX_EXCEPT)
    (hsome : cs ≠ [] ∨ fin.isSome = true) :
    monos_block mem (fuel + 3) (user f) cs (fin.map user) m
      = .normal ((left m (declared (cs.map Prod.fst) fin.isSome (parent_link m))).map_out
          (fin.getD id ∘ f)) := by
  rw [block_normal mem fuel (user f) cs fin m ((entered m (cs.map Prod.fst) fin.isSome).map_out f)
    hlen hsome rfl (by rw [load_map_out, entered, load_inside])]
  rfl

theorem nest_handled (mem : Nat → monos_except) (fuel : Nat) (m : Machine) (l : List CtxtPtr)
    (pre post : List (Nat × Code)) (X : Nat) (h f : List String → List String)
    (fin : Option (List String → List String)) (rest : Code) (file func : String) (line : Nat)
    (Ls : List Layer)
    (hchain : isChain m (parent_link m) l = true)
    (hdistinct : ((pre ++ (X, user h) :: post).map Prod.fst).Nodup)
    (hlen : (pre ++ (X, user h) :: post).length + (if fin.isSome then 1 else 0)
      ≤ MONOS_MAX_EXCEPT)
    (hLs : ∀ L ∈ Ls, X ∉ L.catches.map Prod.fst ∧
      L.catches.length + (if L.cleanup.isSome then 1 else 0) ≤ MONOS_MAX_EXCEPT) :
    ∃ m2, monos_block mem (fuel + 4)
          (seq (user f) (seq (nest mem (monos_throw mem X file func line) Ls) rest))
          (pre ++ (X, user h) :: post) (fin.map user) m = .normal m2
      ∧ m2.out = (fin.getD id) (h (nest_out Ls (f m.out)))
      ∧ m2.ctxt_stack_p = parent_link m
      ∧ m2.load (block_ctxt m)
          = some (thrown_into (declared ((pre ++ (X, user h) :: post).map Prod.fst) fin.isSome
              (parent_link m)) X (some file) (some func) line)
      ∧ (∀ q ∈ l, m2.load q = m.load q)
      ∧ m2.stderr = m.stderr := by
  have hne : ∀ q ∈ l, q ≠ block_ctxt m := chain_ne_block_ctxt m l _ hchain
  have hagree : ∀ q ∈ l,
      ((entered m ((pre ++ (X, user h) :: post).map Prod.fst) fin.isSome).map_out f).load q
        = m.load q := by
    intro q hq
    rw [load_map_out, entered]
    exact inside_agree m _ l _ hchain q hq
  have hloada : ((entered m ((pre ++ (X, user h) :: post).map Prod.fst)
      fin.isSome).map_out f).load (block_ctxt m)
      = some (declared ((pre ++ (X, user h) :: post).map Prod.fst) fin.isSome
          (parent_link m)) := by
    rw [load_map_out, entered, load_inside]
  have hchain2 : isChain ((entered m ((pre ++ (X, user h) :: post).map Prod.fst)
      fin.isSome).map_out f) ((entered m ((pre ++ (X, user h) :: post).map Prod.fst)
      fin.isSome).map_out f).ctxt_stack_p (block_ctxt m :: l) = true := by
    have h1 := isChain_inside m (declared ((pre ++ (X, user h) :: post).map Prod.fst)
      fin.isSome (parent_link m)) l (by simpa [declared] using hchain)
    exact isChain_agree _ _ _ _ (fun q _ => load_map_out _ _ q) h1
  have hrega : regAt ((entered m ((pre ++ (X, user h) :: post).map Prod.fst)
      fin.isSome).map_out f) X (block_ctxt m) = true := by
    simp only [regAt, hloada]
    exact (registers_declared _ _ _ X).mpr (by simp)
  have hF : (block_ctxt m :: l).find? (regAt ((entered m ((pre ++ (X, user h) :: post).map
      Prod.fst) fin.isSome).map_out f) X) = some (block_ctxt m) := by
    rw [List.find?_cons, hrega]
  obtain ⟨T, cT, m1, hT, hcT, hnest, _, hload1, hagree1, hout1, herr1⟩ :=
    nest_throw mem X (some file) (some func) line Ls _ (block_ctxt m :: l) (block_ctxt m)
      hchain2 hF hLs
  rw [List.find?_cons] at hT
  simp only [beq_self_eq_true, Bool.true_or, Option.some.injEq] at hT
  subst hT
  rw [hloada] at hcT
  cases hcT
  have hbody : (seq (user f) (seq (nest mem (monos_throw mem X file func line) Ls) rest))
      (entered m ((pre ++ (X, user h) :: post).map Prod.fst) fin.isSome)
      = .jump (block_ctxt m) m1 := by
    have hn : nest mem (monos_throw mem X file func line) Ls
        ((entered m ((pre ++ (X, user h) :: post).map Prod.fst) fin.isSome).map_out f)
        = .jump (block_ctxt m) m1 := hnest
    simp only [seq, user, hn]
  refine ⟨_, block_handled mem fuel _ pre post X h fin m m1 _ hdistinct hlen hbody hload1 rfl,
    ?_, rfl, ?_, ?_, ?_⟩
  · simp [hout1]
  · rw [load_map_out, load_set_stack_p, hload1]
  · intro q hq
    rw [load_map_out, load_set_stack_p, hagree1 q (List.mem_cons_of_mem _ hq) (hne q hq)]
    exact hagree q hq
  · simp [herr1]

/-- The block `try { f; throw(X); rest } catch ... finally { g } end_try` with
no catch clause for `X`, on a stack some frame of which registers `X`: the
cleanup runs with the context popped, then `X` is thrown again from the
location of the first throw. -/
theorem block_cleanup_rethrow (mem : Nat → monos_except) (fuel : Nat) (m : Machine)
    (l : List CtxtPtr) (F : CtxtPtr) (cs : List (Nat × Code)) (X : Nat)
    (f g : List String → List String) (rest : Code) (file func : String) (line : Nat)
    (hchain : isChain m m.ctxt_stack_p l = true)
    (hF : l.find? (regAt m X) = some F)
    (hnot : X ∉ cs.map Prod.fst)
    (hlen : cs.length + 1 ≤ MONOS_MAX_EXCEPT) :
    monos_block mem (fuel + 3) (seq (user f) (seq (monos_throw mem X file func line) rest))
        cs (some (user g)) m
      = monos_except_throw_loc mem X (some file) (some func) line
          ((left m (thrown_into (declared (cs.map Prod.fst) true (parent_link m)) X
            (some file) (some func) line)).map_out (g ∘ f)) := by
  have hFl : F ∈ l := List.mem_of_find?_eq_some hF
  have hpl : parent_link m = m.ctxt_stack_p := parent_link_of_chain m l F hchain hFl
  have hne : ∀ q ∈ l, q ≠ block_ctxt m := chain_ne_block_ctxt m l _ hchain
  have hloada : ((entered m (cs.map Prod.fst) true).map_out f).load (block_ctxt m)
      = some (declared (cs.map Prod.fst) true (parent_link m)) := by
    rw [load_map_out, entered, load_inside]
  have hagree : ∀ q ∈ l,
      ((entered m (cs.map Prod.fst) true).map_out f).load q = m.load q := by
    intro q hq
    rw [load_map_out, entered]
    exact inside_agree m _ l _ hchain q hq
  have hchain2 : isChain ((entered m (cs.map Prod.fst) true).map_out f)
      ((entered m (cs.map Prod.fst) true).map_out f).ctxt_stack_p (block_ctxt m :: l)
      = true := by
    have h1 := isChain_inside m (declared (cs.map Prod.fst) true (parent_link m)) l
      (by simpa [declared, hpl] using hchain)
    exact isChain_agree _ _ _ _ (fun q _ => load_map_out _ _ q) h1
  have hrega : regAt ((entered m (cs.map Prod.fst) true).map_out f) X (block_ctxt m)
      = false := by
    simp only [regAt, hloada]
    rw [Bool.eq_false_iff]
    intro h
    exact hnot ((registers_declared _ _ _ X).mp h)
  have hF2 : (block_ctxt m :: l).find? (regAt ((entered m (cs.map Prod.fst) true).map_out f)
      X) = some F := by
    rw [List.find?_cons, hrega]
    simp only
    rw [find?_agree _ (regAt m X) l (fun q hq => regAt_agree m _ X q (hagree q hq))]
    exact hF
  have hfina : finAt ((entered m (cs.map Prod.fst) true).map_out f) (block_ctxt m)
      = true := by
    simp only [finAt, hloada, declared]
  have hG : (block_ctxt m :: l).find? (fun q => q == F
      || finAt ((entered m (cs.map Prod.fst) true).map_out f) q) = some (block_ctxt m) := by
    rw [List.find?_cons, hfina]
    simp
  have hthrow := throw_loc_chain_into mem _ (block_ctxt m :: l) X (some file) (some func) line
    F (block_ctxt m) _ hchain2 hF2 hG hloada
  have hbody : (seq (user f) (seq (monos_throw mem X file func line) rest))
      (entered m (cs.map Prod.fst) true)
      = .jump (block_ctxt m) ((inside m (thrown_into (declared (cs.map Prod.fst) true
          (parent_link m)) X (some file) (some func) line)).map_out f) := by
    simp only [seq, user, monos_throw, hthrow]
    congr 1
    rw [map_out_set_stack_p, map_out_store, entered, inside_set_stack_p_self, store_inside]
  -- the state of the second throw
  have hagree2 : ∀ q ∈ l,
      ((left m (thrown_into (declared (cs.map Prod.fst) true (parent_link m)) X
        (some file) (some func) line)).map_out (g ∘ f)).load q = m.load q := by
    intro q hq
    obtain ⟨d, hd⟩ := isChain_loaded m l _ q hchain hq
    rw [load_map_out]
    exact load_inside_old m _ q d hd
  have hchain3 : isChain ((left m (thrown_into (declared (cs.map Prod.fst) true
      (parent_link m)) X (some file) (some func) line)).map_out (g ∘ f))
      ((left m (thrown_into (declared (cs.map Prod.fst) true (parent_link m)) X
        (some file) (some func) line)).map_out (g ∘ f)).ctxt_stack_p l = true := by
    have htop : ((left m (thrown_into (declared (cs.map Prod.fst) true (parent_link m)) X
        (some file) (some func) line)).map_out (g ∘ f)).ctxt_stack_p = m.ctxt_stack_p := by
      rw [map_out_top, left_top, hpl]
    rw [htop]
    exact isChain_agree m _ l _ hagree2 hchain
  have hF3 : l.find? (regAt ((left m (thrown_into (declared (cs.map Prod.fst) true
      (parent_link m)) X (some file) (some func) line)).map_out (g ∘ f)) X) = some F := by
    rw [find?_agree _ (regAt m X) l (fun q hq => regAt_agree m _ X q (hagree2 q hq))]
    exact hF
  obtain ⟨T, hT, hTl⟩ := find_target_exists _ l X F hF3
  obtain ⟨cT, hcT⟩ := isChain_loaded _ l _ T hchain3 hTl
  have hthrow2 := throw_loc_chain_into mem _ l X (some file) (some func) line F T cT hchain3
    hF3 hT hcT
  exact block_rethrow mem fuel _ cs g m _ _ X hlen hbody
    (by rw [load_map_out, load_inside]) rfl rfl hnot
    (by
      intro m4 h
      have h2 : monos_except_throw_loc mem X (some file) (some func) line
          ((left m (thrown_into (declared (cs.map Prod.fst) true (parent_link m)) X
            (some file) (some func) line)).map_out (g ∘ f)) = .jump (block_ctxt m) m4 := h
      rw [hthrow2] at h2
      cases h2
      exact hne _ hTl rfl)

end scenarios2

section leaving

theorem load_left_old (m : Machine) (c : monos_except_context) (q : CtxtPtr)
    (d : monos_except_context) (h : m.load q = some d) : (left m c).load q = m.load q := by
  cases q with
  | static0 => rfl
  | auto n =>
      have hn := loaded_auto_lt m n d h
      simp only [left, load_auto]
      rw [List.getElem?_append_left hn]

end leaving
section duplicates

/-- The handlers `ks`, run one after the other. -/
theorem catch_parts_handle_all (mem : Nat → monos_except) (fin : Option Code) (a : CtxtPtr)
    (X : Nat) (c : monos_except_context) (hX : c.except_p = some X) :
    ∀ (cs : List (Nat × Code)) (ks : List (List String → List String))
      (st : monos_except_state) (m : Machine),
      st ≠ EXCEPT_INIT → m.load a = some c →
      (cs.filter (fun p => p.1 == X)).map Prod.snd = ks.map user →
      ∃ st2, catch_parts mem cs fin a st m
          = .cont st2 (if ks.isEmpty then m
              else (m.set_stack_p c.link_p).map_out (fun o => ks.foldl (fun o k => k o) o))
        ∧ (ks = [] → st2 = st)
        ∧ (ks ≠ [] → st2 = EXCEPT_END ∨ (st2 = EXCEPT_HANDLED ∧ fin.isSome = true)) := by
  intro cs
  induction cs with
  | nil =>
      intro ks st m _ _ hks
      have : ks = [] := by
        cases ks with
        | nil => rfl
        | cons k t => simp at hks
      subst this
      exact ⟨st, by simp [catch_parts], fun _ => rfl, fun h => absurd rfl h⟩
  | cons eh rest ih =>
      intro ks st m hst hload hks
      obtain ⟨e, H⟩ := eh
      by_cases he : e = X
      · subst he
        simp only [List.filter_cons, beq_self_eq_true, if_true, List.map_cons] at hks
        cases ks with
        | nil => simp at hks
        | cons k ks2 =>
            simp only [List.map_cons, List.cons.injEq] at hks
            obtain ⟨hH, hks2⟩ := hks
            subst hH
            have hload2 : ((m.set_stack_p c.link_p).map_out k).load a = some c := by
              simpa using hload
            have hst1 : (if closer_of rest fin = Closer.by_finally then EXCEPT_HANDLED
                else EXCEPT_END) ≠ EXCEPT_INIT := by
              split <;> decide
            obtain ⟨st2, hrest, hnil, hcons⟩ := ih ks2 _ _ hst1 hload2 hks2
            refine ⟨st2, ?_, fun h => absurd h (List.cons_ne_nil k ks2), fun _ => ?_⟩
            · simp only [catch_parts]
              rw [catch_part_handle mem e k _ a st m c hst hload hX]
              simp only [Step.bind]
              rw [hrest]
              cases ks2 with
              | nil => simp
              | cons k2 t => simp only [List.isEmpty_cons, Bool.false_eq_true, if_false,
                  List.foldl_cons]; rfl
            · by_cases hk : ks2 = []
              · rw [hnil hk]
                by_cases hcl : closer_of rest fin = Closer.by_finally
                · rw [if_pos hcl]
                  right
                  refine ⟨rfl, ?_⟩
                  cases fin with
                  | none => exact absurd hcl (closer_of_none_ne rest)
                  | some F => rfl
                · rw [if_neg hcl]
                  left
                  rfl
              · exact hcons hk
      · have hne : c.except_p ≠ some e := by
          rw [hX]
          intro h
          cases h
          exact he rfl
        have hbeq : (e == X) = false := by simpa using he
        simp only [List.filter_cons, hbeq, Bool.false_eq_true, if_false] at hks
        obtain ⟨st2, hrest, hnil, hcons⟩ := ih ks st m hst hload hks
        refine ⟨st2, ?_, hnil, hcons⟩
        simp only [catch_parts]
        rw [catch_part_skip mem e H _ a st m c hst hload hne]
        simp only [Step.bind]
        exact hrest

theorem thrown_pass_handled_all (mem : Nat → monos_except) (body : Code)
    (cs : List (Nat × Code)) (ks : List (List String → List String)) (X : Nat)
    (fin : Option (List String → List String)) (a : CtxtPtr) (m : Machine)
    (c : monos_except_context)
    (hks : (cs.filter (fun p => p.1 == X)).map Prod.snd = ks.map user)
    (hne : ks ≠ [])
    (hload : m.load a = some c) (hX : c.except_p = some X) :
    loop_body mem body cs (fin.map user) a EXCEPT_THROWN m
      = .cont EXCEPT_END ((m.set_stack_p c.link_p).map_out
          (fun o => (fin.getD id) (ks.foldl (fun o k => k o) o))) := by
  have htry : try_part mem body (closer_of cs (fin.map user)) a EXCEPT_THROWN m
      = .cont EXCEPT_THROWN m := by
    simp [try_part]
  obtain ⟨st2, hcatch, _, hst2⟩ := catch_parts_handle_all mem (fin.map user) a X c hX cs ks
    EXCEPT_THROWN m (by decide) hload hks
  rw [loop_body, htry]
  simp only [Step.bind]
  have hemp : ks.isEmpty = false := by
    cases ks with
    | nil => exact absurd rfl hne
    | cons k t => rfl
  rw [hcatch, hemp]
  simp only [Bool.false_eq_true, if_false]
  cases fin with
  | none =>
      have : st2 = EXCEPT_END := by
        rcases hst2 hne with h | ⟨_, h⟩
        · exact h
        · simp at h
      subst this
      simp only [Option.map_none', finally_opt, loop_end, Option.getD_none]
      rfl
  | some g =>
      have h1 : st2 ≠ EXCEPT_INIT := by
        rcases hst2 hne with h | ⟨h, _⟩ <;> rw [h] <;> decide
      have h2 : st2 ≠ EXCEPT_THROWN := by
        rcases hst2 hne with h | ⟨h, _⟩ <;> rw [h] <;> decide
      simp only [Option.map_some', finally_opt]
      rw [finally_part_user mem g a _ _ c h1 h2 (by simpa using hload)]
      simp only [loop_end, Option.getD_some]
      rfl

/-- A block into which `X` is thrown and whose catch clauses for `X` have the
user code `ks` as handlers, in this order: each of them runs, then the cleanup
if any, and control leaves the block normally. -/
theorem block_handled_all (mem : Nat → monos_except) (fuel : Nat) (body : Code)
    (cs : List (Nat × Code)) (ks : List (List String → List String)) (X : Nat)
    (fin : Option (List String → List String)) (m m3 : Machine) (c : monos_except_context)
    (hks : (cs.filter (fun p => p.1 == X)).map Prod.snd = ks.map user)
    (hne : ks ≠ [])
    (hlen : cs.length + (if fin.isSome then 1 else 0) ≤ MONOS_MAX_EXCEPT)
    (hbody : body (entered m (cs.map Prod.fst) fin.isSome) = .jump (block_ctxt m) m3)
    (hload : m3.load (block_ctxt m) = some c) (hX : c.except_p = some X) :
    monos_block mem (fuel + 4) body cs (fin.map user) m
      = .normal ((m3.set_stack_p c.link_p).map_out
          (fun o => (fin.getD id) (ks.foldl (fun o k => k o) o))) := by
  have hlen2 : cs.length + (if (fin.map user).isSome then 1 else 0) ≤ MONOS_MAX_EXCEPT := by
    simpa using hlen
  have hinit := init_pass mem body cs (fin.map user) m hlen2
  simp only [Option.isSome_map'] at hinit
  rw [monos_block_eq,
    block_loop_cont mem body _ _ _ (fuel + 3) _ _ _ _ (by decide) hinit,
    block_loop_reenter mem body _ _ _ (fuel + 2) _ _ m3 (by decide)
      (body_pass_leave mem body _ _ _ _ _ hbody (by simp)),
    block_loop_cont mem body _ _ _ (fuel + 1) _ _ _ _ (by decide)
      (thrown_pass_handled_all mem body cs ks X fin _ m3 c hks hne hload hX),
    block_loop_end]

theorem mem_of_filter_handlers (cs : List (Nat × Code)) (X : Nat)
    (ks : List (List String → List String))
    (hks : (cs.filter (fun p => p.1 == X)).map Prod.snd = ks.map user) (hne : ks ≠ []) :
    X ∈ cs.map Prod.fst := by
  have hf : cs.filter (fun p => p.1 == X) ≠ [] := by
    intro h
    rw [h] at hks
    cases ks with
    | nil => exact hne rfl
    | cons k t => simp at hks
  obtain ⟨p, hp⟩ := List.exists_mem_of_ne_nil _ hf
  rw [List.mem_filter] at hp
  have : p.1 = X := by simpa using hp.2
  rw [← this]
  exact List.mem_map_of_mem _ hp.1

/-- The block `try { f; throw(X); rest } catch ... [finally { g }] end_try` whose
clauses for `X` have the handlers `ks`. -/
theorem block_handled_all_user (mem : Nat → monos_except) (fuel : Nat) (m : Machine)
    (cs : List (Nat × Code)) (ks : List (List String → List String)) (X : Nat)
    (f : List String → List String) (fin : Option (List String → List String))
    (rest : Code) (file func : String) (line : Nat)
    (hks : (cs.filter (fun p => p.1 == X)).map Prod.snd = ks.map user)
    (hne : ks ≠ [])
    (hlen : cs.length + (if fin.isSome then 1 else 0) ≤ MONOS_MAX_EXCEPT) :
    monos_block mem (fuel + 4) (seq (user f) (seq (monos_throw mem X file func line) rest))
        cs (fin.map user) m
      = .normal ((left m (thrown_into (declared (cs.map Prod.fst) fin.isSome (parent_link m))
          X (some file) (some func) line)).map_out
          (fun o => (fin.getD id) (ks.foldl (fun o k => k o) (f o)))) := by
  rw [block_handled_all mem fuel _ cs ks X fin m _ _ hks hne hlen
    (throw_in_body mem m _ fin.isSome f X file func line rest
      (mem_of_filter_handlers cs X ks hks hne))
    (by rw [load_map_out, load_inside]) rfl]
  rfl

end duplicates
section neutral

theorem user_leaves_stack (f : List String → List String) : leaves_stack (user f) :=
  fun m _ => ⟨m.map_out f, rfl, rfl, fun q d h => by rw [load_map_out]; exact h⟩

theorem finally_part_code (mem : Nat → monos_except) (F : Code) (a : CtxtPtr)
    (st : monos_except_state) (m m2 : Machine) (c : monos_except_context)
    (hst : st ≠ EXCEPT_INIT) (hst2 : st ≠ EXCEPT_THROWN) (hload : m.load a = some c)
    (hF : F (m.set_stack_p c.link_p) = .normal m2) (hkeep : m2.load a = some c) :
    finally_part mem F a st m = .cont EXCEPT_END m2 := by
  simp only [finally_part, if_neg hst, Step.run, monos_except_context_pop, hload, hF,
    Step.bind, close_by_end_try, hkeep]
  simp [hst2]

theorem finally_part_rethrow_code (mem : Nat → monos_except) (F : Code) (a : CtxtPtr)
    (m m2 : Machine) (c : monos_except_context) (X : Nat)
    (hload : m.load a = some c) (hfin : c.has_finally = true) (hX : c.except_p = some X)
    (hF : F (m.set_stack_p c.link_p) = .normal m2) (hkeep : m2.load a = some c) :
    finally_part mem F a EXCEPT_THROWN m
      = Step.run (monos_except_throw_loc mem X c.file c.func c.line) EXCEPT_END m2 := by
  simp only [finally_part, Step.run, monos_except_context_pop, hload, hF,
    Step.bind, close_by_end_try, hkeep, hfin, hX]
  simp

theorem catch_part_handle_code (mem : Nat → monos_except) (X : Nat) (H : Code)
    (cl : Closer) (a : CtxtPtr) (st : monos_except_state) (m m2 : Machine)
    (c : monos_except_context)
    (hst : st ≠ EXCEPT_INIT) (hload : m.load a = some c) (hX : c.except_p = some X)
    (hH : H (m.set_stack_p c.link_p) = .normal m2) (hkeep : m2.load a = some c) :
    catch_part mem X H cl a st m
      = .cont (if cl = .by_finally then EXCEPT_HANDLED else EXCEPT_END) m2 := by
  simp only [catch_part, hload, if_neg hst, hX, if_true, Step.run, monos_except_context_pop,
    Step.bind, hH]
  rw [close_after_handler mem cl a _ c hkeep]

theorem catch_parts_handle_code (mem : Nat → monos_except) (fin : Option Code) (a : CtxtPtr)
    (X : Nat) (c : monos_except_context) (hX : c.except_p = some X)
    (hlink : c.link_p ≠ none) :
    ∀ (cs : List (Nat × Code)) (st : monos_except_state) (m : Machine),
      st ≠ EXCEPT_INIT → m.load a = some c →
      (∀ p ∈ cs, p.1 = X → leaves_stack p.2) →
      ∃ st2 m2, catch_parts mem cs fin a st m = .cont st2 m2
        ∧ m2.load a = some c
        ∧ (∀ q d, m.load q = some d → m2.load q = some d)
        ∧ (X ∈ cs.map Prod.fst → m2.ctxt_stack_p = c.link_p
            ∧ (st2 = EXCEPT_END ∨ (st2 = EXCEPT_HANDLED ∧ fin.isSome = true)))
        ∧ (X ∉ cs.map Prod.fst → st2 = st ∧ m2 = m) := by
  intro cs
  induction cs with
  | nil =>
      intro st m _ hload _
      exact ⟨st, m, rfl, hload, fun q d h => h, fun h => by simp at h, fun _ => ⟨rfl, rfl⟩⟩
  | cons eh rest ih =>
      intro st m hst hload hall
      obtain ⟨e, H⟩ := eh
      have hallrest : ∀ p ∈ rest, p.1 = X → leaves_stack p.2 :=
        fun p hp => hall p (List.mem_cons_of_mem _ hp)
      by_cases he : e = X
      · subst he
        obtain ⟨m1, hH, htop1, hkeep1⟩ := hall (e, H) (List.mem_cons_self _ _) rfl
          (m.set_stack_p c.link_p) (by simpa using hlink)
        have hload1 : m1.load a = some c := hkeep1 a c (by simpa using hload)
        have hst1 : (if closer_of rest fin = Closer.by_finally then EXCEPT_HANDLED
            else EXCEPT_END) ≠ EXCEPT_INIT := by
          split <;> decide
        obtain ⟨st2, m2, hrest, hload2, hkeep2, hin, hnotin⟩ :=
          ih _ m1 hst1 hload1 hallrest
        refine ⟨st2, m2, ?_, hload2, ?_, fun _ => ?_, fun h => ?_⟩
        · simp only [catch_parts]
          rw [catch_part_handle_code mem e H _ a st m m1 c hst hload hX hH hload1]
          simp only [Step.bind]
          exact hrest
        · intro q d hq
          exact hkeep2 q d (hkeep1 q d (by simpa using hq))
        · by_cases hmem : e ∈ rest.map Prod.fst
          · exact hin hmem
          · obtain ⟨hs, hm⟩ := hnotin hmem
            rw [hs, hm]
            refine ⟨by simpa using htop1, ?_⟩
            by_cases hcl : closer_of rest fin = Closer.by_finally
            · rw [if_pos hcl]
              right
              refine ⟨rfl, ?_⟩
              cases fin with
              | none => exact absurd hcl (closer_of_none_ne rest)
              | some F => rfl
            · rw [if_neg hcl]
              left
              rfl
        · simp at h
      · have hne : c.except_p ≠ some e := by
          rw [hX]
          intro h
          cases h
          exact he rfl
        obtain ⟨st2, m2, hrest, hload2, hkeep2, hin, hnotin⟩ := ih st m hst hload hallrest
        refine ⟨st2, m2, ?_, hload2, hkeep2, fun h => ?_, fun h => ?_⟩
        · simp only [catch_parts]
          rw [catch_part_skip mem e H _ a st m c hst hload hne]
          simp only [Step.bind]
          exact hrest
        · apply hin
          simp only [List.map_cons, List.mem_cons] at h
          rcases h with h | h
          · exact absurd h.symm he
          · exact h
        · apply hnotin
          intro h2
          exact h (by simp only [List.map_cons, List.mem_cons]; exact Or.inr h2)

theorem finally_opt_code (mem : Nat → monos_except) (fin : Option Code) (a : CtxtPtr)
    (st : monos_except_state) (m : Machine) (c : monos_except_context)
    (hst : st ≠ EXCEPT_INIT) (hst2 : st ≠ EXCEPT_THROWN)
    (hend : fin = none → st = EXCEPT_END)
    (hload : m.load a = some c) (hlink : c.link_p ≠ none)
    (htop : fin = none → m.ctxt_stack_p = c.link_p)
    (hfin : ∀ F, fin = some F → leaves_stack F) :
    ∃ m2, (finally_opt mem fin a st m).bind loop_end = .cont EXCEPT_END m2
      ∧ m2.load a = some c
      ∧ (∀ q d, m.load q = some d → m2.load q = some d)
      ∧ m2.ctxt_stack_p = c.link_p := by
  cases fin with
  | none =>
      rw [hend rfl]
      exact ⟨m, rfl, hload, fun q d h => h, htop rfl⟩
  | some F =>
      obtain ⟨m2, hF, htop2, hkeep⟩ := hfin F rfl (m.set_stack_p c.link_p) (by simpa using hlink)
      have hload2 : m2.load a = some c := hkeep a c (by simpa using hload)
      refine ⟨m2, ?_, hload2, fun q d h => hkeep q d (by simpa using h), by simpa using htop2⟩
      simp only [finally_opt]
      rw [finally_part_code mem F a st m m2 c hst hst2 hload hF hload2]
      rfl

end neutral

section neutral_blocks

theorem parent_link_ne_none (m : Machine) : parent_link m ≠ none := by
  simp only [parent_link]
  split
  · simp
  · assumption

theorem popped_of_keeps (m : Machine) (l : List CtxtPtr) (m2 : Machine)
    (c : monos_except_context)
    (hwf : isChain m (parent_link m) l = true)
    (htop : m2.ctxt_stack_p = parent_link m)
    (hload : m2.load (block_ctxt m) = some c) (hlink : c.link_p = parent_link m)
    (hkeep : ∀ q d, m.load q = some d → m2.load q = some d) :
    popped m l m2 := by
  refine ⟨htop, ⟨c, hload, by rw [hlink, htop]⟩, ?_, ?_⟩
  · rw [htop]
    refine isChain_agree m m2 l _ ?_ hwf
    intro q hq
    obtain ⟨d, hd⟩ := isChain_loaded m l _ q hwf hq
    rw [hkeep q d hd, hd]
  · intro hmem
    exact chain_ne_block_ctxt m l _ hwf _ hmem rfl

theorem entered_keeps (m : Machine) (es : List Nat) (hf : Bool) :
    ∀ q d, m.load q = some d → (entered m es hf).load q = some d := by
  intro q d h
  rw [entered, load_inside_old m _ q d h, h]

/-- Path 1: the body falls through. -/
theorem block_normal_code (mem : Nat → monos_except) (fuel : Nat) (m : Machine)
    (l : List CtxtPtr) (body : Code) (cs : List (Nat × Code)) (fin : Option Code)
    (hwf : isChain m (parent_link m) l = true)
    (hbody : leaves_stack body)
    (hfin : ∀ F, fin = some F → leaves_stack F)
    (hlen : cs.length + (if fin.isSome then 1 else 0) ≤ MONOS_MAX_EXCEPT)
    (hsome : cs ≠ [] ∨ fin.isSome = true) :
    ∃ m2, monos_block mem (fuel + 3) body cs fin m = .normal m2 ∧ popped m l m2 := by
  obtain ⟨m1, hb, htop1, hkeep1⟩ := hbody (entered m (cs.map Prod.fst) fin.isSome)
    (by rw [entered, inside_top]; simp)
  have hload1 : m1.load (block_ctxt m)
      = some (declared (cs.map Prod.fst) fin.isSome (parent_link m)) :=
    hkeep1 _ _ (by rw [entered, load_inside])
  have hrun : Step.run body EXCEPT_BODY (entered m (cs.map Prod.fst) fin.isSome)
      = .cont EXCEPT_BODY m1 := by
    simp only [Step.run, hb]
  -- the part of the pass up to the finally clause
  have hpart : ∃ st1 m1b, (try_part mem body (closer_of cs fin) (block_ctxt m) EXCEPT_BODY
        (entered m (cs.map Prod.fst) fin.isSome)).bind (catch_parts mem cs fin (block_ctxt m))
        = .cont st1 m1b
      ∧ st1 ≠ EXCEPT_INIT ∧ st1 ≠ EXCEPT_THROWN ∧ (fin = none → st1 = EXCEPT_END)
      ∧ m1b.load (block_ctxt m)
          = some (declared (cs.map Prod.fst) fin.isSome (parent_link m))
      ∧ (fin = none → m1b.ctxt_stack_p = parent_link m)
      ∧ (∀ q d, m1.load q = some d → m1b.load q = some d) := by
    cases cs with
    | cons eh rest =>
        refine ⟨EXCEPT_END, m1.set_stack_p (parent_link m), ?_, by decide, by decide,
          fun _ => rfl, by simpa using hload1, fun _ => rfl, fun q d h => by simpa using h⟩
        simp only [try_part, if_true]
        rw [hrun]
        simp only [Step.bind, closer_of, close, close_by_catch, if_true,
          Step.run, monos_except_context_pop, hload1]
        exact catch_parts_skip mem fin (block_ctxt m) EXCEPT_END _ _ (by decide)
          (by simpa using hload1) _ (by intro e _; simp [declared])
    | nil =>
        cases fin with
        | none => simp at hsome
        | some F =>
            refine ⟨EXCEPT_BODY, m1, ?_, by decide, by decide, (fun h => by cases h), hload1,
              (fun h => by cases h), fun q d h => h⟩
            simp only [try_part, if_true]
            rw [hrun]
            simp only [Step.bind, closer_of, close, catch_parts]
  obtain ⟨st1, m1b, hpart1, hst1, hst1b, hend, hload1b, htop1b, hkeep1b⟩ := hpart
  obtain ⟨m2, hfinal, hload2, hkeep2, htop2⟩ :=
    finally_opt_code mem fin (block_ctxt m) st1 m1b _ hst1 hst1b hend hload1b
      (parent_link_ne_none m) htop1b hfin
  have hpass : loop_body mem body cs fin (block_ctxt m) EXCEPT_BODY
      (entered m (cs.map Prod.fst) fin.isSome) = .cont EXCEPT_END m2 := by
    rw [loop_body, hpart1]
    exact hfinal
  refine ⟨m2, ?_, popped_of_keeps m l m2 _ hwf htop2 hload2 rfl ?_⟩
  · rw [monos_block_eq,
      block_loop_cont mem body cs fin _ (fuel + 2) _ _ _ _ (by decide)
        (init_pass mem body cs fin m hlen),
      block_loop_cont mem body cs fin _ (fuel + 1) _ _ _ _ (by decide) hpass,
      block_loop_end]
  · intro q d hq
    exact hkeep2 q d (hkeep1b q d (hkeep1 q d (entered_keeps m _ _ q d hq)))

theorem thrown_pass_handled_code (mem : Nat → monos_except) (body : Code)
    (cs : List (Nat × Code)) (X : Nat) (fin : Option Code) (a : CtxtPtr) (m : Machine)
    (c : monos_except_context)
    (hmem : X ∈ cs.map Prod.fst)
    (hall : ∀ p ∈ cs, p.1 = X → leaves_stack p.2)
    (hfin : ∀ F, fin = some F → leaves_stack F)
    (hload : m.load a = some c) (hX : c.except_p = some X) (hlink : c.link_p ≠ none) :
    ∃ m2, loop_body mem body cs fin a EXCEPT_THROWN m = .cont EXCEPT_END m2
      ∧ m2.load a = some c
      ∧ (∀ q d, m.load q = some d → m2.load q = some d)
      ∧ m2.ctxt_stack_p = c.link_p := by
  have htry : try_part mem body (closer_of cs fin) a EXCEPT_THROWN m
      = .cont EXCEPT_THROWN m := by
    simp [try_part]
  obtain ⟨st2, m2, hcatch, hload2, hkeep2, hin, _⟩ :=
    catch_parts_handle_code mem fin a X c hX hlink cs EXCEPT_THROWN m (by decide) hload hall
  obtain ⟨htop2, hst2⟩ := hin hmem
  have h1 : st2 ≠ EXCEPT_INIT := by
    rcases hst2 with h | ⟨h, _⟩ <;> rw [h] <;> decide
  have h2 : st2 ≠ EXCEPT_THROWN := by
    rcases hst2 with h | ⟨h, _⟩ <;> rw [h] <;> decide
  have hend : fin = none → st2 = EXCEPT_END := by
    intro hnone
    rcases hst2 with h | ⟨_, h⟩
    · exact h
    · rw [hnone] at h
      simp at h
  obtain ⟨m3, hfinal, hload3, hkeep3, htop3⟩ :=
    finally_opt_code mem fin a st2 m2 c h1 h2 hend hload2 hlink (fun _ => htop2) hfin
  refine ⟨m3, ?_, hload3, fun q d h => hkeep3 q d (hkeep2 q d h), htop3⟩
  rw [loop_body, htry]
  simp only [Step.bind]
  rw [hcatch]
  exact hfinal

/-- Path 2: the body throws an identity the block has a catch clause for. -/
theorem block_handled_code (mem : Nat → monos_except) (fuel : Nat) (m : Machine)
    (l : List CtxtPtr) (before rest : Code) (cs : List (Nat × Code)) (X : Nat)
    (fin : Option Code) (file func : String) (line : Nat)
    (hwf : isChain m (parent_link m) l = true)
    (hbefore : leaves_stack before)
    (hmem : X ∈ cs.map Prod.fst)
    (hall : ∀ p ∈ cs, p.1 = X → leaves_stack p.2)
    (hfin : ∀ F, fin = some F → leaves_stack F)
    (hlen : cs.length + (if fin.isSome then 1 else 0) ≤ MONOS_MAX_EXCEPT) :
    ∃ m2, monos_block mem (fuel + 4) (seq before (seq (monos_throw mem X file func line) rest))
        cs fin m = .normal m2 ∧ popped m l m2 := by
  obtain ⟨m1, hb, htop1, hkeep1⟩ := hbefore (entered m (cs.map Prod.fst) fin.isSome)
    (by rw [entered, inside_top]; simp)
  have hload1 : m1.load (block_ctxt m)
      = some (declared (cs.map Prod.fst) fin.isSome (parent_link m)) :=
    hkeep1 _ _ (by rw [entered, load_inside])
  have hthrow := throw_loc_top mem m1 (block_ctxt m) _ X (some file) (some func) line
    (by rw [htop1, entered, inside_top]) hload1 ((registers_declared _ _ _ X).mpr hmem)
  have hbody : (seq before (seq (monos_throw mem X file func line) rest))
      (entered m (cs.map Prod.fst) fin.isSome)
      = .jump (block_ctxt m) ((m1.set_stack_p (some (block_ctxt m))).store (block_ctxt m)
          (thrown_into (declared (cs.map Prod.fst) fin.isSome (parent_link m)) X (some file)
            (some func) line)) := by
    simp only [seq, hb, monos_throw, hthrow]
  have hload2 : ((m1.set_stack_p (some (block_ctxt m))).store (block_ctxt m)
      (thrown_into (declared (cs.map Prod.fst) fin.isSome (parent_link m)) X (some file)
        (some func) line)).load (block_ctxt m)
      = some (thrown_into (declared (cs.map Prod.fst) fin.isSome (parent_link m)) X
          (some file) (some func) line) :=
    load_store_same _ _ _ _ (by simpa using hload1)
  obtain ⟨m3, hpass, hload3, hkeep3, htop3⟩ :=
    thrown_pass_handled_code mem (seq before (seq (monos_throw mem X file func line) rest))
      cs X fin (block_ctxt m) _ _ hmem hall hfin hload2 rfl (parent_link_ne_none m)
  refine ⟨m3, ?_, popped_of_keeps m l m3 _ hwf htop3 hload3 rfl ?_⟩
  · rw [monos_block_eq,
      block_loop_cont mem _ cs fin _ (fuel + 3) _ _ _ _ (by decide)
        (init_pass mem _ cs fin m hlen),
      block_loop_reenter mem _ cs fin _ (fuel + 2) _ _ _ (by decide)
        (body_pass_leave mem _ _ _ _ _ _ hbody (by simp)),
      block_loop_cont mem _ cs fin _ (fuel + 1) _ _ _ _ (by decide) hpass,
      block_loop_end]
  · intro q d hq
    apply hkeep3
    have hne : q ≠ block_ctxt m := loaded_ne_block_ctxt m q d hq
    rw [load_store_other _ _ q _ hne, load_set_stack_p]
    exact hkeep1 q d (entered_keeps m _ _ q d hq)

end neutral_blocks

section neutral_rethrow

theorem thrown_pass_rethrow_code (mem : Nat → monos_except) (body : Code)
    (cs : List (Nat × Code)) (cleanup : Code) (a : CtxtPtr) (m m2 : Machine)
    (c : monos_except_context) (X : Nat)
    (hload : m.load a = some c) (hX : c.except_p = some X) (hfin : c.has_finally = true)
    (hnot : X ∉ cs.map Prod.fst)
    (hcl : cleanup (m.set_stack_p c.link_p) = .normal m2) (hkeep : m2.load a = some c) :
    loop_body mem body cs (some cleanup) a EXCEPT_THROWN m
      = .leave (monos_except_throw_loc mem X c.file c.func c.line m2) := by
  have htry : try_part mem body (closer_of cs (some cleanup)) a EXCEPT_THROWN m
      = .cont EXCEPT_THROWN m := by
    simp [try_part]
  rw [loop_body, htry]
  simp only [Step.bind]
  rw [catch_parts_skip mem _ a _ m c (by decide) hload cs
    (by intro e he heq; rw [hX] at heq; cases heq; exact hnot he)]
  simp only [finally_opt]
  rw [finally_part_rethrow_code mem cleanup a m m2 c X hload hfin hX hcl hkeep]
  cases hthrow : monos_except_throw_loc mem X c.file c.func c.line m2 with
  | normal m3 => exact absurd hthrow (throw_loc_not_normal mem X _ _ _ _ m3)
  | jump t m3 => simp only [Step.run, hthrow]
  | aborted m3 => simp only [Step.run, hthrow]
  | exited m3 => simp only [Step.run, hthrow]
  | fault => simp only [Step.run, hthrow]
  | diverge => simp only [Step.run, hthrow]

/-- Path 3: the body throws an identity registered by an enclosing frame
only, and the block has a finally clause. -/
theorem block_rethrow_code (mem : Nat → monos_except) (fuel : Nat) (m : Machine)
    (l : List CtxtPtr) (F : CtxtPtr) (before rest cleanup : Code) (cs : List (Nat × Code))
    (X : Nat) (file func : String) (line : Nat)
    (hchain : isChain m m.ctxt_stack_p l = true)
    (hF : l.find? (regAt m X) = some F)
    (hbefore : leaves_stack before) (hcleanup : leaves_stack cleanup)
    (hnot : X ∉ cs.map Prod.fst)
    (hlen : cs.length + 1 ≤ MONOS_MAX_EXCEPT) :
    ∃ m2, monos_block mem (fuel + 3) (seq before (seq (monos_throw mem X file func line) rest))
          cs (some cleanup) m
        = monos_except_throw_loc mem X (some file) (some func) line m2
      ∧ popped m l m2 := by
  have hFl : F ∈ l := List.mem_of_find?_eq_some hF
  have hpl : parent_link m = m.ctxt_stack_p := parent_link_of_chain m l F hchain hFl
  have hwf : isChain m (parent_link m) l = true := by rw [hpl]; exact hchain
  have hne : ∀ q ∈ l, q ≠ block_ctxt m := chain_ne_block_ctxt m l _ hchain
  obtain ⟨m1, hb, htop1, hkeep1⟩ := hbefore (entered m (cs.map Prod.fst) true)
    (by rw [entered, inside_top]; simp)
  have hload1 : m1.load (block_ctxt m) = some (declared (cs.map Prod.fst) true (parent_link m)) :=
    hkeep1 _ _ (by rw [entered, load_inside])
  have hagree1 : ∀ q ∈ l, m1.load q = m.load q := by
    intro q hq
    obtain ⟨d, hd⟩ := isChain_loaded m l _ q hchain hq
    rw [hkeep1 q d (entered_keeps m _ _ q d hd), hd]
  have hchain1 : isChain m1 m1.ctxt_stack_p (block_ctxt m :: l) = true := by
    rw [htop1, entered, inside_top, isChain_cons]
    refine ⟨rfl, _, hload1, ?_⟩
    exact isChain_agree m m1 l _ hagree1 (by simpa [declared, hpl] using hchain)
  have hrega : regAt m1 X (block_ctxt m) = false := by
    simp only [regAt, hload1]
    rw [Bool.eq_false_iff]
    intro h
    exact hnot ((registers_declared _ _ _ X).mp h)
  have hF1 : (block_ctxt m :: l).find? (regAt m1 X) = some F := by
    rw [List.find?_cons, hrega]
    simp only
    rw [find?_agree _ (regAt m X) l (fun q hq => regAt_agree m _ X q (hagree1 q hq))]
    exact hF
  have hfina : finAt m1 (block_ctxt m) = true := by
    simp only [finAt, hload1, declared]
  have hG : (block_ctxt m :: l).find? (fun q => q == F || finAt m1 q)
      = some (block_ctxt m) := by
    rw [List.find?_cons, hfina]
    simp
  have hthrow := throw_loc_chain_into mem m1 (block_ctxt m :: l) X (some file) (some func) line
    F (block_ctxt m) _ hchain1 hF1 hG hload1
  have hbody : (seq before (seq (monos_throw mem X file func line) rest))
      (entered m (cs.map Prod.fst) true)
      = .jump (block_ctxt m) ((m1.set_stack_p (some (block_ctxt m))).store (block_ctxt m)
          (thrown_into (declared (cs.map Prod.fst) true (parent_link m)) X (some file)
            (some func) line)) := by
    simp only [seq, hb, monos_throw, hthrow]
  have hload2 : ((m1.set_stack_p (some (block_ctxt m))).store (block_ctxt m)
      (thrown_into (declared (cs.map Prod.fst) true (parent_link m)) X (some file)
        (some func) line)).load (block_ctxt m)
      = some (thrown_into (declared (cs.map Prod.fst) true (parent_link m)) X
          (some file) (some func) line) :=
    load_store_same _ _ _ _ (by simpa using hload1)
  obtain ⟨m2, hcl, htop2, hkeep2⟩ := hcleanup
    (((m1.set_stack_p (some (block_ctxt m))).store (block_ctxt m)
      (thrown_into (declared (cs.map Prod.fst) true (parent_link m)) X (some file)
        (some func) line)).set_stack_p (parent_link m))
    (by simpa using parent_link_ne_none m)
  have hload3 : m2.load (block_ctxt m)
      = some (thrown_into (declared (cs.map Prod.fst) true (parent_link m)) X
          (some file) (some func) line) :=
    hkeep2 _ _ (by rw [load_set_stack_p]; exact hload2)
  have hkeep : ∀ q d, m.load q = some d → m2.load q = some d := by
    intro q d hq
    apply hkeep2
    have hneq : q ≠ block_ctxt m := loaded_ne_block_ctxt m q d hq
    rw [load_set_stack_p, load_store_other _ _ q _ hneq, load_set_stack_p]
    exact hkeep1 q d (entered_keeps m _ _ q d hq)
  have htop3 : m2.ctxt_stack_p = parent_link m := by simpa using htop2
  have hpop : popped m l m2 := popped_of_keeps m l m2 _ hwf htop3 hload3 rfl hkeep
  have hpass := thrown_pass_rethrow_code mem
    (seq before (seq (monos_throw mem X file func line) rest)) cs cleanup (block_ctxt m) _ m2
    _ X hload2 rfl rfl hnot hcl hload3
  -- the second throw goes to a frame of `l`
  have hagree2 : ∀ q ∈ l, m2.load q = m.load q := by
    intro q hq
    obtain ⟨d, hd⟩ := isChain_loaded m l _ q hchain hq
    rw [hkeep q d hd, hd]
  have hF2 : l.find? (regAt m2 X) = some F := by
    rw [find?_agree _ (regAt m X) l (fun q hq => regAt_agree m _ X q (hagree2 q hq))]
    exact hF
  obtain ⟨T, hT, hTl⟩ := find_target_exists m2 l X F hF2
  obtain ⟨cT, hcT⟩ := isChain_loaded m2 l _ T hpop.2.2.1 hTl
  have hthrow2 := throw_loc_chain_into mem m2 l X (some file) (some func) line F T cT
    hpop.2.2.1 hF2 hT hcT
  refine ⟨m2, ?_, hpop⟩
  have hinit := init_pass mem (seq before (seq (monos_throw mem X file func line) rest)) cs
    (some cleanup) m (by simpa using hlen)
  simp only [Option.isSome_some] at hinit
  rw [monos_block_eq,
    block_loop_cont mem _ cs _ _ (fuel + 2) _ _ _ _ (by decide) hinit,
    block_loop_reenter mem _ cs _ _ (fuel + 1) _ _ _ (by decide)
      (body_pass_leave mem _ _ _ _ _ _ hbody (by simp)),
    block_loop_leave mem _ cs _ _ fuel _ _ _ (by decide) hpass
      (by
        intro m4 h
        have h2 : monos_except_throw_loc mem X (some file) (some func) line m2
            = .jump (block_ctxt m) m4 := h
        rw [hthrow2] at h2
        cases h2
        exact hne _ hTl rfl)]
  rfl

end neutral_rethrow

section neutral_examples

/-- A block with a clause whose body is user code and falls through leaves
the stack as it found it. -/
theorem block_leaves_stack (mem : Nat → monos_except) (fuel : Nat) (cs : List (Nat × Code))
    (fin : Option (List String → List String)) (f : List String → List String)
    (hlen : cs.length + (if fin.isSome then 1 else 0) ≤ MONOS_MAX_EXCEPT)
    (hsome : cs ≠ [] ∨ fin.isSome = true) :
    leaves_stack (monos_block mem (fuel + 3) (user f) cs (fin.map user)) := by
  intro m htop
  refine ⟨_, block_normal_user mem fuel m cs fin f hlen hsome, ?_, ?_⟩
  · rw [map_out_top, left_top]
    cases hm : m.ctxt_stack_p with
    | none => exact absurd hm htop
    | some p => simp [parent_link, hm]
  · intro q d hq
    rw [load_map_out, load_left_old m _ q d hq, hq]

end neutral_examples

section asserting

/-- The statement `throw(X)` as the whole body of a block that registers `X`. -/
theorem throw_alone_in_body (mem : Nat → monos_except) (m : Machine) (es : List Nat) (hf : Bool)
    (X : Nat) (file func : String) (line : Nat) (hX : X ∈ es) :
    monos_throw mem X file func line (entered m es hf)
      = .jump (block_ctxt m)
          (inside m (thrown_into (declared es hf (parent_link m)) X (some file) (some func)
            line)) := by
  have hload : (entered m es hf).load (block_ctxt m) = some (declared es hf (parent_link m)) := by
    rw [entered, load_inside]
  have h := throw_loc_top mem (entered m es hf) (block_ctxt m) _ X (some file) (some func) line
    rfl hload ((registers_declared es hf _ X).mpr hX)
  simp only [monos_throw, h]
  congr 1
  rw [entered, inside_set_stack_p_self, store_inside]

/-- A failed assertion is the throw of `monos_assert_error`. -/
theorem monos_assert_zero (mem : Nat → monos_except) (file func : String) (line : Nat) :
    monos_assert mem 0 file func line = monos_throw mem monos_assert_error file func line := by
  simp [monos_assert]

/-- An assertion that holds does nothing. -/
theorem monos_assert_nonzero (mem : Nat → monos_except) (e : Int) (file func : String)
    (line : Nat) (m : Machine) (h : e ≠ 0) : monos_assert mem e file func line m = .normal m := by
  simp [monos_assert, h]

/-- The block `try { assert(0) } catch(monos_assert_error) { h } end_try`. -/
theorem block_assert_caught (mem : Nat → monos_except) (fuel : Nat) (m : Machine)
    (h : List String → List String) (file func : String) (line : Nat) :
    monos_block mem (fuel + 4) (monos_assert mem 0 file func line)
        [(monos_assert_error, user h)] none m
      = .normal ((left m (thrown_into (declared [monos_assert_error] false (parent_link m))
          monos_assert_error (some file) (some func) line)).map_out h) := by
  have hb := block_handled mem fuel (monos_assert mem 0 file func line) [] []
    monos_assert_error h none m _ _ (by simp) (by simp [MONOS_MAX_EXCEPT])
    (by
      rw [monos_assert_zero]
      exact throw_alone_in_body mem m _ false monos_assert_error file func line (by simp))
    (load_inside m _) rfl
  simpa using hb

end asserting

section inside_handlers

/-- Code that does not fall through leaves the loop body with its outcome. -/
theorem step_run_leave (H : Code) (st : monos_except_state) (m : Machine) (o : Outcome)
    (hH : H m = o) (hn : ∀ m2, o ≠ .normal m2) : Step.run H st m = .leave o := by
  cases o with
  | normal m2 => exact absurd rfl (hn m2)
  | jump t m2 => simp only [Step.run, hH]
  | aborted m2 => simp only [Step.run, hH]
  | exited m2 => simp only [Step.run, hH]
  | fault => simp only [Step.run, hH]
  | diverge => simp only [Step.run, hH]

/-- The clause `catch(X) H` when `X` has been thrown into the block and `H` does
not fall through: `H` runs with the context popped, and its outcome leaves
the loop body. -/
theorem catch_part_leaves (mem : Nat → monos_except) (X : Nat) (H : Code) (cl : Closer)
    (a : CtxtPtr) (st : monos_except_state) (m : Machine) (c : monos_except_context)
    (o : Outcome)
    (hst : st ≠ EXCEPT_INIT) (hload : m.load a = some c) (hX : c.except_p = some X)
    (hH : H (m.set_stack_p c.link_p) = o) (hn : ∀ m2, o ≠ .normal m2) :
    catch_part mem X H cl a st m = .leave o := by
  simp only [catch_part, hload, if_neg hst, hX, if_true, Step.run, monos_except_context_pop,
    Step.bind]
  have h := step_run_leave H EXCEPT_HANDLED _ o hH hn
  simp only [Step.run] at h
  rw [h]

theorem catch_parts_leaves (mem : Nat → monos_except) (fin : Option Code) (a : CtxtPtr)
    (X : Nat) (H : Code) (post : List (Nat × Code)) (c : monos_except_context) (o : Outcome)
    (hX : c.except_p = some X) (hn : ∀ m2, o ≠ .normal m2) :
    ∀ (pre : List (Nat × Code)) (st : monos_except_state) (m : Machine),
      st ≠ EXCEPT_INIT → m.load a = some c → X ∉ pre.map Prod.fst →
      H (m.set_stack_p c.link_p) = o →
      catch_parts mem (pre ++ (X, H) :: post) fin a st m = .leave o := by
  intro pre
  induction pre with
  | nil =>
      intro st m hst hload _ hH
      simp only [List.nil_append, catch_parts]
      rw [catch_part_leaves mem X H _ a st m c o hst hload hX hH hn]
      rfl
  | cons eh rest ih =>
      intro st m hst hload hpre hH
      obtain ⟨e, g⟩ := eh
      simp only [List.map_cons, List.mem_cons, not_or] at hpre
      simp only [List.cons_append, catch_parts]
      rw [catch_part_skip mem e g _ a st m c hst hload
        (by rw [hX]; intro heq; cases heq; exact hpre.1 rfl)]
      simp only [Step.bind]
      exact ih st m hst hload hpre.2 hH

/-- The pass in state `EXCEPT_THROWN` of a block whose handler for the
identity thrown does not fall through. -/
theorem thrown_pass_handler_leaves (mem : Nat → monos_except) (body : Code)
    (pre post : List (Nat × Code)) (X : Nat) (H : Code) (fin : Option Code) (a : CtxtPtr)
    (m : Machine) (c : monos_except_context) (o : Outcome)
    (hpre : X ∉ pre.map Prod.fst)
    (hload : m.load a = some c) (hX : c.except_p = some X)
    (hH : H (m.set_stack_p c.link_p) = o) (hn : ∀ m2, o ≠ .normal m2) :
    loop_body mem body (pre ++ (X, H) :: post) fin a EXCEPT_THROWN m = .leave o := by
  have htry : try_part mem body (closer_of (pre ++ (X, H) :: post) fin) a
      EXCEPT_THROWN m = .cont EXCEPT_THROWN m := by
    simp [try_part]
  rw [loop_body, htry]
  simp only [Step.bind]
  rw [catch_parts_leaves mem fin a X H post c o hX hn pre EXCEPT_THROWN m (by decide) hload
    hpre hH]

/-- The block `try { f; throw(X); rest } catch ... catch(X) H ... [finally F] end_try`
whose first handler for `X` is code `H` that does not fall through: the
block ends as `H` does, run in the state where the context of the block has
been popped. -/
theorem block_handler_leaves (mem : Nat → monos_except) (fuel : Nat) (m : Machine)
    (pre post : List (Nat × Code)) (X : Nat) (H : Code) (f : List String → List String)
    (fin : Option Code) (rest : Code) (file func : String) (line : Nat) (o : Outcome)
    (hpre : X ∉ pre.map Prod.fst)
    (hlen : (pre ++ (X, H) :: post).length + (if fin.isSome then 1 else 0) ≤ MONOS_MAX_EXCEPT)
    (hH : H ((left m (thrown_into (declared ((pre ++ (X, H) :: post).map Prod.fst) fin.isSome
      (parent_link m)) X (some file) (some func) line)).map_out f) = o)
    (hn : ∀ m2, o ≠ .normal m2) (hj : ∀ m2, o ≠ .jump (block_ctxt m) m2) :
    monos_block mem (fuel + 3) (seq (user f) (seq (monos_throw mem X file func line) rest))
        (pre ++ (X, H) :: post) fin m = o := by
  have hinit := init_pass mem (seq (user f) (seq (monos_throw mem X file func line) rest))
    (pre ++ (X, H) :: post) fin m hlen
  have hbody := throw_in_body mem m ((pre ++ (X, H) :: post).map Prod.fst) fin.isSome f X file
    func line rest (by simp)
  rw [monos_block_eq,
    block_loop_cont mem _ _ _ _ (fuel + 2) _ _ _ _ (by decide) hinit,
    block_loop_reenter mem _ _ _ _ (fuel + 1) _ _ _ (by decide)
      (body_pass_leave mem _ _ _ _ _ _ hbody (by simp)),
    block_loop_leave mem _ _ _ _ fuel _ _ o (by decide)
      (thrown_pass_handler_leaves mem _ pre post X H fin _
        ((inside m (thrown_into (declared ((pre ++ (X, H) :: post).map Prod.fst) fin.isSome
          (parent_link m)) X (some file) (some func) line)).map_out f)
        (thrown_into (declared ((pre ++ (X, H) :: post).map Prod.fst) fin.isSome
          (parent_link m)) X (some file) (some func) line) o hpre
        (by rw [load_map_out, load_inside]) rfl (by rw [← hH]; rfl) hn) hj]

/-- The finally clause whose cleanup `C` does not fall through: `C` runs with the
context popped, and its outcome leaves the loop body. -/
theorem finally_part_leaves (mem : Nat → monos_except) (C : Code) (a : CtxtPtr)
    (st : monos_except_state) (m : Machine) (c : monos_except_context) (o : Outcome)
    (hst : st ≠ EXCEPT_INIT) (hload : m.load a = some c)
    (hC : C (m.set_stack_p c.link_p) = o) (hn : ∀ m2, o ≠ .normal m2) :
    finally_part mem C a st m = .leave o := by
  simp only [finally_part, if_neg hst, Step.run, monos_except_context_pop, hload, Step.bind]
  have h := step_run_leave C st _ o hC hn
  simp only [Step.run] at h
  rw [h]

/-- The pass in state `EXCEPT_BODY` of a block whose body falls through and
whose cleanup does not. -/
theorem body_pass_cleanup_leaves (mem : Nat → monos_except) (body : Code)
    (cs : List (Nat × Code)) (C : Code) (a : CtxtPtr) (m m2 : Machine)
    (c : monos_except_context) (o : Outcome)
    (hbody : body m = .normal m2) (hload : m2.load a = some c) (hno : c.except_p = none)
    (hC : C (m2.set_stack_p c.link_p) = o) (hn : ∀ m2, o ≠ .normal m2) :
    loop_body mem body cs (some C) a EXCEPT_BODY m = .leave o := by
  have hrun : Step.run body EXCEPT_BODY m = .cont EXCEPT_BODY m2 := by
    simp only [Step.run, hbody]
  simp only [loop_body, try_part, if_true, hrun, Step.bind]
  cases cs with
  | cons eh rest =>
      simp only [closer_of, close, close_by_catch, if_true, Step.run,
        monos_except_context_pop, hload]
      rw [catch_parts_skip mem _ a _ _ c (by decide) (by simpa using hload) (eh :: rest)
        (by intro e _; rw [hno]; simp)]
      simp only [finally_opt]
      rw [finally_part_leaves mem C a _ _ c o (by decide) (by simpa using hload)
        (by simpa using hC) hn]
  | nil =>
      simp only [closer_of, close, catch_parts, finally_opt]
      rw [finally_part_leaves mem C a _ _ c o (by decide) hload hC hn]

/-- The block `try { f } catch ... finally C end_try` whose cleanup `C` does not
fall through: the block ends as `C` does, run in the state where the context
of the block has been popped. -/
theorem block_cleanup_leaves (mem : Nat → monos_except) (fuel : Nat) (m : Machine)
    (cs : List (Nat × Code)) (C : Code) (f : List String → List String) (o : Outcome)
    (hlen : cs.length + 1 ≤ MONOS_MAX_EXCEPT)
    (hC : C ((left m (declared (cs.map Prod.fst) true (parent_link m))).map_out f) = o)
    (hn : ∀ m2, o ≠ .normal m2) (hj : ∀ m2, o ≠ .jump (block_ctxt m) m2) :
    monos_block mem (fuel + 2) (user f) cs (some C) m = o := by
  have hinit := init_pass mem (user f) cs (some C) m (by simpa using hlen)
  simp only [Option.isSome_some] at hinit
  rw [monos_block_eq,
    block_loop_cont mem _ _ _ _ (fuel + 1) _ _ _ _ (by decide) hinit,
    block_loop_leave mem _ _ _ _ fuel _ _ o (by decide)
      (body_pass_cleanup_leaves mem (user f) cs C _ _
        ((entered m (cs.map Prod.fst) true).map_out f)
        (declared (cs.map Prod.fst) true (parent_link m)) o rfl
        (by rw [load_map_out, entered, load_inside]) rfl (by rw [← hC]; rfl) hn) hj]

/-- A throw on a frame stack either aborts or transfers control to a frame of
the stack. -/
theorem throw_loc_outcome (mem : Nat → monos_except) (m : Machine) (l : List CtxtPtr) (X : Nat)
    (file func : Option String) (line : Nat)
    (hchain : isChain m m.ctxt_stack_p l = true) :
    (∃ s, monos_except_throw_loc mem X file func line m = .aborted s)
      ∨ (∃ T m2, monos_except_throw_loc mem X file func line m = .jump T m2 ∧ T ∈ l) := by
  cases hfind : l.find? (regAt m X) with
  | none =>
      refine Or.inl ⟨_, throw_loc_unhandled mem m l X file func line hchain ?_⟩
      intro q hq
      have h := List.find?_eq_none.mp hfind q hq
      simpa using h
  | some F =>
      obtain ⟨G, hG, hmem⟩ := find_target_exists m l X F hfind
      obtain ⟨c, hc⟩ := isChain_loaded m l m.ctxt_stack_p G hchain hmem
      exact Or.inr ⟨G, _, throw_loc_chain mem m l X file func line F G c hchain hfind hG hc,
        hmem⟩

/-- The state in which the context of a block has been popped, seen from the
stack the block was entered on. -/
theorem popped_left (m : Machine) (l : List CtxtPtr) (c : monos_except_context)
    (f : List String → List String)
    (hwf : isChain m (parent_link m) l = true) (hlink : c.link_p = parent_link m) :
    popped m l ((left m c).map_out f) :=
  popped_of_keeps m l _ c hwf rfl (by rw [load_map_out, load_left]) hlink
    (fun q d hq => by rw [load_map_out, load_left_old m c q d hq, hq])

/-- A throw made where the context of a block has been popped: it is not
dispatched to that block. -/
theorem throw_popped_outcome (mem : Nat → monos_except) (m m2 : Machine) (l : List CtxtPtr)
    (Y : Nat) (file func : Option String) (line : Nat) (hp : popped m l m2) :
    (∀ m3, monos_except_throw_loc mem Y file func line m2 ≠ .normal m3)
      ∧ (∀ m3, monos_except_throw_loc mem Y file func line m2 ≠ .jump (block_ctxt m) m3)
      ∧ ((∃ s, monos_except_throw_loc mem Y file func line m2 = .aborted s)
          ∨ (∃ T m3, monos_except_throw_loc mem Y file func line m2 = .jump T m3
              ∧ T ∈ l ∧ T ≠ block_ctxt m)) := by
  obtain ⟨_, _, hchain, hnot⟩ := hp
  have hshape := throw_loc_outcome mem m2 l Y file func line hchain
  refine ⟨fun m3 => throw_loc_not_normal mem Y file func line m2 m3, ?_, ?_⟩
  · intro m3 h
    rcases hshape with ⟨s, hs⟩ | ⟨T, m4, hT, hmem⟩
    · rw [hs] at h
      cases h
    · rw [hT] at h
      cases h
      exact hnot hmem
  · rcases hshape with ⟨s, hs⟩ | ⟨T, m4, hT, hmem⟩
    · exact Or.inl ⟨s, hs⟩
    · exact Or.inr ⟨T, m4, hT, hmem, fun e => hnot (e ▸ hmem)⟩

end inside_handlers

section pass_states

/-- The head of `monos_end_try` always sets the state to `EXCEPT_END`. -/
theorem close_by_end_try_state (mem : Nat → monos_except) (a : CtxtPtr)
    (st st2 : monos_except_state) (m m2 : Machine)
    (h : close_by_end_try mem a st m = .cont st2 m2) : st2 = EXCEPT_END := by
  unfold close_by_end_try at h
  cases hl : m.load a with
  | none => rw [hl] at h; cases h
  | some c =>
      rw [hl] at h
      simp only at h
      split at h
      · cases hx : c.except_p with
        | none => rw [hx] at h; cases h
        | some x =>
            rw [hx] at h
            simp only [Step.run] at h
            split at h
            · cases h; rfl
            · cases h
      · cases h; rfl

/-- The finally clause outside the declaration pass ends in state
`EXCEPT_END` when control goes on. -/
theorem finally_part_state (mem : Nat → monos_except) (F : Code) (a : CtxtPtr)
    (st st2 : monos_except_state) (m m2 : Machine)
    (hst : st ≠ EXCEPT_INIT) (h : finally_part mem F a st m = .cont st2 m2) :
    st2 = EXCEPT_END := by
  unfold finally_part at h
  rw [if_neg hst] at h
  cases hp : Step.run (monos_except_context_pop a) st m with
  | leave o => rw [hp] at h; cases h
  | cont st1 m1 =>
      rw [hp] at h
      simp only [Step.bind] at h
      cases hF : Step.run F st1 m1 with
      | leave o => rw [hF] at h; cases h
      | cont st3 m3 =>
          rw [hF] at h
          exact close_by_end_try_state mem a st3 st2 m3 m2 h

end pass_states

section pushing

/-- The function `monos_except_context_push` on an existing object: the link
stored is the stack top, or the address of `ctxt_0` when the top was NULL. -/
theorem push_eq (m : Machine) (f : CtxtPtr) (c : monos_except_context)
    (hload : m.load f = some c) :
    monos_except_context_push f m
      = .normal ((m.store f { c with link_p := parent_link m }).set_stack_p (some f)) := by
  unfold monos_except_context_push parent_link
  by_cases htop : m.ctxt_stack_p = none
  · simp only [if_pos htop, load_set_stack_p, hload, set_stack_p_top]
    rw [store_set_stack_p, store_set_stack_p, set_stack_p_set_stack_p]
  · simp only [if_neg htop, hload]

/-- The function `monos_except_context_pop` on an existing object. -/
theorem pop_eq (m : Machine) (f : CtxtPtr) (c : monos_except_context)
    (hload : m.load f = some c) :
    monos_except_context_pop f m = .normal (m.set_stack_p c.link_p) := by
  simp only [monos_except_context_pop, hload]

end pushing

section propagating

theorem regAt_set_stack_p (m : Machine) (p : Option CtxtPtr) (X : Nat) (q : CtxtPtr) :
    regAt (m.set_stack_p p) X q = regAt m X q := by
  simp only [regAt, load_set_stack_p]

theorem finAt_set_stack_p (m : Machine) (p : Option CtxtPtr) (q : CtxtPtr) :
    finAt (m.set_stack_p p) q = finAt m q := by
  simp only [finAt, load_set_stack_p]

/-- A throw into `G` leaves what every frame registers as it was. -/
theorem regAt_thrown (m : Machine) (G q : CtxtPtr) (c : monos_except_context) (X Z : Nat)
    (file func : Option String) (line : Nat) (p : Option CtxtPtr)
    (hc : m.load G = some c) :
    regAt ((m.set_stack_p p).store G (thrown_into c Z file func line)) X q = regAt m X q := by
  by_cases hq : q = G
  · subst hq
    have h := load_store_same (m.set_stack_p p) q c (thrown_into c Z file func line)
      (by simpa using hc)
    simp only [regAt, h, hc]
    rfl
  · simp only [regAt, load_store_other _ G q _ hq, load_set_stack_p]

theorem finAt_thrown (m : Machine) (G q : CtxtPtr) (c : monos_except_context) (Z : Nat)
    (file func : Option String) (line : Nat) (p : Option CtxtPtr)
    (hc : m.load G = some c) :
    finAt ((m.set_stack_p p).store G (thrown_into c Z file func line)) q = finAt m q := by
  by_cases hq : q = G
  · subst hq
    have h := load_store_same (m.set_stack_p p) q c (thrown_into c Z file func line)
      (by simpa using hc)
    simp only [finAt, h, hc]
    rfl
  · simp only [finAt, load_store_other _ G q _ hq, load_set_stack_p]

/-- A top frame that neither registers the identity nor has a finally clause
plays no part in a throw. -/
theorem throw_skip_top (mem : Nat → monos_except) (m : Machine) (q F : CtxtPtr)
    (cq : monos_except_context) (t : List CtxtPtr) (X : Nat) (file func : Option String)
    (line : Nat)
    (htop : m.ctxt_stack_p = some q) (hload : m.load q = some cq)
    (hchain : isChain m cq.link_p t = true)
    (hreg : regAt m X q = false) (hfin : finAt m q = false)
    (hF : t.find? (regAt m X) = some F) :
    monos_except_throw_loc mem X file func line m
      = monos_except_throw_loc mem X file func line (m.set_stack_p cq.link_p) := by
  obtain ⟨G, hG, hmem⟩ := find_target_exists m t X F hF
  obtain ⟨c, hc⟩ := isChain_loaded m t cq.link_p G hchain hmem
  have hFq : (q == F) = false := by
    rw [beq_eq_false_iff_ne]
    intro e
    subst e
    rw [List.find?_some hF] at hreg
    cases hreg
  have hchain1 : isChain m m.ctxt_stack_p (q :: t) = true := by
    rw [isChain_cons]
    exact ⟨htop, cq, hload, hchain⟩
  have hF1 : (q :: t).find? (regAt m X) = some F := by
    rw [List.find?_cons, hreg]
    exact hF
  have hG1 : (q :: t).find? (fun x => x == F || finAt m x) = some G := by
    rw [List.find?_cons, hFq, hfin]
    exact hG
  have hchain2 : isChain (m.set_stack_p cq.link_p) (m.set_stack_p cq.link_p).ctxt_stack_p t
      = true :=
    isChain_agree m _ t _ (fun x _ => load_set_stack_p m _ x) hchain
  have hF2 : t.find? (regAt (m.set_stack_p cq.link_p) X) = some F := by
    rw [find?_agree _ (regAt m X) t (fun x _ => regAt_set_stack_p m _ X x)]
    exact hF
  have hG2 : t.find? (fun x => x == F || finAt (m.set_stack_p cq.link_p) x) = some G := by
    rw [find?_agree _ (fun x => x == F || finAt m x) t
      (fun x _ => by rw [finAt_set_stack_p])]
    exact hG
  rw [throw_loc_chain mem m (q :: t) X file func line F G c hchain1 hF1 hG1 hc,
    throw_loc_chain mem _ t X file func line F G c hchain2 hF2 hG2
      (by rw [load_set_stack_p]; exact hc)]
  rfl

/-- The propagation of a throw on a stack with a frame that registers the
identity: it reaches a handler body of the nearest such frame, after at most
one cleanup and re-throw for each frame above it. -/
theorem unwind_chain (mem : Nat → monos_except) (cleanup : CtxtPtr → Code) (X : Nat)
    (file func : Option String) (line : Nat) (hcl : ∀ G, leaves_stack (cleanup G)) :
    ∀ (l : List CtxtPtr) (m : Machine) (F : CtxtPtr) (k fuel : Nat),
      isChain m m.ctxt_stack_p l = true → l.find? (regAt m X) = some F → l.length ≤ fuel →
      ∃ G m1 j m2, monos_except_throw_loc mem X file func line m = .jump G m1
        ∧ unwind mem cleanup X fuel k G m1 = .handler (k + j) F m2
        ∧ j ≤ (l.takeWhile (fun q => q != F)).length
        ∧ m2.ctxt_stack_p = some F ∧ regAt m2 X F = true := by
  intro l
  induction l with
  | nil =>
      intro m F k fuel _ hF _
      cases hF
  | cons q t ih =>
      intro m F k fuel hchain hF hfuel
      obtain ⟨htop, cq, hload, hrest⟩ := (isChain_cons m _ q t).mp hchain
      obtain ⟨fuel', rfl⟩ : ∃ f', fuel = f' + 1 :=
        ⟨fuel - 1, by simp only [List.length_cons] at hfuel; omega⟩
      have hfuel' : t.length ≤ fuel' := by
        simp only [List.length_cons] at hfuel
        omega
      cases hreg : regAt m X q with
      | true =>
          have hFq : q = F := by
            rw [List.find?_cons, hreg] at hF
            cases hF
            rfl
          subst hFq
          have hG : (q :: t).find? (fun x => x == q || finAt m x) = some q := by
            simp [List.find?_cons]
          refine ⟨q, _, 0, (m.set_stack_p (some q)).store q (thrown_into cq X file func line),
            throw_loc_chain_into mem m (q :: t) X file func line q q cq hchain hF hG hload,
            ?_, Nat.zero_le _, ?_, ?_⟩
          · rw [unwind, regAt_thrown m q q cq X X file func line _ hload, hreg]
            rfl
          · simp [store_ctxt_stack_p]
          · rw [regAt_thrown m q q cq X X file func line _ hload, hreg]
      | false =>
          have hFt : t.find? (regAt m X) = some F := by
            rw [List.find?_cons, hreg] at hF
            exact hF
          have hFmem : F ∈ t := List.mem_of_find?_eq_some hFt
          have hqt : q ∉ t := by
            have hnd := isChain_nodup m (q :: t) _ hchain
            exact (List.nodup_cons.mp hnd).1
          have hqF : (q == F) = false := by
            rw [beq_eq_false_iff_ne]
            intro e
            exact hqt (e ▸ hFmem)
          have hbound : ∀ j, j ≤ (t.takeWhile (fun x => x != F)).length →
              j + 1 ≤ ((q :: t).takeWhile (fun x => x != F)).length := by
            intro j hj
            have hne : (q != F) = true := by
              simp only [bne, hqF, Bool.not_false]
            simp only [List.takeWhile_cons, hne, if_true, List.length_cons]
            omega
          have hlink : cq.link_p ≠ none := by
            intro e
            rw [e] at hrest
            cases t with
            | nil => cases hFmem
            | cons x t2 => simp [isChain] at hrest
          cases hfin : finAt m q with
          | false =>
              have hchain2 : isChain (m.set_stack_p cq.link_p)
                  (m.set_stack_p cq.link_p).ctxt_stack_p t = true :=
                isChain_agree m _ t _ (fun x _ => load_set_stack_p m _ x) hrest
              have hF2 : t.find? (regAt (m.set_stack_p cq.link_p) X) = some F := by
                rw [find?_agree _ (regAt m X) t (fun x _ => regAt_set_stack_p m _ X x)]
                exact hFt
              obtain ⟨G, m1, j, m2, hthrow, hun, hj, htop2, hreg2⟩ :=
                ih (m.set_stack_p cq.link_p) F k (fuel' + 1) hchain2 hF2 (by omega)
              refine ⟨G, m1, j, m2, ?_, hun, ?_, htop2, hreg2⟩
              · rw [throw_skip_top mem m q F cq t X file func line htop hload hrest hreg hfin
                  hFt]
                exact hthrow
              · have := hbound j hj
                omega
          | true =>
              have hcf : cq.has_finally = true := by
                simpa [finAt, hload] using hfin
              have hG : (q :: t).find? (fun x => x == F || finAt m x) = some q := by
                rw [List.find?_cons, hqF, hfin]
                rfl
              have hthrow :=
                throw_loc_chain_into mem m (q :: t) X file func line F q cq hchain hF hG hload
              have hload1 : ((m.set_stack_p (some q)).store q
                  (thrown_into cq X file func line)).load q
                  = some (thrown_into cq X file func line) :=
                load_store_same _ q cq _ (by simpa using hload)
              obtain ⟨m3, hcl3, htop3, hkeep3⟩ := hcl q
                (((m.set_stack_p (some q)).store q
                  (thrown_into cq X file func line)).set_stack_p cq.link_p)
                (by simpa using hlink)
              have hfp := finally_part_rethrow_code mem (cleanup q) q _ m3
                (thrown_into cq X file func line) X hload1 hcf rfl hcl3
                (hkeep3 q _ (by rw [load_set_stack_p]; exact hload1))
              have hagree : ∀ x ∈ t, m3.load x = m.load x := by
                intro x hx
                obtain ⟨d, hd⟩ := isChain_loaded m t cq.link_p x hrest hx
                have hxq : x ≠ q := fun e => hqt (e ▸ hx)
                rw [hkeep3 x d (by
                  rw [load_set_stack_p, load_store_other _ q x _ hxq, load_set_stack_p]
                  exact hd), hd]
              have hchain3 : isChain m3 m3.ctxt_stack_p t = true := by
                rw [htop3]
                exact isChain_agree m m3 t _ hagree hrest
              have hF3 : t.find? (regAt m3 X) = some F := by
                rw [find?_agree _ (regAt m X) t
                  (fun x hx => regAt_agree m m3 X x (hagree x hx))]
                exact hFt
              obtain ⟨G2, m4, j, m2, hthrow2, hun, hj, htop2, hreg2⟩ :=
                ih m3 F (k + 1) fuel' hchain3 hF3 hfuel'
              refine ⟨q, _, j + 1, m2, hthrow, ?_, hbound j hj, htop2, hreg2⟩
              have hthrow3 : monos_except_throw_loc mem X
                  (thrown_into cq X file func line).file (thrown_into cq X file func line).func
                  (thrown_into cq X file func line).line m3 = .jump G2 m4 := hthrow2
              rw [unwind, regAt_thrown m q q cq X X file func line _ hload, hreg,
                finAt_thrown m q q cq X file func line _ hload, hfin, hfp]
              simp only [Step.run, hthrow3, if_true]
              rw [hun, Nat.add_assoc, Nat.add_comm 1 j]
              simp

/-- The pass in state `EXCEPT_THROWN` of a block with a finally clause and no
catch clause for the identity thrown into it is its finally part. -/
theorem thrown_pass_is_finally_part (mem : Nat → monos_except) (body : Code)
    (cs : List (Nat × Code)) (C : Code) (a : CtxtPtr) (m : Machine)
    (c : monos_except_context) (X : Nat)
    (hload : m.load a = some c) (hX : c.except_p = some X) (hnot : X ∉ cs.map Prod.fst) :
    loop_body mem body cs (some C) a EXCEPT_THROWN m
      = finally_part mem C a EXCEPT_THROWN m := by
  have htry : try_part mem body (closer_of cs (some C)) a EXCEPT_THROWN m
      = .cont EXCEPT_THROWN m := by
    simp [try_part]
  rw [loop_body, htry]
  simp only [Step.bind]
  rw [catch_parts_skip mem _ a _ m c (by decide) hload cs
    (by intro e he heq; rw [hX] at heq; cases heq; exact hnot he)]
  simp only [finally_opt]
  cases hfp : finally_part mem C a EXCEPT_THROWN m with
  | leave o => rfl
  | cont st2 m2 =>
      have hst := finally_part_state mem C a _ st2 m m2 (by decide) hfp
      subst hst
      rfl

end propagating

section single_pass

/-- The target of the two searches is the first frame that registers the
identity or has a finally clause. -/
theorem find_target_eq (m : Machine) (X : Nat) (F : CtxtPtr) :
    ∀ (l : List CtxtPtr), l.find? (regAt m X) = some F →
      l.find? (fun q => q == F || finAt m q) = l.find? (fun q => regAt m X q || finAt m q) := by
  intro l
  induction l with
  | nil => intro _; rfl
  | cons q t ih =>
      intro hF
      cases hreg : regAt m X q with
      | true =>
          have hFq : q = F := by
            rw [List.find?_cons, hreg] at hF
            cases hF
            rfl
          subst hFq
          simp [List.find?_cons, hreg]
      | false =>
          have hFt : t.find? (regAt m X) = some F := by
            rw [List.find?_cons, hreg] at hF
            exact hF
          have hqF : (q == F) = false := by
            rw [beq_eq_false_iff_ne]
            intro e
            subst e
            rw [List.find?_some hFt] at hreg
            cases hreg
          rw [List.find?_cons, List.find?_cons, hqF, hreg, ih hFt]

/-- The search in one pass on a frame stack. -/
theorem single_pass_chain (m : Machine) (X : Nat) :
    ∀ (l : List CtxtPtr) (p : Option CtxtPtr) (fuel : Nat) (cand : Option CtxtPtr),
      isChain m p l = true → l.length < fuel →
      single_pass_search m X fuel p cand
        = .stop (match l.find? (regAt m X) with
                 | none => none
                 | some _ =>
                     match cand with
                     | some g => some g
                     | none => l.find? (fun q => regAt m X q || finAt m q)) := by
  intro l
  induction l with
  | nil =>
      intro p fuel cand hchain hfuel
      have hp : p = none := (isChain_nil m p).mp hchain
      subst hp
      obtain ⟨n, rfl⟩ : ∃ n, fuel = n + 1 := ⟨fuel - 1, by simp at hfuel; omega⟩
      rfl
  | cons q t ih =>
      intro p fuel cand hchain hfuel
      obtain ⟨hp, cq, hload, hrest⟩ := (isChain_cons m p q t).mp hchain
      subst hp
      obtain ⟨n, rfl⟩ : ∃ n, fuel = n + 1 :=
        ⟨fuel - 1, by simp only [List.length_cons] at hfuel; omega⟩
      have hn : t.length < n := by
        simp only [List.length_cons] at hfuel
        omega
      have hregq : regAt m X q = registers cq X := by simp only [regAt, hload]
      have hfinq : finAt m q = cq.has_finally := by simp only [finAt, hload]
      simp only [single_pass_search, hload]
      cases hreg : registers cq X with
      | true =>
          simp only [if_true, List.find?_cons, hregq, hreg, Bool.true_or]
      | false =>
          rw [if_neg (by simp), ih _ n _ hrest hn]
          simp only [List.find?_cons, hregq, hreg, hfinq, Bool.false_or]
          cases t.find? (regAt m X) with
          | none => rfl
          | some F =>
              cases cand with
              | some g => rfl
              | none =>
                  cases cq.has_finally with
                  | true => rfl
                  | false => rfl

/-- The two loops of `monos_except_throw_loc` and the search in one pass give
the same throw on a frame stack. -/
theorem throw_eq_single_pass (mem : Nat → monos_except) (m : Machine) (l : List CtxtPtr)
    (X : Nat) (file func : Option String) (line : Nat)
    (hchain : isChain m m.ctxt_stack_p l = true) :
    monos_except_throw_loc mem X file func line m = throw_single_pass mem X file func line m := by
  have hlen := isChain_length m l _ hchain
  cases hfind : l.find? (regAt m X) with
  | none =>
      have hnone : ∀ q ∈ l, regAt m X q = false := by
        intro q hq
        have h := List.find?_eq_none.mp hfind q hq
        simpa using h
      rw [throw_loc_unhandled mem m l X file func line hchain hnone]
      simp only [throw_single_pass, single_pass_chain m X l _ _ none hchain hlen, hfind]
  | some F =>
      obtain ⟨G, hG, hmem⟩ := find_target_exists m l X F hfind
      obtain ⟨c, hc⟩ := isChain_loaded m l m.ctxt_stack_p G hchain hmem
      rw [throw_loc_chain mem m l X file func line F G c hchain hfind hG hc]
      rw [find_target_eq m X F l hfind] at hG
      simp only [throw_single_pass, single_pass_chain m X l _ _ none hchain hlen, hfind, hG, hc]

end single_pass

section cleanup_thrown

/-- The body `f; throw(X); rest` of a block with a finally clause and no catch
clause for `X`, on a stack some frame of which registers `X`: control is
transferred to the block itself. -/
theorem throw_in_body_cleanup (mem : Nat → monos_except) (m : Machine) (l : List CtxtPtr)
    (F : CtxtPtr) (cs : List (Nat × Code)) (X : Nat) (f : List String → List String)
    (rest : Code) (file func : String) (line : Nat)
    (hchain : isChain m m.ctxt_stack_p l = true)
    (hF : l.find? (regAt m X) = some F)
    (hnot : X ∉ cs.map Prod.fst) :
    (seq (user f) (seq (monos_throw mem X file func line) rest))
        (entered m (cs.map Prod.fst) true)
      = .jump (block_ctxt m) ((inside m (thrown_into (declared (cs.map Prod.fst) true
          (parent_link m)) X (some file) (some func) line)).map_out f) := by
  have hFl : F ∈ l := List.mem_of_find?_eq_some hF
  have hpl : parent_link m = m.ctxt_stack_p := parent_link_of_chain m l F hchain hFl
  have hloada : ((entered m (cs.map Prod.fst) true).map_out f).load (block_ctxt m)
      = some (declared (cs.map Prod.fst) true (parent_link m)) := by
    rw [load_map_out, entered, load_inside]
  have hagree : ∀ q ∈ l,
      ((entered m (cs.map Prod.fst) true).map_out f).load q = m.load q := by
    intro q hq
    rw [load_map_out, entered]
    exact inside_agree m _ l _ hchain q hq
  have hchain2 : isChain ((entered m (cs.map Prod.fst) true).map_out f)
      ((entered m (cs.map Prod.fst) true).map_out f).ctxt_stack_p (block_ctxt m :: l)
      = true := by
    have h1 := isChain_inside m (declared (cs.map Prod.fst) true (parent_link m)) l
      (by simpa [declared, hpl] using hchain)
    exact isChain_agree _ _ _ _ (fun q _ => load_map_out _ _ q) h1
  have hrega : regAt ((entered m (cs.map Prod.fst) true).map_out f) X (block_ctxt m)
      = false := by
    simp only [regAt, hloada]
    rw [Bool.eq_false_iff]
    intro h
    exact hnot ((registers_declared _ _ _ X).mp h)
  have hF2 : (block_ctxt m :: l).find? (regAt ((entered m (cs.map Prod.fst) true).map_out f)
      X) = some F := by
    rw [List.find?_cons, hrega]
    simp only
    rw [find?_agree _ (regAt m X) l (fun q hq => regAt_agree m _ X q (hagree q hq))]
    exact hF
  have hfina : finAt ((entered m (cs.map Prod.fst) true).map_out f) (block_ctxt m) = true := by
    simp only [finAt, hloada, declared]
  have hG : (block_ctxt m :: l).find? (fun q => q == F
      || finAt ((entered m (cs.map Prod.fst) true).map_out f) q) = some (block_ctxt m) := by
    rw [List.find?_cons, hfina]
    simp
  have hthrow := throw_loc_chain_into mem _ (block_ctxt m :: l) X (some file) (some func) line
    F (block_ctxt m) _ hchain2 hF2 hG hloada
  simp only [seq, user, monos_throw, hthrow]
  congr 1
  rw [map_out_set_stack_p, map_out_store, entered, inside_set_stack_p_self, store_inside]

/-- The block `try { f; throw(X); rest } catch ... finally C end_try` with no
catch clause for `X`, entered below a frame that registers `X`, whose cleanup
`C` does not fall through: `X` is thrown into the block, and the block ends
as `C` does, run in the state where the context of the block has been
popped. -/
theorem block_thrown_cleanup_leaves (mem : Nat → monos_except) (fuel : Nat) (m : Machine)
    (l : List CtxtPtr) (F : CtxtPtr) (cs : List (Nat × Code)) (C : Code) (X : Nat)
    (f : List String → List String) (rest : Code) (file func : String) (line : Nat)
    (o : Outcome)
    (hchain : isChain m m.ctxt_stack_p l = true)
    (hF : l.find? (regAt m X) = some F)
    (hnot : X ∉ cs.map Prod.fst)
    (hlen : cs.length + 1 ≤ MONOS_MAX_EXCEPT)
    (hC : C ((left m (thrown_into (declared (cs.map Prod.fst) true (parent_link m)) X
      (some file) (some func) line)).map_out f) = o)
    (hn : ∀ m2, o ≠ .normal m2) (hj : ∀ m2, o ≠ .jump (block_ctxt m) m2) :
    monos_block mem (fuel + 3) (seq (user f) (seq (monos_throw mem X file func line) rest))
        cs (some C) m = o := by
  have hinit := init_pass mem (seq (user f) (seq (monos_throw mem X file func line) rest)) cs
    (some C) m (by simpa using hlen)
  simp only [Option.isSome_some] at hinit
  have hbody := throw_in_body_cleanup mem m l F cs X f rest file func line hchain hF hnot
  have hload : ((inside m (thrown_into (declared (cs.map Prod.fst) true (parent_link m)) X
      (some file) (some func) line)).map_out f).load (block_ctxt m)
      = some (thrown_into (declared (cs.map Prod.fst) true (parent_link m)) X (some file)
          (some func) line) := by
    rw [load_map_out, load_inside]
  have hpass : loop_body mem (seq (user f) (seq (monos_throw mem X file func line) rest)) cs
      (some C) (block_ctxt m) EXCEPT_THROWN
      ((inside m (thrown_into (declared (cs.map Prod.fst) true (parent_link m)) X
        (some file) (some func) line)).map_out f) = .leave o := by
    rw [thrown_pass_is_finally_part mem _ cs C _ _ _ X hload rfl hnot]
    exact finally_part_leaves mem C _ _ _ _ o (by decide) hload (by rw [← hC]; rfl) hn
  rw [monos_block_eq,
    block_loop_cont mem _ cs _ _ (fuel + 2) _ _ _ _ (by decide) hinit,
    block_loop_reenter mem _ cs _ _ (fuel + 1) _ _ _ (by decide)
      (body_pass_leave mem _ _ _ _ _ _ hbody (by simp)),
    block_loop_leave mem _ cs _ _ fuel _ _ o (by decide) hpass hj]

/-- The pass in state `EXCEPT_THROWN` of a block with a handler `h` for the
identity thrown into it and a cleanup `C` that does not fall through: `h`
runs, then `C`, both with the context popped, and the outcome of `C` leaves
the loop body. -/
theorem thrown_pass_handled_cleanup_leaves (mem : Nat → monos_except) (body : Code)
    (pre post : List (Nat × Code)) (X : Nat) (h : List String → List String) (C : Code)
    (a : CtxtPtr) (m : Machine) (c : monos_except_context) (o : Outcome)
    (hnodup : ((pre ++ (X, user h) :: post).map Prod.fst).Nodup)
    (hload : m.load a = some c) (hX : c.except_p = some X)
    (hC : C ((m.set_stack_p c.link_p).map_out h) = o) (hn : ∀ m2, o ≠ .normal m2) :
    loop_body mem body (pre ++ (X, user h) :: post) (some C) a EXCEPT_THROWN m = .leave o := by
  simp only [List.map_append, List.map_cons, List.nodup_append, List.nodup_cons,
    List.disjoint_cons_right] at hnodup
  have hpre : X ∉ pre.map Prod.fst := hnodup.2.2.1
  have hpost : X ∉ post.map Prod.fst := hnodup.2.1.1
  have htry : try_part mem body (closer_of (pre ++ (X, user h) :: post) (some C)) a
      EXCEPT_THROWN m = .cont EXCEPT_THROWN m := by
    simp [try_part]
  rw [loop_body, htry]
  simp only [Step.bind]
  rw [catch_parts_handle mem (some C) a X h post c hX hpost pre EXCEPT_THROWN m
    (by decide) hload hpre]
  simp only [finally_opt]
  rw [finally_part_leaves mem C a _ _ c o (by split <;> decide)
    (by rw [load_map_out, load_set_stack_p]; exact hload) (by rw [← hC]; rfl) hn]

/-- The block `try { f; throw(X); rest } catch ... catch(X) { h } ... finally C end_try`
with distinct catch clauses, whose cleanup `C` does not fall through: the
block ends as `C` does, run after `h` in the state where the context of the
block has been popped. -/
theorem block_handled_cleanup_leaves (mem : Nat → monos_except) (fuel : Nat) (m : Machine)
    (pre post : List (Nat × Code)) (X : Nat) (h f : List String → List String) (C : Code)
    (rest : Code) (file func : String) (line : Nat) (o : Outcome)
    (hnodup : ((pre ++ (X, user h) :: post).map Prod.fst).Nodup)
    (hlen : (pre ++ (X, user h) :: post).length + 1 ≤ MONOS_MAX_EXCEPT)
    (hC : C ((left m (thrown_into (declared ((pre ++ (X, user h) :: post).map Prod.fst) true
      (parent_link m)) X (some file) (some func) line)).map_out (h ∘ f)) = o)
    (hn : ∀ m2, o ≠ .normal m2) (hj : ∀ m2, o ≠ .jump (block_ctxt m) m2) :
    monos_block mem (fuel + 3) (seq (user f) (seq (monos_throw mem X file func line) rest))
        (pre ++ (X, user h) :: post) (some C) m = o := by
  have hinit := init_pass mem (seq (user f) (seq (monos_throw mem X file func line) rest))
    (pre ++ (X, user h) :: post) (some C) m (by simpa using hlen)
  simp only [Option.isSome_some] at hinit
  have hbody := throw_in_body mem m ((pre ++ (X, user h) :: post).map Prod.fst) true f X file
    func line rest (by simp)
  rw [monos_block_eq,
    block_loop_cont mem _ _ _ _ (fuel + 2) _ _ _ _ (by decide) hinit,
    block_loop_reenter mem _ _ _ _ (fuel + 1) _ _ _ (by decide)
      (body_pass_leave mem _ _ _ _ _ _ hbody (by simp)),
    block_loop_leave mem _ _ _ _ fuel _ _ o (by decide)
      (thrown_pass_handled_cleanup_leaves mem _ pre post X h C _
        ((inside m (thrown_into (declared ((pre ++ (X, user h) :: post).map Prod.fst) true
          (parent_link m)) X (some file) (some func) line)).map_out f)
        (thrown_into (declared ((pre ++ (X, user h) :: post).map Prod.fst) true
          (parent_link m)) X (some file) (some func) line) o hnodup
        (by rw [load_map_out, load_inside]) rfl (by rw [← hC]; rfl) hn) hj]

end cleanup_thrown

section body_once

/-- A block whose body ends by a transfer of control to the block itself: the
loop is entered again in state `EXCEPT_THROWN`. -/
theorem block_body_jump (mem : Nat → monos_except) (fuel : Nat) (body : Code)
    (cs : List (Nat × Code)) (fin : Option Code) (m m2 : Machine)
    (hlen : cs.length + (if fin.isSome then 1 else 0) ≤ MONOS_MAX_EXCEPT)
    (hbody : body (entered m (cs.map Prod.fst) fin.isSome) = .jump (block_ctxt m) m2) :
    monos_block mem (fuel + 2) body cs fin m
      = block_loop mem body cs fin (block_ctxt m) fuel EXCEPT_THROWN m2 := by
  rw [monos_block_eq,
    block_loop_cont mem body cs fin _ (fuel + 1) _ _ _ _ (by decide)
      (init_pass mem body cs fin m hlen),
    block_loop_reenter mem body cs fin _ fuel _ _ m2 (by decide)
      (body_pass_leave mem body cs fin _ _ _ hbody (by simp))]

/-- The pass in state `EXCEPT_BODY` when the body falls through: what follows
the body in the loop body runs in the state the body has left. -/
theorem body_pass_after (mem : Nat → monos_except) (body : Code) (cs : List (Nat × Code))
    (fin : Option Code) (a : CtxtPtr) (m m2 : Machine) (hbody : body m = .normal m2) :
    loop_body mem body cs fin a EXCEPT_BODY m
      = (((close (closer_of cs fin) mem a EXCEPT_BODY m2).bind (catch_parts mem cs fin a)).bind
          (finally_opt mem fin a)).bind loop_end := by
  simp only [loop_body, try_part, if_true, Step.run, hbody, Step.bind]

/-- A block whose body falls through: the block goes on from the state the body
has left, with what follows the body in the loop body. -/
theorem block_body_normal (mem : Nat → monos_except) (fuel : Nat) (body : Code)
    (cs : List (Nat × Code)) (fin : Option Code) (m m2 : Machine)
    (hlen : cs.length + (if fin.isSome then 1 else 0) ≤ MONOS_MAX_EXCEPT)
    (hbody : body (entered m (cs.map Prod.fst) fin.isSome) = .normal m2) :
    monos_block mem (fuel + 2) body cs fin m
      = match (((close (closer_of cs fin) mem (block_ctxt m) EXCEPT_BODY m2).bind
            (catch_parts mem cs fin (block_ctxt m))).bind
            (finally_opt mem fin (block_ctxt m))).bind loop_end with
        | .cont st m3 => block_loop mem body cs fin (block_ctxt m) fuel st m3
        | .leave (.jump t m3) =>
            if t = block_ctxt m then
              block_loop mem body cs fin (block_ctxt m) fuel EXCEPT_THROWN m3
            else .jump t m3
        | .leave o => o := by
  rw [monos_block_eq,
    block_loop_cont mem body cs fin _ (fuel + 1) _ _ _ _ (by decide)
      (init_pass mem body cs fin m hlen),
    block_loop, if_neg (by decide),
    body_pass_after mem body cs fin _ _ m2 hbody]

end body_once

/-! ## The claims -/

section claims

/-- C1: for the block `try { f; throw(X); rest } catch(e1) ... catch(X) { h } ...
catch(en) [finally { g }] end_try` whose catch clauses have pairwise distinct
identities (and are within the limit of 32), entered in any state `m` and
given enough fuel: the block ends normally (it reached `EXCEPT_END`, so
execution goes on after `end_try`); what was recorded is `f`, then `h` once,
then `g` if there is a finally clause, whatever code `rest` and the other
handlers are, so `rest` and the other handlers did not run; the stack top is
the block's parent and the block's context holds `X` and the location of the
throw. -/
theorem handler_runs_once (mem : Nat → monos_except) (fuel : Nat) (m : Machine)
    (pre post : List (Nat × Code)) (X : Nat) (h f : List String → List String)
    (fin : Option (List String → List String)) (rest : Code) (file func : String) (line : Nat)
    (hdistinct : ((pre ++ (X, user h) :: post).map Prod.fst).Nodup)
    (hlen : (pre ++ (X, user h) :: post).length + (if fin.isSome then 1 else 0)
      ≤ MONOS_MAX_EXCEPT) :
    monos_block mem (fuel + 4) (seq (user f) (seq (monos_throw mem X file func line) rest))
        (pre ++ (X, user h) :: post) (fin.map user) m
      = .normal
          { m with
            autos := m.autos ++ [thrown_into (declared ((pre ++ (X, user h) :: post).map
              Prod.fst) fin.isSome (parent_link m)) X (some file) (some func) line],
            ctxt_stack_p := parent_link m,
            out := (fin.getD id) (h (f m.out)) } := by
  rw [block_handled_user mem fuel m pre post X h f fin rest file func line hdistinct hlen]
  rfl

/-- C1, at a concrete input: three catch clauses, the second one for the
identity thrown, and a finally clause, entered in the initial state. -/
theorem handler_runs_once_witness :
    (([((2 : Nat), record "h2")] ++ ((1 : Nat), user (fun o => o ++ ["h"]))
        :: [((3 : Nat), record "h3")]).map Prod.fst).Nodup
      ∧ ([((2 : Nat), record "h2")] ++ ((1 : Nat), user (fun o => o ++ ["h"]))
          :: [((3 : Nat), record "h3")]).length
          + (if (some (fun o : List String => o ++ ["g"])).isSome then 1 else 0)
          ≤ MONOS_MAX_EXCEPT
      ∧ (∃ m2, monos_block sample_mem (0 + 4)
            (seq (user (fun o => o ++ ["f"]))
              (seq (monos_throw sample_mem 1 "f.c" "main" 7) (record "rest")))
            ([(2, record "h2")] ++ (1, user (fun o => o ++ ["h"])) :: [(3, record "h3")])
            ((some (fun o : List String => o ++ ["g"])).map user) Machine.init = .normal m2
          ∧ m2.out = ["f", "h", "g"] ∧ m2.ctxt_stack_p = some .static0) :=
  ⟨by decide, by decide, _,
   handler_runs_once sample_mem 0 Machine.init [(2, record "h2")] [(3, record "h3")] 1
     (fun o => o ++ ["h"]) (fun o => o ++ ["f"]) (some (fun o => o ++ ["g"])) (record "rest")
     "f.c" "main" 7 (by decide) (by decide),
   rfl, rfl⟩

/-- C2: on a frame stack `l` (top first) whose nearest frame registering `X`
is `F`, `monos_except_throw_loc` takes as target the nearest frame `G` that is
`F` or has `has_finally` set; it transfers control to `G` (`jump G`) in a state
where `G` is the stack top, the stack is `G` followed by the frames that were
below it (the frames above `G` are no longer on it), `G` holds `X` and the
given file, func and line, and every other context object is as before. -/
theorem throw_selects_target (mem : Nat → monos_except) (m : Machine) (l : List CtxtPtr)
    (X : Nat) (file func : Option String) (line : Nat) (F : CtxtPtr)
    (hchain : isChain m m.ctxt_stack_p l = true)
    (hF : l.find? (regAt m X) = some F) :
    ∃ G c m2, l.find? (fun q => q == F || finAt m q) = some G ∧ m.load G = some c
      ∧ monos_except_throw_loc mem X file func line m = .jump G m2
      ∧ m2.ctxt_stack_p = some G
      ∧ isChain m2 m2.ctxt_stack_p (l.dropWhile (fun q => q != G)) = true
      ∧ m2.load G = some { c with except_p := some X, file := file, func := func, line := line }
      ∧ (∀ q, q ≠ G → m2.load q = m.load q)
      ∧ m2.out = m.out ∧ m2.stderr = m.stderr := by
  obtain ⟨G, hG, hmem⟩ := find_target_exists m l X F hF
  obtain ⟨c, hc⟩ := isChain_loaded m l m.ctxt_stack_p G hchain hmem
  have htop : ((m.set_stack_p (some G)).store G
      { c with except_p := some X, file := file, func := func, line := line }).ctxt_stack_p
      = some G := by simp
  refine ⟨G, c, _, hG, hc, throw_loc_chain mem m l X file func line F G c hchain hF hG hc,
    htop, ?_, ?_, ?_, ?_, ?_⟩
  · have hc2 : (m.set_stack_p (some G)).load G = some c := by simpa using hc
    rw [htop]
    refine isChain_congr m _ _ _ ?_ (isChain_dropWhile m G l m.ctxt_stack_p hchain hmem)
    intro q _
    by_cases hq : q = G
    · subst hq
      rw [load_store_same _ q c _ hc2, hc]; rfl
    · rw [load_store_other _ G q _ hq, load_set_stack_p]
  · exact load_store_same _ G c _ (by simpa using hc)
  · intro q hq
    rw [load_store_other _ G q _ hq, load_set_stack_p]
  · simp
  · simp

/-- C2, at a concrete input: identity 1 thrown on `sample_stack`; the handler
is the outermost block, the target is the block with the finally clause. -/
theorem throw_selects_target_witness :
    isChain sample_stack sample_stack.ctxt_stack_p [.auto 2, .auto 1, .auto 0, .static0] = true
      ∧ [CtxtPtr.auto 2, .auto 1, .auto 0, .static0].find? (regAt sample_stack 1)
          = some (.auto 0)
      ∧ ∃ G c m2, [CtxtPtr.auto 2, .auto 1, .auto 0, .static0].find?
              (fun q => q == CtxtPtr.auto 0 || finAt sample_stack q) = some G
          ∧ sample_stack.load G = some c
          ∧ monos_except_throw_loc sample_mem 1 (some "f.c") (some "main") 7 sample_stack
              = .jump G m2
          ∧ m2.ctxt_stack_p = some G
          ∧ isChain m2 m2.ctxt_stack_p
              ([CtxtPtr.auto 2, .auto 1, .auto 0, .static0].dropWhile (fun q => q != G)) = true
          ∧ m2.load G = some { c with except_p := some 1, file := some "f.c",
                                      func := some "main", line := 7 }
          ∧ (∀ q, q ≠ G → m2.load q = sample_stack.load q)
          ∧ m2.out = sample_stack.out ∧ m2.stderr = sample_stack.stderr :=
  ⟨by decide, by decide,
   throw_selects_target sample_mem sample_stack [.auto 2, .auto 1, .auto 0, .static0] 1
     (some "f.c") (some "main") 7 (.auto 0) (by decide) (by decide)⟩

/-- C3: let `F` be the block `try { f; <nested>; rest } catch ... catch(X) { h }
... [finally { g }] end_try` (distinct identities), entered on a well-formed
stack `l`, and let `<nested>` be the statement `throw(X)` inside any number of
blocks `Ls`, none of which has a catch clause for `X`, so that `F` is the
nearest frame registering `X`.  Then `F` ends normally (control resumes after
it) with the stack top its parent, and what has been recorded is: the code
run on the way in, then the cleanup of each block of `Ls` that has one, from
the innermost outward, each once, then `h`, then `g` if any.  The handlers
and the rest of the body of the blocks of `Ls` are any code and do not
appear in the result: they did not run.  The context of `F` holds `X` with
the file, func and line of the first throw, which is what each re-throw after
a cleanup passed on; the frames below `F` are as before. -/
theorem unwinding_runs_cleanups (mem : Nat → monos_except) (fuel : Nat) (m : Machine)
    (l : List CtxtPtr) (pre post : List (Nat × Code)) (X : Nat)
    (h f : List String → List String) (fin : Option (List String → List String))
    (rest : Code) (file func : String) (line : Nat) (Ls : List Layer)
    (hchain : isChain m (parent_link m) l = true)
    (hdistinct : ((pre ++ (X, user h) :: post).map Prod.fst).Nodup)
    (hlen : (pre ++ (X, user h) :: post).length + (if fin.isSome then 1 else 0)
      ≤ MONOS_MAX_EXCEPT)
    (hLs : ∀ L ∈ Ls, X ∉ L.catches.map Prod.fst ∧
      L.catches.length + (if L.cleanup.isSome then 1 else 0) ≤ MONOS_MAX_EXCEPT) :
    ∃ m2, monos_block mem (fuel + 4)
          (seq (user f) (seq (nest mem (monos_throw mem X file func line) Ls) rest))
          (pre ++ (X, user h) :: post) (fin.map user) m = .normal m2
      ∧ m2.out = (fin.getD id) (h (nest_out Ls (f m.out)))
      ∧ m2.ctxt_stack_p = parent_link m
      ∧ m2.load (block_ctxt m)
          = some (thrown_into (declared ((pre ++ (X, user h) :: post).map Prod.fst) fin.isSome
              (parent_link m)) X (some file) (some func) line)
      ∧ (∀ q ∈ l, m2.load q = m.load q)
      ∧ m2.stderr = m.stderr :=
  nest_handled mem fuel m l pre post X h f fin rest file func line Ls hchain hdistinct hlen hLs

/-- C3, at a concrete input: identity 1 thrown inside `sample_layers`, inside
a block that catches 1, entered in the initial state. -/
theorem unwinding_runs_cleanups_witness :
    isChain Machine.init (parent_link Machine.init) [.static0] = true
      ∧ (([] ++ ((1 : Nat), user (fun o => o ++ ["h"])) :: []).map Prod.fst).Nodup
      ∧ ([] ++ ((1 : Nat), user (fun o => o ++ ["h"])) :: []).length
          + (if (none : Option (List String → List String)).isSome then 1 else 0)
          ≤ MONOS_MAX_EXCEPT
      ∧ (∀ L ∈ sample_layers, 1 ∉ L.catches.map Prod.fst ∧
          L.catches.length + (if L.cleanup.isSome then 1 else 0) ≤ MONOS_MAX_EXCEPT)
      ∧ (∃ m2, monos_block sample_mem (0 + 4)
            (seq (user (fun o => o ++ ["f"]))
              (seq (nest sample_mem (monos_throw sample_mem 1 "f.c" "main" 7) sample_layers)
                (record "rest")))
            ([] ++ (1, user (fun o => o ++ ["h"])) :: [])
            ((none : Option (List String → List String)).map user) Machine.init = .normal m2
          ∧ m2.out = ["f", "b1", "b2", "b3", "c3", "c2", "h"]
          ∧ m2.ctxt_stack_p = some .static0
          ∧ m2.load (block_ctxt Machine.init)
              = some (thrown_into (declared [1] false (some .static0)) 1 (some "f.c")
                  (some "main") 7)
          ∧ (∀ q ∈ [CtxtPtr.static0], m2.load q = Machine.init.load q)
          ∧ m2.stderr = Machine.init.stderr) :=
  ⟨by decide, by decide, by decide, by simp [sample_layers, MONOS_MAX_EXCEPT],
   unwinding_runs_cleanups sample_mem 0 Machine.init [.static0] [] [] 1
     (fun o => o ++ ["h"]) (fun o => o ++ ["f"]) none (record "rest") "f.c" "main" 7
     sample_layers (by decide) (by decide) (by decide)
     (by simp [sample_layers, MONOS_MAX_EXCEPT])⟩

/-- C4: for nested blocks that both have a catch clause for `X`, the outer one
`try { f1; <inner>; f3 } catch ... [finally { g1 }] end_try` (any handlers) and
the inner one `try { f2; throw(X); rest } catch ... catch(X) { h2 } ...
[finally { g2 }] end_try` (distinct identities), entered in any state: the
inner handler `h2` runs and no handler of the outer block does; after the inner
block the outer body goes on with `f3`, and the outer block ends on its normal
path: its context was never thrown into, and the stack top is its parent. -/
theorem nearest_enclosing_wins (mem : Nat → monos_except) (fuel1 fuel2 : Nat) (m : Machine)
    (cs1 : List (Nat × Code)) (fin1 : Option (List String → List String))
    (pre post : List (Nat × Code)) (X : Nat) (h2 f1 f2 f3 : List String → List String)
    (fin2 : Option (List String → List String)) (rest : Code) (file func : String)
    (line : Nat)
    (hX1 : X ∈ cs1.map Prod.fst)
    (hlen1 : cs1.length + (if fin1.isSome then 1 else 0) ≤ MONOS_MAX_EXCEPT)
    (hdistinct : ((pre ++ (X, user h2) :: post).map Prod.fst).Nodup)
    (hlen2 : (pre ++ (X, user h2) :: post).length + (if fin2.isSome then 1 else 0)
      ≤ MONOS_MAX_EXCEPT) :
    monos_block mem (fuel1 + 3)
        (seq (user f1)
          (seq (monos_block mem (fuel2 + 4)
                 (seq (user f2) (seq (monos_throw mem X file func line) rest))
                 (pre ++ (X, user h2) :: post) (fin2.map user))
               (user f3)))
        cs1 (fin1.map user) m
      = .normal
          { m with
            autos := m.autos ++
              [declared (cs1.map Prod.fst) fin1.isSome (parent_link m),
               thrown_into (declared ((pre ++ (X, user h2) :: post).map Prod.fst) fin2.isSome
                 (some (block_ctxt m))) X (some file) (some func) line],
            ctxt_stack_p := parent_link m,
            out := (fin1.getD id) (f3 ((fin2.getD id) (h2 (f2 (f1 m.out))))) } := by
  have hne : cs1 ≠ [] := by
    intro e
    rw [e] at hX1
    cases hX1
  have hinner := block_handled_user mem fuel2
    ((entered m (cs1.map Prod.fst) fin1.isSome).map_out f1) pre post X h2 f2 fin2 rest file func
    line hdistinct hlen2
  have hbody : (seq (user f1)
      (seq (monos_block mem (fuel2 + 4)
             (seq (user f2) (seq (monos_throw mem X file func line) rest))
             (pre ++ (X, user h2) :: post) (fin2.map user))
           (user f3))) (entered m (cs1.map Prod.fst) fin1.isSome)
      = .normal (((left ((entered m (cs1.map Prod.fst) fin1.isSome).map_out f1)
          (thrown_into (declared ((pre ++ (X, user h2) :: post).map Prod.fst) fin2.isSome
            (parent_link ((entered m (cs1.map Prod.fst) fin1.isSome).map_out f1))) X
            (some file) (some func) line)).map_out (fin2.getD id ∘ h2 ∘ f2)).map_out f3) := by
    simp only [seq, user, hinner]
  have hload1 : ((entered m (cs1.map Prod.fst) fin1.isSome).map_out f1).load (block_ctxt m)
      = some (declared (cs1.map Prod.fst) fin1.isSome (parent_link m)) := by
    rw [load_map_out, entered, load_inside]
  rw [block_normal mem fuel1 _ cs1 fin1 m _ hlen1 (Or.inl hne) hbody
    (by rw [load_map_out, load_map_out, load_left_old _ _ _ _ hload1, hload1])]
  simp [left, entered, inside, block_ctxt, Machine.map_out, Machine.set_stack_p, parent_link]

/-- C4, at a concrete input: both blocks catch identity 1; entered in the
initial state. -/
theorem nearest_enclosing_wins_witness :
    (1 : Nat) ∈ [((1 : Nat), record "outer")].map Prod.fst
      ∧ [((1 : Nat), record "outer")].length
          + (if (none : Option (List String → List String)).isSome then 1 else 0)
          ≤ MONOS_MAX_EXCEPT
      ∧ (([] ++ ((1 : Nat), user (fun o => o ++ ["inner"])) :: []).map Prod.fst).Nodup
      ∧ ([] ++ ((1 : Nat), user (fun o => o ++ ["inner"])) :: []).length
          + (if (none : Option (List String → List String)).isSome then 1 else 0)
          ≤ MONOS_MAX_EXCEPT
      ∧ (∃ m2, monos_block sample_mem (0 + 3)
            (seq (user (fun o => o ++ ["f1"]))
              (seq (monos_block sample_mem (0 + 4)
                     (seq (user (fun o => o ++ ["f2"]))
                       (seq (monos_throw sample_mem 1 "f.c" "main" 7) (record "rest")))
                     ([] ++ (1, user (fun o => o ++ ["inner"])) :: [])
                     ((none : Option (List String → List String)).map user))
                   (user (fun o => o ++ ["f3"]))))
            [(1, record "outer")] ((none : Option (List String → List String)).map user)
            Machine.init = .normal m2
          ∧ m2.out = ["f1", "f2", "inner", "f3"] ∧ m2.ctxt_stack_p = some .static0) :=
  ⟨by decide, by decide, by decide, by decide, _,
   nearest_enclosing_wins sample_mem 0 0 Machine.init [(1, record "outer")] none [] [] 1
     (fun o => o ++ ["inner"]) (fun o => o ++ ["f1"]) (fun o => o ++ ["f2"])
     (fun o => o ++ ["f3"]) none (record "rest") "f.c" "main" 7 (by decide) (by decide)
     (by decide) (by decide),
   rfl, rfl⟩

/-- C5: a block with a finally clause `g` runs it exactly once on each of
three paths.  (1) `try { f } catch ... finally { g } end_try`, entered in any
state `m`: the body falls through, `g` is recorded once after `f`, and the
block ends normally.
(2) `try { f; throw(X); rest } catch ... finally { g } end_try`, entered in
any state `m`, in which the clauses for `X` have the handlers `ks` (one
handler, or more when `X` is declared more than once): the handlers `ks`,
then `g` once, are recorded.
(3) `try { f; throw(X); rest } catch ... finally { g } end_try` with no catch
clause for `X`, entered in a state `m3` on a stack `l` whose nearest frame
registering `X` is `F`: the block ends by the transfer of control to an
enclosing frame `T` (the nearest that is `F` or has a finally clause), and
`g` has been recorded once by then; and when the block stands in the body of
a block that catches `X` with the handler `h`, `g` is recorded before `h`. -/
theorem cleanup_runs_once (mem : Nat → monos_except) (fuel fuel2 : Nat) (m m3 : Machine)
    (l : List CtxtPtr) (F : CtxtPtr) (cs cs2 cs3 preF postF : List (Nat × Code)) (X : Nat)
    (ks : List (List String → List String))
    (f g h f0 : List String → List String) (finF : Option (List String → List String))
    (rest restF : Code) (file func : String) (line : Nat)
    (hlen : cs.length + 1 ≤ MONOS_MAX_EXCEPT)
    (hks : (cs2.filter (fun p => p.1 == X)).map Prod.snd = ks.map user)
    (hne : ks ≠ [])
    (hlen2 : cs2.length + 1 ≤ MONOS_MAX_EXCEPT)
    (hchain : isChain m3 m3.ctxt_stack_p l = true)
    (hF : l.find? (regAt m3 X) = some F)
    (hnot : X ∉ cs3.map Prod.fst)
    (hlen3 : cs3.length + 1 ≤ MONOS_MAX_EXCEPT)
    (hdistinctF : ((preF ++ (X, user h) :: postF).map Prod.fst).Nodup)
    (hlenF : (preF ++ (X, user h) :: postF).length + (if finF.isSome then 1 else 0)
      ≤ MONOS_MAX_EXCEPT) :
    monos_block mem (fuel + 3) (user f) cs (some (user g)) m
        = .normal
            { m with
              autos := m.autos ++ [declared (cs.map Prod.fst) true (parent_link m)],
              ctxt_stack_p := parent_link m,
              out := g (f m.out) }
      ∧ monos_block mem (fuel + 4) (seq (user f) (seq (monos_throw mem X file func line) rest))
          cs2 (some (user g)) m
        = .normal
            { m with
              autos := m.autos ++ [thrown_into (declared (cs2.map Prod.fst) true
                (parent_link m)) X (some file) (some func) line],
              ctxt_stack_p := parent_link m,
              out := g (ks.foldl (fun o k => k o) (f m.out)) }
      ∧ (∃ T cT m2, l.find? (fun q => q == F || finAt m3 q) = some T ∧ m3.load T = some cT
          ∧ monos_block mem (fuel + 3)
              (seq (user f) (seq (monos_throw mem X file func line) rest)) cs3 (some (user g))
              m3
            = .jump T m2
          ∧ m2.out = g (f m3.out)
          ∧ m2.ctxt_stack_p = some T
          ∧ m2.load T = some (thrown_into cT X (some file) (some func) line))
      ∧ (∃ m2, monos_block mem (fuel2 + 4)
            (seq (user f0)
              (seq (monos_block mem (fuel + 3)
                     (seq (user f) (seq (monos_throw mem X file func line) rest)) cs3
                     (some (user g)))
                   restF))
            (preF ++ (X, user h) :: postF) (finF.map user) m3 = .normal m2
          ∧ m2.out = (finF.getD id) (h (g (f (f0 m3.out))))
          ∧ m2.ctxt_stack_p = parent_link m3) := by
  have hFl : F ∈ l := List.mem_of_find?_eq_some hF
  have hpl : parent_link m3 = m3.ctxt_stack_p := parent_link_of_chain m3 l F hchain hFl
  refine ⟨?_, ?_, ?_, ?_⟩
  · have h1 := block_normal_user mem fuel m cs (some g) f (by simpa using hlen) (Or.inr rfl)
    simp only [Option.map_some', Option.isSome_some] at h1
    rw [h1]
    rfl
  · have h2 := block_handled_all_user mem fuel m cs2 ks X f (some g) rest file func line
      hks hne (by simpa using hlen2)
    simp only [Option.map_some', Option.isSome_some] at h2
    rw [h2]
    rfl
  · obtain ⟨T, cT, m2, hT, hcT, hnest, htop, hload, _, hout, _⟩ :=
      nest_throw mem X (some file) (some func) line
        [{ before := f, catches := cs3, cleanup := some g, rest := rest, fuel := fuel }] m3 l F
        hchain hF (by
          intro L hL
          simp only [List.mem_singleton] at hL
          subst hL
          exact ⟨hnot, by simpa using hlen3⟩)
    exact ⟨T, cT, m2, hT, hcT, hnest, hout, htop, hload⟩
  · obtain ⟨m2, hblock, hout, htop, _, _, _⟩ :=
      nest_handled mem fuel2 m3 l preF postF X h f0 finF restF file func line
        [{ before := f, catches := cs3, cleanup := some g, rest := rest, fuel := fuel }]
        (by rw [hpl]; exact hchain) hdistinctF hlenF (by
          intro L hL
          simp only [List.mem_singleton] at hL
          subst hL
          exact ⟨hnot, by simpa using hlen3⟩)
    exact ⟨m2, hblock, hout, htop⟩

/-- C5, at a concrete input: paths (1) and (2) for blocks entered in the initial
state, with nothing around them; path (3) for a block entered on
`sample_stack`, identity 1 being registered by its outermost frame only. -/
theorem cleanup_runs_once_witness :
    [((2 : Nat), record "h2")].length + 1 ≤ MONOS_MAX_EXCEPT
      ∧ ([((1 : Nat), user (fun o => o ++ ["h"]))].filter (fun p => p.1 == 1)).map Prod.snd
          = [fun o : List String => o ++ ["h"]].map user
      ∧ [fun o : List String => o ++ ["h"]] ≠ []
      ∧ [((1 : Nat), user (fun o => o ++ ["h"]))].length + 1 ≤ MONOS_MAX_EXCEPT
      ∧ isChain sample_stack sample_stack.ctxt_stack_p [.auto 2, .auto 1, .auto 0, .static0]
          = true
      ∧ [CtxtPtr.auto 2, .auto 1, .auto 0, .static0].find? (regAt sample_stack 1)
          = some (.auto 0)
      ∧ (1 : Nat) ∉ ([] : List (Nat × Code)).map Prod.fst
      ∧ ([] : List (Nat × Code)).length + 1 ≤ MONOS_MAX_EXCEPT
      ∧ (∃ m2, monos_block sample_mem (0 + 3) (user (fun o => o ++ ["f"]))
            [(2, record "h2")] (some (user (fun o => o ++ ["g"]))) Machine.init = .normal m2
          ∧ m2.out = ["f", "g"] ∧ m2.ctxt_stack_p = some .static0)
      ∧ (∃ m2, monos_block sample_mem (0 + 4)
            (seq (user (fun o => o ++ ["f"]))
              (seq (monos_throw sample_mem 1 "f.c" "main" 7) (record "rest")))
            [(1, user (fun o => o ++ ["h"]))] (some (user (fun o => o ++ ["g"])))
            Machine.init = .normal m2
          ∧ m2.out = ["f", "h", "g"] ∧ m2.ctxt_stack_p = some .static0)
      ∧ (∃ m2, monos_block sample_mem (0 + 4)
            (seq (user (fun o => o ++ ["f0"]))
              (seq (monos_block sample_mem (0 + 3)
                     (seq (user (fun o => o ++ ["f"]))
                       (seq (monos_throw sample_mem 1 "f.c" "main" 7) (record "rest")))
                     [] (some (user (fun o => o ++ ["g"]))))
                   (record "restF")))
            ([] ++ (1, user (fun o => o ++ ["h"])) :: [])
            ((none : Option (List String → List String)).map user) sample_stack = .normal m2
          ∧ m2.out = ["f0", "f", "g", "h"]
          ∧ m2.ctxt_stack_p = some (.auto 2)) :=
  have key := cleanup_runs_once sample_mem 0 0 Machine.init sample_stack
    [.auto 2, .auto 1, .auto 0, .static0] (.auto 0) [(2, record "h2")]
    [(1, user (fun o => o ++ ["h"]))] [] [] [] 1 [fun o => o ++ ["h"]]
    (fun o => o ++ ["f"]) (fun o => o ++ ["g"])
    (fun o => o ++ ["h"]) (fun o => o ++ ["f0"]) none (record "rest") (record "restF")
    "f.c" "main" 7 (by decide) rfl (List.cons_ne_nil _ _) (by decide) (by decide)
    (by decide) (by decide) (by decide) (by decide) (by decide)
  ⟨by decide, rfl, List.cons_ne_nil _ _, by decide, by decide, by decide, by decide, by decide,
   ⟨_, key.1, rfl, rfl⟩, ⟨_, key.2.1, rfl, rfl⟩, key.2.2.2⟩

/-- C6: on a frame stack none of whose frames registers `X` (the empty stack
included), `monos_except_throw_loc` ends in `abort`: there is no transfer to a
frame, and the process state is the one before the call (same stack top, same
context objects, same user records) but for the text appended to `stderr`.
When `X` has a message `s`, that text is the location prefix, then
"Uncaught exception", then the message between backquotes and a newline; the
prefix is `file:func:line: ` when `file` and `func` are non-null and
`line > 0`, and empty otherwise. -/
theorem throw_unregistered_aborts (mem : Nat → monos_except) (m : Machine)
    (l : List CtxtPtr) (X : Nat) (file func : Option String) (line : Nat) (s : String)
    (hchain : isChain m m.ctxt_stack_p l = true)
    (hnone : ∀ q ∈ l, regAt m X q = false)
    (hmsg : (mem X).message = some s) :
    monos_except_throw_loc mem X file func line m
        = .aborted { m with stderr := m.stderr ++ location_text file func line
                                        ++ "Uncaught exception" ++ " `" ++ s ++ "`\n" }
      ∧ (∀ f g, file = some f → func = some g → 0 < line →
          location_text file func line = f ++ ":" ++ g ++ ":" ++ Nat.repr line ++ ": ")
      ∧ (file = none ∨ func = none ∨ line = 0 → location_text file func line = "") := by
  refine ⟨?_, ?_, ?_⟩
  · rw [throw_loc_unhandled mem m l X file func line hchain hnone]
    simp only [except_text, hmsg, Machine.print, String.append_assoc]
  · intro f g hf hg hl
    subst hf; subst hg
    simp [location_text, hl]
  · intro h
    rcases h with h | h | h
    · subst h; simp [location_text]
    · subst h; cases file <;> simp [location_text]
    · subst h; cases file <;> cases func <;> simp [location_text]

/-- C6, at a concrete input: identity 3 thrown on `sample_stack`, whose frames
register 1 and 2 only. -/
theorem throw_unregistered_aborts_witness :
    isChain sample_stack sample_stack.ctxt_stack_p [.auto 2, .auto 1, .auto 0, .static0] = true
      ∧ (∀ q ∈ [CtxtPtr.auto 2, .auto 1, .auto 0, .static0], regAt sample_stack 3 q = false)
      ∧ (sample_mem 3).message = some "boom"
      ∧ monos_except_throw_loc sample_mem 3 (some "f.c") (some "main") 7 sample_stack
          = .aborted { sample_stack with
              stderr := sample_stack.stderr ++ location_text (some "f.c") (some "main") 7
                          ++ "Uncaught exception" ++ " `" ++ "boom" ++ "`\n" } :=
  ⟨by decide, by decide, rfl,
   (throw_unregistered_aborts sample_mem sample_stack [.auto 2, .auto 1, .auto 0, .static0] 3
      (some "f.c") (some "main") 7 "boom" (by decide) (by decide) rfl).1⟩

/-- C7: the block `try { throw(X) } finally { record("cleanup") } end_try`
entered in the initial state, `X` being registered nowhere: the process
aborts inside the throw, with the diagnostic written and nothing recorded;
the cleanup has not run. -/
theorem finally_skipped_when_uncaught :
    monos_block sample_mem 4 (monos_throw sample_mem 1 "f.c" "main" 7) []
        (some (record "cleanup")) Machine.init
      = .aborted
          { ctxt_0 := ctxt_0_init,
            autos := [declared [] true (some .static0)],
            ctxt_stack_p := some (.auto 0),
            stderr := "f.c:main:7: Uncaught exception `boom`\n",
            out := [] } := by
  decide

/-- C8: a block whose body, handlers and cleanup are any code that leaves the
stack as it found it (`leaves_stack`) has popped its context on each local
exit path (`popped`: the stack top is the parent link of the context, the
stack is the one the block was entered on, and the context is not on it).
(1) A block with a catch or a finally clause, entered in any state `m` with
a well-formed stack `l` (the initial state included), whose body falls
through, ends normally in such a state.  (2) So does a block whose body
throws `X`, for which it has a catch clause, once its handlers for `X` and
its cleanup have completed.  (3) A block with a finally clause and no catch
clause for `X`, entered in a state `m3` below a frame that registers `X`,
throws `X` again in such a state once its cleanup has completed. -/
theorem frame_popped_on_exit (mem : Nat → monos_except) (fuel : Nat) (m m3 : Machine)
    (l l3 : List CtxtPtr) (F : CtxtPtr) (body before rest cleanup : Code)
    (cs cs2 cs3 : List (Nat × Code)) (fin fin2 : Option Code) (X : Nat)
    (file func : String) (line : Nat)
    (hwf : isChain m (parent_link m) l = true)
    (hbody : leaves_stack body) (hbefore : leaves_stack before)
    (hcleanup : leaves_stack cleanup)
    (hfin : ∀ G, fin = some G → leaves_stack G)
    (hfin2 : ∀ G, fin2 = some G → leaves_stack G)
    (hhandlers : ∀ p ∈ cs2, p.1 = X → leaves_stack p.2)
    (hlen : cs.length + (if fin.isSome then 1 else 0) ≤ MONOS_MAX_EXCEPT)
    (hsome : cs ≠ [] ∨ fin.isSome = true)
    (hmem2 : X ∈ cs2.map Prod.fst)
    (hlen2 : cs2.length + (if fin2.isSome then 1 else 0) ≤ MONOS_MAX_EXCEPT)
    (hchain3 : isChain m3 m3.ctxt_stack_p l3 = true)
    (hF : l3.find? (regAt m3 X) = some F)
    (hnot : X ∉ cs3.map Prod.fst)
    (hlen3 : cs3.length + 1 ≤ MONOS_MAX_EXCEPT) :
    (∃ m2, monos_block mem (fuel + 3) body cs fin m = .normal m2 ∧ popped m l m2)
      ∧ (∃ m2, monos_block mem (fuel + 4)
            (seq before (seq (monos_throw mem X file func line) rest)) cs2 fin2 m = .normal m2
          ∧ popped m l m2)
      ∧ (∃ m2, monos_block mem (fuel + 3)
            (seq before (seq (monos_throw mem X file func line) rest)) cs3 (some cleanup) m3
            = monos_except_throw_loc mem X (some file) (some func) line m2
          ∧ popped m3 l3 m2) :=
  ⟨block_normal_code mem fuel m l body cs fin hwf hbody hfin hlen hsome,
    block_handled_code mem fuel m l before rest cs2 X fin2 file func line hwf hbefore hmem2
      hhandlers hfin2 hlen2,
    block_rethrow_code mem fuel m3 l3 F before rest cleanup cs3 X file func line
      hchain3 hF hbefore hcleanup hnot hlen3⟩

/-- C8, at a concrete input: paths (1) and (2) for blocks entered in the initial
state, with nothing around them, the body of the first block being itself a
block, `try { record("inner") } catch(9) { ... } end_try`; path (3) for a
block entered on `sample_stack`, identity 1 being registered by its
outermost frame. -/
theorem frame_popped_on_exit_witness :
    isChain Machine.init (parent_link Machine.init) [.static0] = true
      ∧ leaves_stack (monos_block sample_mem (0 + 3) (user (fun o => o ++ ["inner"]))
          [(9, record "h9")] ((none : Option (List String → List String)).map user))
      ∧ leaves_stack (record "f") ∧ leaves_stack (record "g")
      ∧ (∀ G, (none : Option Code) = some G → leaves_stack G)
      ∧ (∀ p ∈ [((1 : Nat), record "h")], p.1 = 1 → leaves_stack p.2)
      ∧ [((5 : Nat), record "h5")].length + (if (none : Option Code).isSome then 1 else 0)
          ≤ MONOS_MAX_EXCEPT
      ∧ ([((5 : Nat), record "h5")] ≠ [] ∨ (none : Option Code).isSome = true)
      ∧ (1 : Nat) ∈ [((1 : Nat), record "h")].map Prod.fst
      ∧ [((1 : Nat), record "h")].length + (if (none : Option Code).isSome then 1 else 0)
          ≤ MONOS_MAX_EXCEPT
      ∧ isChain sample_stack sample_stack.ctxt_stack_p [.auto 2, .auto 1, .auto 0, .static0]
          = true
      ∧ [CtxtPtr.auto 2, .auto 1, .auto 0, .static0].find? (regAt sample_stack 1)
          = some (.auto 0)
      ∧ (1 : Nat) ∉ ([] : List (Nat × Code)).map Prod.fst
      ∧ ([] : List (Nat × Code)).length + 1 ≤ MONOS_MAX_EXCEPT
      ∧ (∃ m2, monos_block sample_mem (0 + 3)
            (monos_block sample_mem (0 + 3) (user (fun o => o ++ ["inner"]))
              [(9, record "h9")] ((none : Option (List String → List String)).map user))
            [(5, record "h5")] none Machine.init = .normal m2
          ∧ popped Machine.init [.static0] m2)
      ∧ (∃ m2, monos_block sample_mem (0 + 4)
            (seq (record "f") (seq (monos_throw sample_mem 1 "f.c" "main" 7) (record "rest")))
            [(1, record "h")] none Machine.init = .normal m2
          ∧ popped Machine.init [.static0] m2)
      ∧ (∃ m2, monos_block sample_mem (0 + 3)
            (seq (record "f") (seq (monos_throw sample_mem 1 "f.c" "main" 7) (record "rest")))
            [] (some (record "g")) sample_stack
            = monos_except_throw_loc sample_mem 1 (some "f.c") (some "main") 7 m2
          ∧ popped sample_stack [.auto 2, .auto 1, .auto 0, .static0] m2) :=
  ⟨by decide,
   block_leaves_stack sample_mem 0 [(9, record "h9")] none _ (by decide)
     (Or.inl (List.cons_ne_nil _ _)),
   user_leaves_stack _, user_leaves_stack _, (fun G h => by cases h),
   (fun p hp _ => by
      simp only [List.mem_singleton] at hp
      subst hp
      exact user_leaves_stack _),
   by decide, Or.inl (List.cons_ne_nil _ _), by decide, by decide, by decide, by decide,
   by decide, by decide,
   frame_popped_on_exit sample_mem 0 Machine.init sample_stack [.static0]
      [.auto 2, .auto 1, .auto 0, .static0] (.auto 0)
      (monos_block sample_mem (0 + 3) (user (fun o => o ++ ["inner"]))
        [(9, record "h9")] ((none : Option (List String → List String)).map user))
      (record "f") (record "rest") (record "g")
      [(5, record "h5")] [(1, record "h")] [] none none 1 "f.c" "main" 7
      (by decide)
      (block_leaves_stack sample_mem 0 [(9, record "h9")] none _ (by decide)
        (Or.inl (List.cons_ne_nil _ _)))
      (user_leaves_stack _) (user_leaves_stack _)
      (fun G h => by cases h) (fun G h => by cases h)
      (fun p hp _ => by
        simp only [List.mem_singleton] at hp
        subst hp
        exact user_leaves_stack _)
      (by decide) (Or.inl (List.cons_ne_nil _ _)) (by decide) (by decide) (by decide)
      (by decide) (by decide) (by decide)⟩

/-- C9: the block `try { record("a") } end_try` entered in the initial state:
it ends normally, and the stack top is still the context of the block, not
its parent `ctxt_0`; nothing has popped it. -/
theorem bare_block_not_popped :
    monos_block sample_mem 3 (record "a") [] none Machine.init
      = .normal
          { ctxt_0 := ctxt_0_init,
            autos := [declared [] false (some .static0)],
            ctxt_stack_p := some (.auto 0),
            stderr := "",
            out := ["a"] } := by
  decide

/-- C10: for a block with `n` catch clauses followed by `c` finally clauses
(`c` is 0 or 1), entered in any state `m` and with any body: the declaration
pass (the loop body run in state `EXCEPT_INIT` right after the push) ends in
`exit(EXIT_FAILURE)` exactly when `n + c > 32`, and then the whole block ends
there with nothing recorded by user code (the body has not run).
Otherwise the pass ends in state `EXCEPT_BODY` with the context holding the
`n` identities, `except_count = n ≤ 32` and an array of 32 slots (no write
went outside it, which would be a fault), and the next pass starts by running
the body in that state.  So, within the limit, the block ends as the body
does when the body ends the process or transfers control to another frame;
the loop is entered again in state `EXCEPT_THROWN` when the body transfers
control to the block itself; and when the body falls through the block goes
on, from the state the body has left, with what follows the body in the
loop body. -/
theorem declaration_pass_limit (mem : Nat → monos_except) (body : Code)
    (cs : List (Nat × Code)) (fin : Option Code) (m : Machine) (fuel : Nat) :
    loop_body mem body cs fin (block_ctxt m) EXCEPT_INIT (entered m [] false)
        = (if MONOS_MAX_EXCEPT < cs.length + (if fin.isSome then 1 else 0) then
            .leave (.exited (entered m ((cs.map Prod.fst).take MONOS_MAX_EXCEPT) false))
           else .cont EXCEPT_BODY (entered m (cs.map Prod.fst) fin.isSome))
      ∧ monos_block mem (fuel + 1) body cs fin m
        = (if MONOS_MAX_EXCEPT < cs.length + (if fin.isSome then 1 else 0) then
            .exited (entered m ((cs.map Prod.fst).take MONOS_MAX_EXCEPT) false)
           else block_loop mem body cs fin (block_ctxt m) fuel EXCEPT_BODY
                  (entered m (cs.map Prod.fst) fin.isSome))
      ∧ (entered m ((cs.map Prod.fst).take MONOS_MAX_EXCEPT) false).out = m.out
      ∧ (entered m (cs.map Prod.fst) fin.isSome).load (block_ctxt m)
          = some (declared (cs.map Prod.fst) fin.isSome (parent_link m))
      ∧ (declared (cs.map Prod.fst) fin.isSome (parent_link m)).except_count = cs.length
      ∧ (cs.length + (if fin.isSome then 1 else 0) ≤ MONOS_MAX_EXCEPT →
          cs.length ≤ MONOS_MAX_EXCEPT
          ∧ (declared (cs.map Prod.fst) fin.isSome (parent_link m)).array.length
              = MONOS_MAX_EXCEPT)
      ∧ try_part mem body (closer_of cs fin) (block_ctxt m) EXCEPT_BODY
            (entered m (cs.map Prod.fst) fin.isSome)
          = (Step.run body EXCEPT_BODY (entered m (cs.map Prod.fst) fin.isSome)).bind
              (close (closer_of cs fin) mem (block_ctxt m))
      ∧ (cs.length + (if fin.isSome then 1 else 0) ≤ MONOS_MAX_EXCEPT →
          (∀ o, body (entered m (cs.map Prod.fst) fin.isSome) = o →
              (∀ m2, o ≠ .normal m2) → (∀ m2, o ≠ .jump (block_ctxt m) m2) →
              monos_block mem (fuel + 2) body cs fin m = o)
          ∧ (∀ m2, body (entered m (cs.map Prod.fst) fin.isSome) = .jump (block_ctxt m) m2 →
              monos_block mem (fuel + 2) body cs fin m
                = block_loop mem body cs fin (block_ctxt m) fuel EXCEPT_THROWN m2)
          ∧ (∀ m2, body (entered m (cs.map Prod.fst) fin.isSome) = .normal m2 →
              monos_block mem (fuel + 2) body cs fin m
                = match (((close (closer_of cs fin) mem (block_ctxt m) EXCEPT_BODY m2).bind
                      (catch_parts mem cs fin (block_ctxt m))).bind
                      (finally_opt mem fin (block_ctxt m))).bind loop_end with
                  | .cont st m3 => block_loop mem body cs fin (block_ctxt m) fuel st m3
                  | .leave (.jump t m3) =>
                      if t = block_ctxt m then
                        block_loop mem body cs fin (block_ctxt m) fuel EXCEPT_THROWN m3
                      else .jump t m3
                  | .leave o => o)) := by
  have hpass : loop_body mem body cs fin (block_ctxt m) EXCEPT_INIT (entered m [] false)
        = (if MONOS_MAX_EXCEPT < cs.length + (if fin.isSome then 1 else 0) then
            .leave (.exited (entered m ((cs.map Prod.fst).take MONOS_MAX_EXCEPT) false))
           else .cont EXCEPT_BODY (entered m (cs.map Prod.fst) fin.isSome)) := by
    by_cases h : MONOS_MAX_EXCEPT < cs.length + (if fin.isSome then 1 else 0)
    · rw [if_pos h, init_pass_full mem body cs fin m h]
    · rw [if_neg h, init_pass mem body cs fin m (by omega)]
  refine ⟨hpass, ?_, rfl, ?_, ?_, ?_, ?_, ?_⟩
  · rw [monos_block_eq, block_loop]
    rw [if_neg (by decide), hpass]
    by_cases h : MONOS_MAX_EXCEPT < cs.length + (if fin.isSome then 1 else 0)
    · simp only [if_pos h]
    · simp only [if_neg h]
  · rw [entered, load_inside]
  · simp [declared]
  · intro h
    have hn : cs.length ≤ MONOS_MAX_EXCEPT := by omega
    exact ⟨hn, declared_array_length _ _ _ (by simpa using hn)⟩
  · simp [try_part]
  · intro hlen
    exact ⟨fun o hbody hn hj => block_leave mem fuel body cs fin m o hlen hbody hn hj,
      fun m2 hbody => block_body_jump mem fuel body cs fin m m2 hlen hbody,
      fun m2 hbody => block_body_normal mem fuel body cs fin m m2 hlen hbody⟩

/-- C10, at a concrete input, in the initial state.  With one catch clause and
a finally clause the declaration pass ends in state `EXCEPT_BODY`, the body
`record("b")` runs next and the block ends normally with "b" and the cleanup
recorded; a body that ends in `abort` after `record("b")` ends the block
there.  With 33 catch clauses the block ends in `exit` and nothing is
recorded. -/
theorem declaration_pass_limit_witness :
    [((1 : Nat), record "h")].length + (if (some (record "f")).isSome then 1 else 0)
        ≤ MONOS_MAX_EXCEPT
      ∧ loop_body sample_mem (record "b") [(1, record "h")] (some (record "f"))
            (block_ctxt Machine.init) EXCEPT_INIT (entered Machine.init [] false)
          = .cont EXCEPT_BODY (entered Machine.init [1] true)
      ∧ monos_block sample_mem (1 + 2) (record "b") [(1, record "h")] (some (record "f"))
            Machine.init
          = .normal { ctxt_0 := ctxt_0_init,
                      autos := [declared [1] true (some .static0)],
                      ctxt_stack_p := some .static0, stderr := "", out := ["b", "f"] }
      ∧ monos_block sample_mem (0 + 2)
            (seq (record "b") (monos_throw sample_mem 9 "f.c" "main" 7))
            [(1, record "h")] (some (record "f")) Machine.init
          = .aborted { ctxt_0 := ctxt_0_init,
                       autos := [declared [1] true (some .static0)],
                       ctxt_stack_p := some (.auto 0),
                       stderr := "f.c:main:7: Uncaught exception `boom`\n", out := ["b"] }
      ∧ monos_block sample_mem (0 + 1) (record "b") (List.replicate 33 (1, record "h")) none
            Machine.init
          = .exited (entered Machine.init (List.replicate 32 1) false)
      ∧ (entered Machine.init (List.replicate 32 1) false).out = [] :=
  have key := declaration_pass_limit sample_mem (record "b") [(1, record "h")]
    (some (record "f")) Machine.init
  have key2 := declaration_pass_limit sample_mem
    (seq (record "b") (monos_throw sample_mem 9 "f.c" "main" 7)) [(1, record "h")]
    (some (record "f")) Machine.init 0
  have key3 := declaration_pass_limit sample_mem (record "b")
    (List.replicate 33 (1, record "h")) none Machine.init 0
  ⟨by decide,
   (key 0).1.trans (if_neg (by decide)),
   (((key 1).2.2.2.2.2.2.2 (by decide)).2.2
      ((entered Machine.init [1] true).map_out (fun l => l ++ ["b"])) rfl).trans (by decide),
   ((key2.2.2.2.2.2.2.2 (by decide)).1 _ (by decide) (by simp) (by simp)),
   key3.2.1.trans ((if_pos (by decide)).trans (by decide)),
   rfl⟩


/-- C11: `monos_assert(e)` with `e = 0` is the throw of `monos_assert_error`
from the place of the assertion; the message of that identity is
"Assertion failed", which is the text of the diagnostic when no frame
registers it.  With `e != 0` it returns at once in the same state: stack top,
context objects and records unchanged.  The block `try { assert(1 == 2) }
catch(monos_assert_error) { record("caught") } end_try` entered in any state has
a normal end, with "caught" and nothing else added to the records, and the
stack top the parent of the block. -/
theorem assert_throws_assert_error (mem : Nat → monos_except) (fuel : Nat) (m : Machine)
    (l : List CtxtPtr) (e : Int) (file func : String) (line : Nat)
    (hmem : mem monos_assert_error = monos_assert_error_object) :
    (e = 0 → monos_assert mem e file func line m
        = monos_except_throw_loc mem monos_assert_error (some file) (some func) line m)
      ∧ (mem monos_assert_error).message = some "Assertion failed"
      ∧ (e = 0 → isChain m m.ctxt_stack_p l = true →
          (∀ q ∈ l, regAt m monos_assert_error q = false) →
          monos_assert mem e file func line m
            = .aborted { m with stderr := m.stderr ++ location_text (some file) (some func) line
                                            ++ "Uncaught exception" ++ " `Assertion failed`\n" })
      ∧ (e ≠ 0 → monos_assert mem e file func line m = .normal m)
      ∧ monos_block mem (fuel + 4) (monos_assert mem (c_eq 1 2) file func line)
            [(monos_assert_error, record "caught")] none m
          = .normal
              { m with
                autos := m.autos ++ [thrown_into (declared [monos_assert_error] false
                  (parent_link m)) monos_assert_error (some file) (some func) line],
                ctxt_stack_p := parent_link m,
                out := m.out ++ ["caught"] } := by
  refine ⟨?_, ?_, ?_, ?_, ?_⟩
  · intro he
    subst he
    rw [monos_assert_zero]
    rfl
  · rw [hmem]
    rfl
  · intro he hchain hnone
    subst he
    rw [monos_assert_zero, monos_throw,
      throw_loc_unhandled mem m l monos_assert_error (some file) (some func) line hchain hnone]
    have hs : (" `" ++ ("Assertion failed" ++ "`\n") : String) = " `Assertion failed`\n" := by
      decide
    simp only [except_text, hmem, monos_assert_error_object, Machine.print,
      String.append_assoc, hs]
  · exact monos_assert_nonzero mem e file func line m
  · have h0 : c_eq 1 2 = 0 := by decide
    rw [h0]
    exact block_assert_caught mem fuel m (fun o => o ++ ["caught"]) file func line

/-- C11, at a concrete input: the block with the failed assertion entered in
the initial state, with `assert_mem` as the static descriptors. -/
theorem assert_throws_assert_error_witness :
    assert_mem monos_assert_error = monos_assert_error_object
      ∧ monos_block assert_mem (0 + 4) (monos_assert assert_mem (c_eq 1 2) "f.c" "main" 7)
            [(monos_assert_error, record "caught")] none Machine.init
          = .normal
              { Machine.init with
                autos := Machine.init.autos ++ [thrown_into (declared [monos_assert_error] false
                  (parent_link Machine.init)) monos_assert_error (some "f.c") (some "main") 7],
                ctxt_stack_p := parent_link Machine.init,
                out := Machine.init.out ++ ["caught"] } :=
  ⟨rfl,
   (assert_throws_assert_error assert_mem 0 Machine.init [] 0 "f.c" "main" 7 rfl).2.2.2.2⟩

/-- C12: a throw of `Y` from a handler body or a cleanup body of a block is made
in a state where the context of the block has been popped (`popped`: the
stack top is its parent link, the stack is the one the block was entered on,
the context is not on it), and the block ends as that throw does: it aborts,
or transfers control to a frame of the enclosing stack, which is not the
context of the block, whatever `Y` is (`X` itself, or another identity the
block has a clause for).  (1) The handler of `try { f; throw(X); rest }
catch ... catch(X) { k; throw(Y) } ... [finally ...] end_try`.  (2) The
cleanup of `try { f } catch ... finally { k; throw(Y) } end_try`, reached on
the normal path.  (3) The cleanup of `try { f; throw(X); rest } catch ...
finally { k; throw(Y) } end_try` with no clause for `X`, entered below a frame
that registers `X`: the cleanup runs in state `EXCEPT_THROWN`, after `X` has
been thrown into the block.  (4) The cleanup of `try { f; throw(X); rest }
catch ... catch(X) { h } ... finally { k; throw(Y) } end_try`, which runs
after the handler `h`. -/
theorem handlers_run_with_frame_popped (mem : Nat → monos_except) (fuel : Nat)
    (m m3 : Machine) (l l3 : List CtxtPtr) (F : CtxtPtr)
    (pre post cs cs3 pre4 post4 : List (Nat × Code)) (X Y : Nat)
    (k f h : List String → List String) (fin : Option Code) (rest : Code)
    (file func file2 func2 : String) (line line2 : Nat)
    (hwf : isChain m (parent_link m) l = true)
    (hpre : X ∉ pre.map Prod.fst)
    (hlen : (pre ++ (X, seq (user k) (monos_throw mem Y file2 func2 line2)) :: post).length
      + (if fin.isSome then 1 else 0) ≤ MONOS_MAX_EXCEPT)
    (hlen2 : cs.length + 1 ≤ MONOS_MAX_EXCEPT)
    (hchain3 : isChain m3 m3.ctxt_stack_p l3 = true)
    (hF3 : l3.find? (regAt m3 X) = some F)
    (hnot3 : X ∉ cs3.map Prod.fst)
    (hlen3 : cs3.length + 1 ≤ MONOS_MAX_EXCEPT)
    (hdistinct4 : ((pre4 ++ (X, user h) :: post4).map Prod.fst).Nodup)
    (hlen4 : (pre4 ++ (X, user h) :: post4).length + 1 ≤ MONOS_MAX_EXCEPT) :
    (∃ m2, popped m l m2 ∧ m2.out = k (f m.out)
        ∧ monos_block mem (fuel + 3)
            (seq (user f) (seq (monos_throw mem X file func line) rest))
            (pre ++ (X, seq (user k) (monos_throw mem Y file2 func2 line2)) :: post) fin m
          = monos_except_throw_loc mem Y (some file2) (some func2) line2 m2
        ∧ ((∃ s, monos_except_throw_loc mem Y (some file2) (some func2) line2 m2 = .aborted s)
            ∨ (∃ T m4, monos_except_throw_loc mem Y (some file2) (some func2) line2 m2
                  = .jump T m4 ∧ T ∈ l ∧ T ≠ block_ctxt m)))
      ∧ (∃ m2, popped m l m2 ∧ m2.out = k (f m.out)
          ∧ monos_block mem (fuel + 2) (user f) cs
              (some (seq (user k) (monos_throw mem Y file2 func2 line2))) m
            = monos_except_throw_loc mem Y (some file2) (some func2) line2 m2
          ∧ ((∃ s, monos_except_throw_loc mem Y (some file2) (some func2) line2 m2 = .aborted s)
              ∨ (∃ T m4, monos_except_throw_loc mem Y (some file2) (some func2) line2 m2
                    = .jump T m4 ∧ T ∈ l ∧ T ≠ block_ctxt m)))
      ∧ (∃ m2, popped m3 l3 m2 ∧ m2.out = k (f m3.out)
          ∧ monos_block mem (fuel + 3)
              (seq (user f) (seq (monos_throw mem X file func line) rest)) cs3
              (some (seq (user k) (monos_throw mem Y file2 func2 line2))) m3
            = monos_except_throw_loc mem Y (some file2) (some func2) line2 m2
          ∧ ((∃ s, monos_except_throw_loc mem Y (some file2) (some func2) line2 m2 = .aborted s)
              ∨ (∃ T m4, monos_except_throw_loc mem Y (some file2) (some func2) line2 m2
                    = .jump T m4 ∧ T ∈ l3 ∧ T ≠ block_ctxt m3)))
      ∧ (∃ m2, popped m l m2 ∧ m2.out = k (h (f m.out))
          ∧ monos_block mem (fuel + 3)
              (seq (user f) (seq (monos_throw mem X file func line) rest))
              (pre4 ++ (X, user h) :: post4)
              (some (seq (user k) (monos_throw mem Y file2 func2 line2))) m
            = monos_except_throw_loc mem Y (some file2) (some func2) line2 m2
          ∧ ((∃ s, monos_except_throw_loc mem Y (some file2) (some func2) line2 m2 = .aborted s)
              ∨ (∃ T m4, monos_except_throw_loc mem Y (some file2) (some func2) line2 m2
                    = .jump T m4 ∧ T ∈ l ∧ T ≠ block_ctxt m))) := by
  refine ⟨?_, ?_, ?_, ?_⟩
  · have hp := popped_left m l (thrown_into (declared
      ((pre ++ (X, seq (user k) (monos_throw mem Y file2 func2 line2)) :: post).map Prod.fst)
      fin.isSome (parent_link m)) X (some file) (some func) line) (k ∘ f) hwf rfl
    obtain ⟨hn, hj, hshape⟩ :=
      throw_popped_outcome mem m _ l Y (some file2) (some func2) line2 hp
    exact ⟨_, hp, rfl,
      block_handler_leaves mem fuel m pre post X _ f fin rest file func line _ hpre hlen rfl
        hn hj, hshape⟩
  · have hp := popped_left m l (declared (cs.map Prod.fst) true (parent_link m)) (k ∘ f) hwf rfl
    obtain ⟨hn, hj, hshape⟩ :=
      throw_popped_outcome mem m _ l Y (some file2) (some func2) line2 hp
    exact ⟨_, hp, rfl, block_cleanup_leaves mem fuel m cs _ f _ hlen2 rfl hn hj, hshape⟩
  · have hwf3 : isChain m3 (parent_link m3) l3 = true := by
      rw [parent_link_of_chain m3 l3 F hchain3 (List.mem_of_find?_eq_some hF3)]
      exact hchain3
    have hp := popped_left m3 l3 (thrown_into (declared (cs3.map Prod.fst) true
      (parent_link m3)) X (some file) (some func) line) (k ∘ f) hwf3 rfl
    obtain ⟨hn, hj, hshape⟩ :=
      throw_popped_outcome mem m3 _ l3 Y (some file2) (some func2) line2 hp
    exact ⟨_, hp, rfl,
      block_thrown_cleanup_leaves mem fuel m3 l3 F cs3 _ X f rest file func line _ hchain3 hF3
        hnot3 hlen3 rfl hn hj, hshape⟩
  · have hp := popped_left m l (thrown_into (declared
      ((pre4 ++ (X, user h) :: post4).map Prod.fst) true (parent_link m)) X (some file)
      (some func) line) (k ∘ (h ∘ f)) hwf rfl
    obtain ⟨hn, hj, hshape⟩ :=
      throw_popped_outcome mem m _ l Y (some file2) (some func2) line2 hp
    exact ⟨_, hp, rfl,
      block_handled_cleanup_leaves mem fuel m pre4 post4 X h f _ rest file func line _
        hdistinct4 hlen4 rfl hn hj, hshape⟩

/-- C12, at a concrete input: blocks entered on `sample_stack`, whose outermost
frame registers identity 1; each cleanup throws 1.  On the normal path of a
block that catches 5; in state `EXCEPT_THROWN` in a block without a clause
for 1, into which 1 has been thrown; and after the handler in a block that
catches 1. -/
theorem handlers_run_with_frame_popped_witness :
    isChain sample_stack (parent_link sample_stack) [.auto 2, .auto 1, .auto 0, .static0] = true
      ∧ (1 : Nat) ∉ ([] : List (Nat × Code)).map Prod.fst
      ∧ ([] ++ ((1 : Nat), seq (user (fun o => o ++ ["k"]))
            (monos_throw sample_mem 1 "f.c" "main" 9)) :: []).length
          + (if (none : Option Code).isSome then 1 else 0) ≤ MONOS_MAX_EXCEPT
      ∧ [((5 : Nat), record "h")].length + 1 ≤ MONOS_MAX_EXCEPT
      ∧ isChain sample_stack sample_stack.ctxt_stack_p [.auto 2, .auto 1, .auto 0, .static0]
          = true
      ∧ [CtxtPtr.auto 2, .auto 1, .auto 0, .static0].find? (regAt sample_stack 1)
          = some (.auto 0)
      ∧ (1 : Nat) ∉ [((4 : Nat), record "h4")].map Prod.fst
      ∧ [((4 : Nat), record "h4")].length + 1 ≤ MONOS_MAX_EXCEPT
      ∧ (([] ++ ((1 : Nat), user (fun o => o ++ ["h"])) :: []).map Prod.fst).Nodup
      ∧ ([] ++ ((1 : Nat), user (fun o => o ++ ["h"])) :: []).length + 1 ≤ MONOS_MAX_EXCEPT
      ∧ (∃ m2, popped sample_stack [.auto 2, .auto 1, .auto 0, .static0] m2
          ∧ m2.out = (fun o => o ++ ["k"]) ((fun o => o ++ ["f"]) sample_stack.out)
          ∧ monos_block sample_mem (0 + 2) (user (fun o => o ++ ["f"])) [(5, record "h")]
              (some (seq (user (fun o => o ++ ["k"]))
                (monos_throw sample_mem 1 "f.c" "main" 9))) sample_stack
            = monos_except_throw_loc sample_mem 1 (some "f.c") (some "main") 9 m2
          ∧ ((∃ s, monos_except_throw_loc sample_mem 1 (some "f.c") (some "main") 9 m2
                = .aborted s)
              ∨ (∃ T m4, monos_except_throw_loc sample_mem 1 (some "f.c") (some "main") 9 m2
                    = .jump T m4 ∧ T ∈ [CtxtPtr.auto 2, .auto 1, .auto 0, .static0]
                  ∧ T ≠ block_ctxt sample_stack)))
      ∧ (∃ m2, popped sample_stack [.auto 2, .auto 1, .auto 0, .static0] m2
          ∧ m2.out = (fun o => o ++ ["k"]) ((fun o => o ++ ["f"]) sample_stack.out)
          ∧ monos_block sample_mem (0 + 3)
              (seq (user (fun o => o ++ ["f"]))
                (seq (monos_throw sample_mem 1 "f.c" "main" 7) (record "rest")))
              [(4, record "h4")]
              (some (seq (user (fun o => o ++ ["k"]))
                (monos_throw sample_mem 1 "f.c" "main" 9))) sample_stack
            = monos_except_throw_loc sample_mem 1 (some "f.c") (some "main") 9 m2
          ∧ ((∃ s, monos_except_throw_loc sample_mem 1 (some "f.c") (some "main") 9 m2
                = .aborted s)
              ∨ (∃ T m4, monos_except_throw_loc sample_mem 1 (some "f.c") (some "main") 9 m2
                    = .jump T m4 ∧ T ∈ [CtxtPtr.auto 2, .auto 1, .auto 0, .static0]
                  ∧ T ≠ block_ctxt sample_stack)))
      ∧ (∃ m2, popped sample_stack [.auto 2, .auto 1, .auto 0, .static0] m2
          ∧ m2.out = (fun o => o ++ ["k"])
              ((fun o => o ++ ["h"]) ((fun o => o ++ ["f"]) sample_stack.out))
          ∧ monos_block sample_mem (0 + 3)
              (seq (user (fun o => o ++ ["f"]))
                (seq (monos_throw sample_mem 1 "f.c" "main" 7) (record "rest")))
              ([] ++ (1, user (fun o => o ++ ["h"])) :: [])
              (some (seq (user (fun o => o ++ ["k"]))
                (monos_throw sample_mem 1 "f.c" "main" 9))) sample_stack
            = monos_except_throw_loc sample_mem 1 (some "f.c") (some "main") 9 m2
          ∧ ((∃ s, monos_except_throw_loc sample_mem 1 (some "f.c") (some "main") 9 m2
                = .aborted s)
              ∨ (∃ T m4, monos_except_throw_loc sample_mem 1 (some "f.c") (some "main") 9 m2
                    = .jump T m4 ∧ T ∈ [CtxtPtr.auto 2, .auto 1, .auto 0, .static0]
                  ∧ T ≠ block_ctxt sample_stack))) :=
  have key := handlers_run_with_frame_popped sample_mem 0 sample_stack sample_stack
    [.auto 2, .auto 1, .auto 0, .static0] [.auto 2, .auto 1, .auto 0, .static0] (.auto 0)
    [] [] [(5, record "h")] [(4, record "h4")] [] [] 1 1
    (fun o => o ++ ["k"]) (fun o => o ++ ["f"]) (fun o => o ++ ["h"]) none (record "rest")
    "f.c" "main" "f.c" "main" 7 9 (by decide) (by decide) (by decide) (by decide)
    (by decide) (by decide) (by decide) (by decide) (by decide) (by decide)
  ⟨by decide, by decide, by decide, by decide, by decide, by decide, by decide, by decide,
   by decide, by decide, key.2.1, key.2.2.1, key.2.2.2⟩

/-- C13: the block `try { throw(1) } catch(1) { record("h"); throw(2) }
finally { record("cleanup") } end_try` in the body of a block that catches 2
with the handler `record("outer")`, entered in the initial state: the handler
of the inner block throws 2 when the context of that block is already popped,
so control goes straight to the outer handler; "h" and "outer" are recorded
and "cleanup" never is. -/
theorem finally_skipped_when_handler_throws :
    monos_block sample_mem 4
        (monos_block sample_mem 4 (monos_throw sample_mem 1 "f.c" "main" 7)
          [(1, seq (record "h") (monos_throw sample_mem 2 "f.c" "main" 9))]
          (some (record "cleanup")))
        [(2, record "outer")] none Machine.init
      = .normal
          { ctxt_0 := ctxt_0_init,
            autos := [thrown_into (declared [2] false (some .static0)) 2 (some "f.c")
                        (some "main") 9,
                      thrown_into (declared [1] true (some (.auto 0))) 1 (some "f.c")
                        (some "main") 7],
            ctxt_stack_p := some .static0,
            stderr := "",
            out := ["h", "outer"] } := by
  decide

/-- C15: let `X` and `Y` be distinct identities whose descriptors carry the
same message.  (1) On a stack with a frame that registers `X` and no frame
that registers `Y`, a throw of `Y` is unhandled: it aborts, and the
diagnostic is the very text a throw of `X` would have had, were it
unhandled.  (2) In a block with distinct catch clauses that registers both,
`try { f; throw(Y); rest } catch ... catch(Y) { h } ... [finally { g }] end_try`,
the handler `h` of the clause for `Y` runs and no other handler does,
whatever the code of the clause for `X` is; the context of the block
registers `X` and `Y` and holds `Y` as the identity thrown. -/
theorem matching_is_by_identity (mem : Nat → monos_except) (fuel : Nat) (m m0 : Machine)
    (l : List CtxtPtr) (F : CtxtPtr) (X Y : Nat) (pre post : List (Nat × Code))
    (h f : List String → List String) (fin : Option (List String → List String))
    (rest : Code) (file func : String) (line : Nat) (s : String)
    (hmsgX : (mem X).message = some s) (hmsgY : (mem Y).message = some s)
    (hchain : isChain m m.ctxt_stack_p l = true)
    (hregX : l.find? (regAt m X) = some F)
    (hnoY : ∀ q ∈ l, regAt m Y q = false)
    (hboth : X ∈ (pre ++ post).map Prod.fst)
    (hdistinct : ((pre ++ (Y, user h) :: post).map Prod.fst).Nodup)
    (hlen : (pre ++ (Y, user h) :: post).length + (if fin.isSome then 1 else 0)
      ≤ MONOS_MAX_EXCEPT) :
    X ≠ Y
      ∧ regAt m X F = true
      ∧ monos_except_throw_loc mem Y (some file) (some func) line m
          = .aborted { m with stderr := m.stderr ++ location_text (some file) (some func) line
                                          ++ "Uncaught exception" ++ except_text mem X }
      ∧ monos_block mem (fuel + 4)
            (seq (user f) (seq (monos_throw mem Y file func line) rest))
            (pre ++ (Y, user h) :: post) (fin.map user) m0
          = .normal
              { m0 with
                autos := m0.autos ++ [thrown_into (declared ((pre ++ (Y, user h) :: post).map
                  Prod.fst) fin.isSome (parent_link m0)) Y (some file) (some func) line],
                ctxt_stack_p := parent_link m0,
                out := (fin.getD id) (h (f m0.out)) }
      ∧ registers (thrown_into (declared ((pre ++ (Y, user h) :: post).map Prod.fst)
            fin.isSome (parent_link m0)) Y (some file) (some func) line) X = true
      ∧ registers (thrown_into (declared ((pre ++ (Y, user h) :: post).map Prod.fst)
            fin.isSome (parent_link m0)) Y (some file) (some func) line) Y = true := by
  have hFl : F ∈ l := List.mem_of_find?_eq_some hregX
  have hreg : regAt m X F = true := List.find?_some hregX
  have hXY : X ≠ Y := by
    intro e
    rw [e, hnoY F hFl] at hreg
    cases hreg
  have htext : except_text mem Y = except_text mem X := by
    simp only [except_text, hmsgX, hmsgY]
  have hthrown : ∀ (c : monos_except_context) (Z : Nat),
      registers (thrown_into c Y (some file) (some func) line) Z = registers c Z :=
    fun _ _ => rfl
  refine ⟨hXY, hreg, ?_, ?_, ?_, ?_⟩
  · rw [throw_loc_unhandled mem m l Y (some file) (some func) line hchain hnoY, htext]
    simp only [Machine.print, String.append_assoc]
  · rw [block_handled_user mem fuel m0 pre post Y h f fin rest file func line hdistinct hlen]
    rfl
  · rw [hthrown, registers_declared]
    simp only [List.map_append, List.map_cons, List.mem_append, List.mem_cons] at hboth ⊢
    rcases hboth with hb | hb
    · exact Or.inl hb
    · exact Or.inr (Or.inr hb)
  · rw [hthrown, registers_declared]
    simp

/-- C15, at a concrete input: identities 1 and 2, which carry the same message
in `sample_mem`; a stack with one block that catches 1, and a block that
catches 1 and 2. -/
theorem matching_is_by_identity_witness :
    (sample_mem 1).message = some "boom" ∧ (sample_mem 2).message = some "boom"
      ∧ isChain (entered Machine.init [1] false) (entered Machine.init [1] false).ctxt_stack_p
          [.auto 0, .static0] = true
      ∧ [CtxtPtr.auto 0, .static0].find? (regAt (entered Machine.init [1] false) 1)
          = some (.auto 0)
      ∧ (∀ q ∈ [CtxtPtr.auto 0, .static0], regAt (entered Machine.init [1] false) 2 q = false)
      ∧ (1 : Nat) ∈ ([((1 : Nat), record "h1")] ++ []).map Prod.fst
      ∧ (([((1 : Nat), record "h1")] ++ ((2 : Nat), user (fun o => o ++ ["h2"])) :: []).map
          Prod.fst).Nodup
      ∧ ([((1 : Nat), record "h1")] ++ ((2 : Nat), user (fun o => o ++ ["h2"])) :: []).length
          + (if (none : Option (List String → List String)).isSome then 1 else 0)
          ≤ MONOS_MAX_EXCEPT
      ∧ monos_except_throw_loc sample_mem 2 (some "f.c") (some "main") 7
            (entered Machine.init [1] false)
          = .aborted { entered Machine.init [1] false with
              stderr := (entered Machine.init [1] false).stderr
                ++ location_text (some "f.c") (some "main") 7
                ++ "Uncaught exception" ++ except_text sample_mem 1 }
      ∧ (∃ m2, monos_block sample_mem (0 + 4)
            (seq (user (fun o => o ++ ["f"]))
              (seq (monos_throw sample_mem 2 "f.c" "main" 7) (record "rest")))
            ([(1, record "h1")] ++ (2, user (fun o => o ++ ["h2"])) :: [])
            ((none : Option (List String → List String)).map user) Machine.init = .normal m2
          ∧ m2.out = ["f", "h2"]) :=
  have key := matching_is_by_identity sample_mem 0 (entered Machine.init [1] false)
    Machine.init [.auto 0, .static0] (.auto 0) 1 2 [(1, record "h1")] []
    (fun o => o ++ ["h2"]) (fun o => o ++ ["f"]) none (record "rest") "f.c" "main" 7 "boom"
    rfl rfl (by decide) (by decide) (by decide) (by decide) (by decide) (by decide)
  ⟨rfl, rfl, by decide, by decide, by decide, by decide, by decide, by decide,
   key.2.2.1, _, key.2.2.2.1, rfl⟩

/-- C16, on the empty stack: with `ctxt_stack_p` NULL and one context object,
`monos_except_context_push` links the object to `ctxt_0` (it has a parent),
and `monos_except_context_pop` right after it leaves the stack top at the
address of `ctxt_0`, not at NULL as before the push. -/
theorem push_pop_on_empty_stack :
    ({ Machine.init with autos := [fresh_ctxt] } : Machine).ctxt_stack_p = none
      ∧ monos_except_context_push (.auto 0) { Machine.init with autos := [fresh_ctxt] }
          = .normal { Machine.init with
              autos := [{ fresh_ctxt with link_p := some .static0 }],
              ctxt_stack_p := some (.auto 0) }
      ∧ monos_except_context_pop (.auto 0)
            { Machine.init with
              autos := [{ fresh_ctxt with link_p := some .static0 }],
              ctxt_stack_p := some (.auto 0) }
          = .normal { Machine.init with
              autos := [{ fresh_ctxt with link_p := some .static0 }],
              ctxt_stack_p := some .static0 }
      ∧ (some CtxtPtr.static0 : Option CtxtPtr) ≠ none := by
  decide

/-- C16, as the code has it: for every state `m` and every existing context
object `f`, `monos_except_context_push(f)` makes `f` the stack top and stores
in its `link_p` the previous top, or the address of `ctxt_0` when the previous
top was NULL, touching no other field and no other object;
`monos_except_context_pop(f)` right after it sets the stack top to that link
and touches no object.  So the top is the one before the push when that was
not NULL, and the address of `ctxt_0` when it was. -/
theorem push_then_pop (m : Machine) (f : CtxtPtr) (c : monos_except_context)
    (hload : m.load f = some c) :
    ∃ m1 m2, monos_except_context_push f m = .normal m1
      ∧ m1.ctxt_stack_p = some f
      ∧ m1.load f = some { c with link_p := if m.ctxt_stack_p = none then some .static0
                                             else m.ctxt_stack_p }
      ∧ (∀ q, q ≠ f → m1.load q = m.load q)
      ∧ m1.out = m.out ∧ m1.stderr = m.stderr
      ∧ monos_except_context_pop f m1 = .normal m2
      ∧ m2.ctxt_stack_p = (if m.ctxt_stack_p = none then some .static0 else m.ctxt_stack_p)
      ∧ (m.ctxt_stack_p ≠ none → m2.ctxt_stack_p = m.ctxt_stack_p)
      ∧ (m.ctxt_stack_p = none → m2.ctxt_stack_p = some .static0)
      ∧ (∀ q, m2.load q = m1.load q)
      ∧ m2.out = m.out ∧ m2.stderr = m.stderr := by
  have h1 : ((m.store f { c with link_p := parent_link m }).set_stack_p (some f)).load f
      = some { c with link_p := parent_link m } := by
    rw [load_set_stack_p]
    exact load_store_same m f c _ hload
  refine ⟨_, _, push_eq m f c hload, rfl, h1, ?_, ?_, ?_, pop_eq _ f _ h1, rfl, ?_, ?_, ?_, ?_,
    ?_⟩
  · intro q hq
    rw [load_set_stack_p, load_store_other m f q _ hq]
  · simp [store_out]
  · simp [store_stderr]
  · intro htop
    simp [parent_link, htop]
  · intro htop
    simp [parent_link, htop]
  · intro q
    rw [load_set_stack_p]
  · simp [store_out]
  · simp [store_stderr]

/-- C16, at a concrete input: a push and a pop of a new object on
`sample_stack`. -/
theorem push_then_pop_witness :
    ({ sample_stack with autos := sample_stack.autos ++ [fresh_ctxt] } : Machine).load (.auto 3)
        = some fresh_ctxt
      ∧ ∃ m1 m2, monos_except_context_push (.auto 3)
            { sample_stack with autos := sample_stack.autos ++ [fresh_ctxt] } = .normal m1
          ∧ m1.ctxt_stack_p = some (.auto 3)
          ∧ monos_except_context_pop (.auto 3) m1 = .normal m2
          ∧ m2.ctxt_stack_p = some (.auto 2) :=
  ⟨by decide,
   match push_then_pop { sample_stack with autos := sample_stack.autos ++ [fresh_ctxt] }
       (.auto 3) fresh_ctxt (by decide) with
   | ⟨m1, m2, hpush, htop, _, _, _, _, hpop, _, hsame, _⟩ =>
       ⟨m1, m2, hpush, htop, hpop, (hsame (by decide)).trans (by decide)⟩⟩

/-- C17, with two clauses for one identity: the block `try { throw(1) }
catch(1) { record("h1") } catch(1) { record("h2") } end_try` entered in the
initial state ends normally with both "h1" and "h2" recorded: the second
handler for the identity has run as well. -/
theorem duplicate_clauses_both_run :
    monos_block sample_mem 4 (monos_throw sample_mem 1 "f.c" "main" 7)
        [(1, record "h1"), (1, record "h2")] none Machine.init
      = .normal
          { ctxt_0 := ctxt_0_init,
            autos := [thrown_into (declared [1, 1] false (some .static0)) 1 (some "f.c")
                        (some "main") 7],
            ctxt_stack_p := some .static0,
            stderr := "",
            out := ["h1", "h2"] } := by
  decide

/-- C17, as the code has it: in the block `try { f; throw(X); rest } catch ...
[finally { g }] end_try` with any catch clauses, one or more of them for `X`
(`ks` lists the handlers of the clauses for `X`, in the order of the
clauses), entered in any state: the block ends normally, and what has been
recorded is `f`, then every handler of `ks` once, in order, then `g` if
there is a finally clause.  The handlers of the other clauses and `rest` are
any code and did not run; the stack top is the parent of the block. -/
theorem duplicate_clauses_all_run (mem : Nat → monos_except) (fuel : Nat) (m : Machine)
    (cs : List (Nat × Code)) (ks : List (List String → List String)) (X : Nat)
    (f : List String → List String) (fin : Option (List String → List String))
    (rest : Code) (file func : String) (line : Nat)
    (hks : (cs.filter (fun p => p.1 == X)).map Prod.snd = ks.map user)
    (hne : ks ≠ [])
    (hlen : cs.length + (if fin.isSome then 1 else 0) ≤ MONOS_MAX_EXCEPT) :
    monos_block mem (fuel + 4) (seq (user f) (seq (monos_throw mem X file func line) rest))
        cs (fin.map user) m
      = .normal
          { m with
            autos := m.autos ++ [thrown_into (declared (cs.map Prod.fst) fin.isSome
              (parent_link m)) X (some file) (some func) line],
            ctxt_stack_p := parent_link m,
            out := (fin.getD id) (ks.foldl (fun o k => k o) (f m.out)) } := by
  rw [block_handled_all_user mem fuel m cs ks X f fin rest file func line hks hne hlen]
  rfl

/-- C17, at a concrete input: three clauses, the first and the last for the
identity thrown, and a finally clause, entered in the initial state. -/
theorem duplicate_clauses_all_run_witness :
    ([((1 : Nat), user (fun o => o ++ ["h1"])), (2, record "h2"),
        (1, user (fun o => o ++ ["h3"]))].filter (fun p => p.1 == 1)).map Prod.snd
        = [fun o : List String => o ++ ["h1"], fun o => o ++ ["h3"]].map user
      ∧ [fun o : List String => o ++ ["h1"], fun o => o ++ ["h3"]] ≠ []
      ∧ [((1 : Nat), user (fun o => o ++ ["h1"])), (2, record "h2"),
          (1, user (fun o => o ++ ["h3"]))].length
          + (if (some (fun o : List String => o ++ ["g"])).isSome then 1 else 0)
          ≤ MONOS_MAX_EXCEPT
      ∧ (∃ m2, monos_block sample_mem (0 + 4)
            (seq (user (fun o => o ++ ["f"]))
              (seq (monos_throw sample_mem 1 "f.c" "main" 7) (record "rest")))
            [(1, user (fun o => o ++ ["h1"])), (2, record "h2"),
              (1, user (fun o => o ++ ["h3"]))]
            ((some (fun o : List String => o ++ ["g"])).map user) Machine.init = .normal m2
          ∧ m2.out = ["f", "h1", "h3", "g"] ∧ m2.ctxt_stack_p = some .static0) :=
  ⟨rfl, List.cons_ne_nil _ _, by decide, _,
   duplicate_clauses_all_run sample_mem 0 Machine.init
     [(1, user (fun o => o ++ ["h1"])), (2, record "h2"), (1, user (fun o => o ++ ["h3"]))]
     [fun o => o ++ ["h1"], fun o => o ++ ["h3"]] 1 (fun o => o ++ ["f"])
     (some (fun o => o ++ ["g"])) (record "rest") "f.c" "main" 7 rfl (List.cons_ne_nil _ _)
     (by decide),
   rfl, rfl⟩

/-- C18: the propagation of a throw of `X` on a well-formed stack `l`, when the
cleanup of every block completes and leaves the stack as it found it, and
the number of steps allowed is at least the number of frames.  It ends:
when no frame registers `X` the process aborts at once, before any cleanup;
when `F` is the nearest frame that registers `X`, a handler body is entered
in the block of `F`, with `F` the stack top, after `j` cleanups each followed
by a re-throw, where `j` is at most the number of frames above `F`, so at
most the number of frames; no re-throw is unhandled.  The step of the
propagation at a frame that does not register `X` is the pass in state
`EXCEPT_THROWN` of a block with the cleanup of that frame and no catch
clause for `X`. -/
theorem propagation_terminates (mem : Nat → monos_except) (cleanup : CtxtPtr → Code)
    (m : Machine) (l : List CtxtPtr) (X : Nat) (file func : Option String) (line fuel : Nat)
    (hchain : isChain m m.ctxt_stack_p l = true)
    (hcl : ∀ G, leaves_stack (cleanup G))
    (hfuel : l.length ≤ fuel) :
    ((∀ q ∈ l, regAt m X q = false) →
        propagation mem cleanup X file func line fuel m
          = .aborted 0 (((m.print (location_text file func line)).print
              "Uncaught exception").print (except_text mem X)))
      ∧ (∀ F, l.find? (regAt m X) = some F →
          ∃ j m2, propagation mem cleanup X file func line fuel m = .handler j F m2
            ∧ j ≤ (l.takeWhile (fun q => q != F)).length ∧ j ≤ l.length
            ∧ m2.ctxt_stack_p = some F ∧ regAt m2 X F = true)
      ∧ ((∃ s, propagation mem cleanup X file func line fuel m = .aborted 0 s)
          ∨ (∃ j F m2, propagation mem cleanup X file func line fuel m = .handler j F m2
              ∧ j ≤ l.length))
      ∧ (∀ (body : Code) (cs : List (Nat × Code)) (G : CtxtPtr) (m1 : Machine)
            (c : monos_except_context),
          m1.load G = some c → c.except_p = some X → X ∉ cs.map Prod.fst →
          loop_body mem body cs (some (cleanup G)) G EXCEPT_THROWN m1
            = finally_part mem (cleanup G) G EXCEPT_THROWN m1) := by
  have habort : (∀ q ∈ l, regAt m X q = false) →
      propagation mem cleanup X file func line fuel m
        = .aborted 0 (((m.print (location_text file func line)).print
            "Uncaught exception").print (except_text mem X)) := by
    intro hnone
    simp only [propagation, throw_loc_unhandled mem m l X file func line hchain hnone]
  have hhandled : ∀ F, l.find? (regAt m X) = some F →
      ∃ j m2, propagation mem cleanup X file func line fuel m = .handler j F m2
        ∧ j ≤ (l.takeWhile (fun q => q != F)).length ∧ j ≤ l.length
        ∧ m2.ctxt_stack_p = some F ∧ regAt m2 X F = true := by
    intro F hF
    obtain ⟨G, m1, j, m2, hthrow, hun, hj, htop, hreg⟩ :=
      unwind_chain mem cleanup X file func line hcl l m F 0 fuel hchain hF hfuel
    refine ⟨j, m2, ?_, hj,
      Nat.le_trans hj (List.takeWhile_sublist _).length_le, htop, hreg⟩
    simp only [propagation, hthrow, hun, Nat.zero_add]
  refine ⟨habort, hhandled, ?_, ?_⟩
  · cases hfind : l.find? (regAt m X) with
    | none =>
        refine Or.inl ⟨_, habort ?_⟩
        intro q hq
        have h := List.find?_eq_none.mp hfind q hq
        simpa using h
    | some F =>
        obtain ⟨j, m2, hp, _, hj, _, _⟩ := hhandled F hfind
        exact Or.inr ⟨j, F, m2, hp, hj⟩
  · intro body cs G m1 c hload hX hnot
    exact thrown_pass_is_finally_part mem body cs (cleanup G) G m1 c X hload hX hnot

/-- C18, at a concrete input: identity 1 thrown on `sample_stack`, every
cleanup being `record("c")`; the handler is reached after one cleanup and
re-throw. -/
theorem propagation_terminates_witness :
    isChain sample_stack sample_stack.ctxt_stack_p [.auto 2, .auto 1, .auto 0, .static0] = true
      ∧ (∀ G : CtxtPtr, leaves_stack ((fun _ => record "c") G))
      ∧ [CtxtPtr.auto 2, .auto 1, .auto 0, .static0].length ≤ 4
      ∧ [CtxtPtr.auto 2, .auto 1, .auto 0, .static0].find? (regAt sample_stack 1)
          = some (.auto 0)
      ∧ ∃ j m2, propagation sample_mem (fun _ => record "c") 1 (some "f.c") (some "main") 7 4
            sample_stack = .handler j (.auto 0) m2
          ∧ j ≤ ([CtxtPtr.auto 2, .auto 1, .auto 0, .static0].takeWhile
                  (fun q => q != CtxtPtr.auto 0)).length
          ∧ j ≤ [CtxtPtr.auto 2, .auto 1, .auto 0, .static0].length
          ∧ m2.ctxt_stack_p = some (.auto 0) ∧ regAt m2 1 (.auto 0) = true :=
  ⟨by decide, fun _ => user_leaves_stack _, by decide, by decide,
   (propagation_terminates sample_mem (fun _ => record "c") sample_stack
      [.auto 2, .auto 1, .auto 0, .static0] 1 (some "f.c") (some "main") 7 4 (by decide)
      (fun _ => user_leaves_stack _) (by decide)).2.1 (.auto 0) (by decide)⟩

/-- C19: on a frame stack `l` over the sentinel `ctxt_0`, which registers nothing
and has no finally clause, and for an identity `X` that some frame registers
(`F` the nearest): the second scan of `monos_except_throw_loc` stops at a
non-null pointer, which is the address of the context of a block
(`auto n`), a frame of the stack, and not the address of `ctxt_0`; the
fields are written in that context and control is transferred to it; the
object `ctxt_0` is the same after the throw. -/
theorem target_is_never_sentinel (mem : Nat → monos_except) (m : Machine) (l : List CtxtPtr)
    (X : Nat) (file func : Option String) (line : Nat) (F : CtxtPtr)
    (hchain : isChain m m.ctxt_stack_p l = true)
    (hcount : m.ctxt_0.except_count = 0) (hfinal : m.ctxt_0.has_finally = false)
    (hF : l.find? (regAt m X) = some F) :
    ∃ n c m2, finally_search m (some F) m.steps m.ctxt_stack_p = .stop (some (.auto n))
      ∧ CtxtPtr.auto n ∈ l ∧ m.load (.auto n) = some c
      ∧ monos_except_throw_loc mem X file func line m = .jump (.auto n) m2
      ∧ m2.load (.auto n) = some (thrown_into c X file func line)
      ∧ m2.ctxt_stack_p = some (.auto n)
      ∧ m2.ctxt_0 = m.ctxt_0 := by
  obtain ⟨G, hG, hmem⟩ := find_target_exists m l X F hF
  obtain ⟨c, hc⟩ := isChain_loaded m l m.ctxt_stack_p G hchain hmem
  have hreg0 : regAt m X .static0 = false := by
    simp [regAt, Machine.load, registers, hcount]
  have hfin0 : finAt m .static0 = false := by
    simp [finAt, Machine.load, hfinal]
  have hFne : F ≠ .static0 := by
    intro e
    have h := List.find?_some hF
    rw [e, hreg0] at h
    cases h
  cases G with
  | static0 =>
      have hsel := List.find?_some hG
      simp only [Bool.or_eq_true, beq_iff_eq] at hsel
      rcases hsel with h | h
      · exact absurd h.symm hFne
      · rw [hfin0] at h
        cases h
  | auto n =>
      refine ⟨n, c, _, ?_, hmem, hc,
        throw_loc_chain_into mem m l X file func line F (.auto n) c hchain hF hG hc, ?_, ?_, ?_⟩
      · rw [finally_search_chain m F l _ _ hchain (isChain_length m l _ hchain), hG]
      · exact load_store_same _ (.auto n) c _ (by simpa using hc)
      · simp [store_ctxt_stack_p]
      · simp [Machine.store]

/-- C19, at a concrete input: identity 1 thrown on `sample_stack`. -/
theorem target_is_never_sentinel_witness :
    isChain sample_stack sample_stack.ctxt_stack_p [.auto 2, .auto 1, .auto 0, .static0] = true
      ∧ sample_stack.ctxt_0.except_count = 0 ∧ sample_stack.ctxt_0.has_finally = false
      ∧ [CtxtPtr.auto 2, .auto 1, .auto 0, .static0].find? (regAt sample_stack 1)
          = some (.auto 0)
      ∧ ∃ n c m2, finally_search sample_stack (some (.auto 0)) sample_stack.steps
              sample_stack.ctxt_stack_p = .stop (some (.auto n))
          ∧ CtxtPtr.auto n ∈ [CtxtPtr.auto 2, .auto 1, .auto 0, .static0]
          ∧ sample_stack.load (.auto n) = some c
          ∧ monos_except_throw_loc sample_mem 1 (some "f.c") (some "main") 7 sample_stack
              = .jump (.auto n) m2
          ∧ m2.load (.auto n) = some (thrown_into c 1 (some "f.c") (some "main") 7)
          ∧ m2.ctxt_stack_p = some (.auto n)
          ∧ m2.ctxt_0 = sample_stack.ctxt_0 :=
  ⟨by decide, by decide, by decide, by decide,
   target_is_never_sentinel sample_mem sample_stack [.auto 2, .auto 1, .auto 0, .static0] 1
     (some "f.c") (some "main") 7 (.auto 0) (by decide) (by decide) (by decide) (by decide)⟩

/-- C20: on a frame stack `l`, `monos_except_throw_loc` with its two loops is
the same as the throw with the search in one pass (`throw_single_pass`).
The throw is unhandled (it aborts) exactly when no frame of `l` registers
`X`, whatever the finally flags are; and when some frame registers `X`,
control is transferred to the first frame of `l`, from the top, that
registers `X` or has `has_finally` set. -/
theorem two_pass_is_single_pass (mem : Nat → monos_except) (m : Machine) (l : List CtxtPtr)
    (X : Nat) (file func : Option String) (line : Nat)
    (hchain : isChain m m.ctxt_stack_p l = true) :
    monos_except_throw_loc mem X file func line m = throw_single_pass mem X file func line m
      ∧ ((∃ s, monos_except_throw_loc mem X file func line m = .aborted s)
          ↔ ∀ q ∈ l, regAt m X q = false)
      ∧ ((∃ q ∈ l, regAt m X q = true) →
          ∃ G m2, monos_except_throw_loc mem X file func line m = .jump G m2
            ∧ l.find? (fun q => regAt m X q || finAt m q) = some G)
      ∧ (∀ G m2, monos_except_throw_loc mem X file func line m = .jump G m2 →
          l.find? (fun q => regAt m X q || finAt m q) = some G) := by
  have hjump : ∀ F, l.find? (regAt m X) = some F →
      ∃ G m2, monos_except_throw_loc mem X file func line m = .jump G m2
        ∧ l.find? (fun q => regAt m X q || finAt m q) = some G := by
    intro F hF
    obtain ⟨G, hG, hmem⟩ := find_target_exists m l X F hF
    obtain ⟨c, hc⟩ := isChain_loaded m l m.ctxt_stack_p G hchain hmem
    exact ⟨G, _, throw_loc_chain mem m l X file func line F G c hchain hF hG hc,
      by rw [← find_target_eq m X F l hF]; exact hG⟩
  have hnone_of : l.find? (regAt m X) = none → ∀ q ∈ l, regAt m X q = false := by
    intro hfind q hq
    have h := List.find?_eq_none.mp hfind q hq
    simpa using h
  refine ⟨throw_eq_single_pass mem m l X file func line hchain, ?_, ?_, ?_⟩
  · constructor
    · rintro ⟨s, hs⟩
      cases hfind : l.find? (regAt m X) with
      | none => exact hnone_of hfind
      | some F =>
          obtain ⟨G, m2, hthrow, _⟩ := hjump F hfind
          rw [hthrow] at hs
          cases hs
    · intro hnone
      exact ⟨_, throw_loc_unhandled mem m l X file func line hchain hnone⟩
  · rintro ⟨q, hq, hreg⟩
    cases hfind : l.find? (regAt m X) with
    | none =>
        rw [hnone_of hfind q hq] at hreg
        cases hreg
    | some F => exact hjump F hfind
  · intro G m2 hthrow
    cases hfind : l.find? (regAt m X) with
    | none =>
        rw [throw_loc_unhandled mem m l X file func line hchain (hnone_of hfind)] at hthrow
        cases hthrow
    | some F =>
        obtain ⟨G2, m3, hthrow2, hG2⟩ := hjump F hfind
        rw [hthrow2] at hthrow
        cases hthrow
        exact hG2

/-- C20, at a concrete input: identity 1 thrown on `sample_stack`; the target
is the block with the finally clause. -/
theorem two_pass_is_single_pass_witness :
    isChain sample_stack sample_stack.ctxt_stack_p [.auto 2, .auto 1, .auto 0, .static0] = true
      ∧ monos_except_throw_loc sample_mem 1 (some "f.c") (some "main") 7 sample_stack
          = throw_single_pass sample_mem 1 (some "f.c") (some "main") 7 sample_stack
      ∧ (∃ q ∈ [CtxtPtr.auto 2, .auto 1, .auto 0, .static0], regAt sample_stack 1 q = true)
      ∧ ∃ G m2, monos_except_throw_loc sample_mem 1 (some "f.c") (some "main") 7 sample_stack
            = .jump G m2
          ∧ [CtxtPtr.auto 2, .auto 1, .auto 0, .static0].find?
              (fun q => regAt sample_stack 1 q || finAt sample_stack q) = some G :=
  have key := two_pass_is_single_pass sample_mem sample_stack
    [.auto 2, .auto 1, .auto 0, .static0] 1 (some "f.c") (some "main") 7 (by decide)
  ⟨by decide, key.1, ⟨.auto 0, by decide, by decide⟩,
   key.2.2.1 ⟨.auto 0, by decide, by decide⟩⟩

end claims

end Monos
